import Mathlib

/-!
# Package `parallel` of juniper: worker pools over an index range

A shallow embedding of `parallel/parallel.go` and `parallel/parallel_go1.18.go`.

Goroutines are modelled by explicit control points and a step function that advances one
goroutine by one atomic action; an interleaving is the list of goroutine ids in the order the Go
scheduler lets them act.  A user function `f` with side effects is a function on an explicit
memory `σ`; it answers `none` when the call panics.
-/

set_option autoImplicit false

namespace parallel

/-! ## Definitions -/

/-- Value of a mathematical integer once stored in a Go `int32` (two's complement wraparound). -/
def wrapInt32 (v : Int) : Int := (v + 2147483648) % 4294967296 - 2147483648

/-- Control point of one worker goroutine spawned by `Do` (parallel.go, lines 35-44). -/
inductive DoWorker where
  /-- About to run `i := int(atomic.AddInt32(&x, 1))`. -/
  | fetch
  /-- Holds `i`; about to test `i >= n` and, if the test fails, to call `f(i)`. -/
  | hold (i : Int)
  /-- Left the loop through `return`; `wg.Done()` has run. -/
  | exited
  deriving DecidableEq, Repr

/-- Shared state of a running `Do`: the counter `x`, the goroutines, the memory `f` acts on,
the arguments of the calls to `f` so far (oldest first), and whether a call to `f` panicked. -/
structure DoState (σ : Type) where
  x : Int
  workers : List DoWorker
  mem : σ
  calls : List Int
  crashed : Bool

/-- State after `x := int32(-1)` and the spawning of `parallelism` goroutines. -/
def Do.init {σ : Type} (parallelism : Int) (mem : σ) : DoState σ :=
  { x := -1, workers := List.replicate parallelism.toNat DoWorker.fetch, mem := mem,
    calls := [], crashed := false }

/-- One atomic action of goroutine `j`; `none` when `j` has no action left (it has exited, it
does not exist, or the process died in a panic).  A call of `f` that panics ends the execution:
the state is marked `crashed` and no further action is modelled.  The short time in which the
deferred `wg.Done()` of the panicking goroutine has run and the runtime has not yet ended the
process is not part of the model. -/
def Do.step {σ : Type} (n : Int) (f : Int → σ → Option σ) (s : DoState σ) (j : Nat) :
    Option (DoState σ) :=
  if s.crashed then none
  else
    match s.workers[j]? with
    | some DoWorker.fetch =>
      let x1 := wrapInt32 (s.x + 1)
      some { s with x := x1, workers := s.workers.set j (DoWorker.hold x1) }
    | some (DoWorker.hold i) =>
      if i ≥ n then some { s with workers := s.workers.set j DoWorker.exited }
      else
        match f i s.mem with
        | some m =>
          some { s with mem := m, calls := s.calls ++ [i],
                        workers := s.workers.set j DoWorker.fetch }
        | none => some { s with calls := s.calls ++ [i], crashed := true }
    | _ => none

/-- Runs the goroutines in the order given by the interleaving `sched`. -/
def Do.run {σ : Type} (n : Int) (f : Int → σ → Option σ) :
    DoState σ → List Nat → Option (DoState σ)
  | s, [] => some s
  | s, j :: sched =>
    match Do.step n f s j with
    | some s1 => Do.run n f s1 sched
    | none => none

/-- The condition under which `wg.Wait()` returns: every goroutine has exited. -/
def Do.returned {σ : Type} (s : DoState σ) : Bool :=
  !s.crashed && s.workers.all (fun w => w == DoWorker.exited)

/-- The loop `for i := 0; i < n; i++ { f(i) }` of the `parallelism == 1` branch, started at `i`
with `calls` already made.  The first argument bounds the number of iterations; `Do` passes
`n.toNat`, after which `i < n` is false. -/
def Do.loop {σ : Type} (n : Int) (f : Int → σ → Option σ) :
    Nat → Int → σ → List Int → Option (σ × List Int)
  | 0, _, m, calls => some (m, calls)
  | k + 1, i, m, calls =>
    if i < n then
      match f i m with
      | some m1 => Do.loop n f k (i + 1) m1 (calls ++ [i])
      | none => none
    else some (m, calls)

/-- Model of `Do(parallelism, n, f)`.  `gomaxprocs` is the value of `runtime.GOMAXPROCS(-1)`,
`mem` the memory `f` acts on and `sched` the interleaving of the goroutines.  The result is the
memory when `Do` returns together with the arguments `f` was called with, in call order; it is
`none` when `f` panicked or when `sched` is not a complete execution. -/
def Do {σ : Type} (gomaxprocs parallelism n : Int) (f : Int → σ → Option σ) (mem : σ)
    (sched : List Nat) : Option (σ × List Int) :=
  let parallelism := if parallelism ≤ 0 then gomaxprocs else parallelism
  if parallelism = 1 then Do.loop n f n.toNat 0 mem []
  else
    match Do.run n f (Do.init parallelism mem) sched with
    | some s => if Do.returned s then some (s.mem, s.calls) else none
    | none => none

/-- The integers `0, 1, ..., k - 1` in increasing order. -/
def upTo (k : Nat) : List Int := (List.range k).map Int.ofNat

/-- The memory after `f` has been called with the arguments `calls`, one call after the other,
starting from `m`; `none` when one of the calls panics. -/
def Do.replay {σ : Type} (f : Int → σ → Option σ) : List Int → σ → Option σ
  | [], m => some m
  | i :: rest, m =>
    match f i m with
    | some m1 => Do.replay f rest m1
    | none => none

/-- Number of counter values at or above `n` a goroutine may still draw: one while it is
fetching or holds an index below `n`, none afterwards. -/
def Do.credit (n : Int) : DoWorker → Nat
  | DoWorker.fetch => 1
  | DoWorker.hold i => if i < n then 1 else 0
  | DoWorker.exited => 0

/-- One for a goroutine that holds an index, zero otherwise. -/
def Do.holding : DoWorker → Nat
  | DoWorker.hold _ => 1
  | _ => 0

/-- Number of atomic actions left before every goroutine has exited, in the range where the
counter does not wrap. -/
def Do.potential {σ : Type} (n : Int) (s : DoState σ) : Int :=
  2 * (n + s.workers.length - (s.x + 1)) + ((s.workers.map Do.holding).sum : Nat)

/-- The facts that hold in every state of a `Do` whose counter cannot wrap. -/
structure Do.Inv {σ : Type} (n : Int) (s : DoState σ) : Prop where
  alive : s.crashed = false
  lo : -1 ≤ s.x
  budget : s.x + 1 - n + ((s.workers.map (Do.credit n)).sum : Nat) ≤ s.workers.length
  called : ∀ v ∈ s.calls, 0 ≤ v ∧ v < n ∧ v ≤ s.x
  nodup : s.calls.Nodup
  held : ∀ (j : Nat) (i : Int), s.workers[j]? = some (DoWorker.hold i) →
    0 ≤ i ∧ i ≤ s.x ∧ i ∉ s.calls ∧ ∀ k : Nat, s.workers[k]? = some (DoWorker.hold i) → k = j
  cover : ∀ v, 0 ≤ v → v ≤ s.x → v < n →
    v ∈ s.calls ∨ ∃ j : Nat, s.workers[j]? = some (DoWorker.hold v)
  gone : ∀ j : Nat, s.workers[j]? = some DoWorker.exited → n ≤ s.x

/-- The closure `func(i int) { out[i] = f(in[i]) }` that `Map` hands to `Do`, as a function on
the slice `out`.  It panics when `i` is not an index of `in`; `out` has the length of `in`, so
`out[i]` is in range exactly when `in[i]` is. -/
def Map.store {T U : Type} (f : T → U) (input : List T) (i : Int) (out : List U) :
    Option (List U) :=
  if 0 ≤ i then
    match input[i.toNat]? with
    | some a => some (out.set i.toNat (f a))
    | none => none
  else none

/-- Model of `Map(parallelism, in, f)`; `zero` is the zero value of `U` that `make([]U, len(in))`
fills `out` with.  The result is `none` when the closure panicked or when `sched` is not a
complete execution of `Do`. -/
def Map {T U : Type} (gomaxprocs parallelism : Int) (input : List T) (f : T → U) (zero : U)
    (sched : List Nat) : Option (List U) :=
  let out := List.replicate input.length zero
  match Do gomaxprocs parallelism (input.length : Int) (Map.store f input) out sched with
  | some r => some r.1
  | none => none

/-- What `Map` has written so far: `out` keeps its length, and every index that was passed to
the closure holds the image of the element of `in` at that index. -/
def Map.Stored {T U : Type} (f : T → U) (input : List T) (mem : List U) (calls : List Int) :
    Prop :=
  mem.length = input.length ∧
    ∀ v ∈ calls, 0 ≤ v → v < input.length → mem[v.toNat]? = input[v.toNat]?.map f

/-- No goroutine has left the loop and every held index is an `int32` value. -/
def Do.Stuck {σ : Type} (s : DoState σ) : Prop :=
  ∀ (j : Nat) (w : DoWorker), s.workers[j]? = some w →
    w ≠ DoWorker.exited ∧ ∀ i, w = DoWorker.hold i → i < 2147483648

/-- A non-nil Go `error` value: the two errors of package `context` and the errors of `f`. -/
inductive Error where
  | Canceled
  | DeadlineExceeded
  | Failure (code : Nat)
  deriving DecidableEq, Repr

/-- Control point of one goroutine started by `eg.Go` in `DoContext` (parallel.go, lines
80-96). -/
inductive CtxWorker where
  /-- About to run `i := int(atomic.AddInt32(&x, 1))`. -/
  | fetch
  /-- Holds `i`; about to test `i >= n` and then `ctx.Err() != nil`. -/
  | hold (i : Int)
  /-- Both tests passed; about to call `f(ctx, i)`. -/
  | ready (i : Int)
  /-- Left the loop with the non-nil error `e`, which the errgroup has not recorded yet. -/
  | failing (e : Error)
  /-- The goroutine is over. -/
  | exited
  deriving DecidableEq, Repr

/-- The index a goroutine has drawn and not yet dealt with. -/
def CtxWorker.index : CtxWorker → Option Int
  | CtxWorker.hold i => some i
  | CtxWorker.ready i => some i
  | _ => none

/-- Shared state of a running `DoContext`: the counter `x`, the goroutines, the memory `f` acts
on, the calls to `f` so far with the error each returned (oldest first; a call that panicked is
listed with `none`), `ctx.Err()` of the errgroup's context, the error recorded by the errgroup,
and whether a call to `f` panicked. -/
structure CtxState (σ : Type) where
  x : Int
  workers : List CtxWorker
  mem : σ
  calls : List (Int × Option Error)
  ctx : Option Error
  err : Option Error
  crashed : Bool

/-- State after `x := int32(-1)`, `errgroup.WithContext(ctx)` and the `eg.Go` calls; `ctx` is
`ctx.Err()` of the caller's context. -/
def DoContext.init {σ : Type} (ctx : Option Error) (parallelism : Int) (mem : σ) : CtxState σ :=
  { x := -1, workers := List.replicate parallelism.toNat CtxWorker.fetch, mem := mem,
    calls := [], ctx := ctx, err := none, crashed := false }

/-- One atomic action of goroutine `j`; `none` when `j` has no action left.  A goroutine that
returns a non-nil error has it recorded by the errgroup in a later action of its own; the first
error recorded cancels the context.  A call of `f` that panics ends the execution: the state is
marked `crashed` and no further action is modelled.  The short time in which the deferred
`done()` of the errgroup has run for the panicking goroutine and the runtime has not yet ended
the process is not part of the model. -/
def DoContext.step {σ : Type} (n : Int)
    (f : Option Error → Int → σ → Option (σ × Option Error)) (s : CtxState σ) (j : Nat) :
    Option (CtxState σ) :=
  if s.crashed then none
  else
    match s.workers[j]? with
    | some CtxWorker.fetch =>
      let x1 := wrapInt32 (s.x + 1)
      some { s with x := x1, workers := s.workers.set j (CtxWorker.hold x1) }
    | some (CtxWorker.hold i) =>
      if i ≥ n then some { s with workers := s.workers.set j CtxWorker.exited }
      else
        match s.ctx with
        | some e => some { s with workers := s.workers.set j (CtxWorker.failing e) }
        | none => some { s with workers := s.workers.set j (CtxWorker.ready i) }
    | some (CtxWorker.ready i) =>
      match f s.ctx i s.mem with
      | some (m, none) =>
        some { s with mem := m, calls := s.calls ++ [(i, none)],
                      workers := s.workers.set j CtxWorker.fetch }
      | some (m, some e) =>
        some { s with mem := m, calls := s.calls ++ [(i, some e)],
                      workers := s.workers.set j (CtxWorker.failing e) }
      | none => some { s with calls := s.calls ++ [(i, none)], crashed := true }
    | some (CtxWorker.failing e) =>
      match s.err with
      | none =>
        some { s with err := some e, workers := s.workers.set j CtxWorker.exited,
                      ctx := match s.ctx with
                        | none => some Error.Canceled
                        | some c => some c }
      | some _ => some { s with workers := s.workers.set j CtxWorker.exited }
    | _ => none

/-- Runs the goroutines in the order given by the interleaving `sched`. -/
def DoContext.run {σ : Type} (n : Int)
    (f : Option Error → Int → σ → Option (σ × Option Error)) :
    CtxState σ → List Nat → Option (CtxState σ)
  | s, [] => some s
  | s, j :: sched =>
    match DoContext.step n f s j with
    | some s1 => DoContext.run n f s1 sched
    | none => none

/-- The condition under which `eg.Wait()` returns: every goroutine is over. -/
def DoContext.returned {σ : Type} (s : CtxState σ) : Bool :=
  !s.crashed && s.workers.all (fun w => w == CtxWorker.exited)

/-- What `DoContext` leaves behind when it returns. -/
structure DoContext.Result (σ : Type) where
  mem : σ
  calls : List (Int × Option Error)
  err : Option Error
  deriving DecidableEq, Repr

/-- The loop of the `parallelism == 1` branch of `DoContext`, started at `i`.  The first
argument bounds the number of iterations; `DoContext` passes `n.toNat`. -/
def DoContext.loop {σ : Type} (n : Int)
    (f : Option Error → Int → σ → Option (σ × Option Error)) (ctx : Option Error) :
    Nat → Int → σ → List (Int × Option Error) → Option (DoContext.Result σ)
  | 0, _, m, calls => some ⟨m, calls, none⟩
  | k + 1, i, m, calls =>
    if i < n then
      match f ctx i m with
      | some (m1, none) => DoContext.loop n f ctx k (i + 1) m1 (calls ++ [(i, none)])
      | some (m1, some e) => some ⟨m1, calls ++ [(i, some e)], some e⟩
      | none => none
    else some ⟨m, calls, none⟩

/-- Model of `DoContext(ctx, parallelism, n, f)`.  `ctx` is `ctx.Err()` of the caller's context
at the time of the call (`none` while it is not cancelled), and `f` receives the current
`ctx.Err()` of the context it is given.  The result is `none` when `f` panicked or when `sched`
is not a complete execution. -/
def DoContext {σ : Type} (gomaxprocs : Int) (ctx : Option Error) (parallelism n : Int)
    (f : Option Error → Int → σ → Option (σ × Option Error)) (mem : σ) (sched : List Nat) :
    Option (DoContext.Result σ) :=
  let parallelism := if parallelism ≤ 0 then gomaxprocs else parallelism
  if parallelism = 1 then DoContext.loop n f ctx n.toNat 0 mem []
  else
    match DoContext.run n f (DoContext.init ctx parallelism mem) sched with
    | some s => if DoContext.returned s then some ⟨s.mem, s.calls, s.err⟩ else none
    | none => none

/-- The memory after `f` has been called under the context `ctx` with the indices listed in
`calls`, one call after the other, starting from `m`, when every call returns the error listed
with its index; `none` when one of the calls panics or returns something else than listed. -/
def DoContext.replay {σ : Type} (f : Option Error → Int → σ → Option (σ × Option Error))
    (ctx : Option Error) : List (Int × Option Error) → σ → Option σ
  | [], m => some m
  | (i, e) :: rest, m =>
    match f ctx i m with
    | some (m1, e1) => if e1 = e then DoContext.replay f ctx rest m1 else none
    | none => none

/-- The closure `func(ctx, i) error { var err error; out[i], err = f(ctx, in[i]); return err }`
that `MapContext` hands to `DoContext`.  It panics when `i` is not an index of `in`. -/
def MapContext.store {T U : Type} (f : Option Error → T → U × Option Error) (input : List T)
    (ctx : Option Error) (i : Int) (out : List U) : Option (List U × Option Error) :=
  if 0 ≤ i then
    match input[i.toNat]? with
    | some a => some (out.set i.toNat (f ctx a).1, (f ctx a).2)
    | none => none
  else none

/-- Model of `MapContext(ctx, parallelism, in, f)`.  A nil slice is `none`. -/
def MapContext {T U : Type} (gomaxprocs : Int) (ctx : Option Error) (parallelism : Int)
    (input : List T) (f : Option Error → T → U × Option Error) (zero : U) (sched : List Nat) :
    Option (Option (List U) × Option Error) :=
  let out := List.replicate input.length zero
  match DoContext gomaxprocs ctx parallelism (input.length : Int) (MapContext.store f input)
      out sched with
  | some r =>
    match r.err with
    | some e => some (none, some e)
    | none => some (some r.mem, none)
  | none => none

/-- No failure has happened so far: no call panicked, the errgroup holds no error and no
goroutine is on its way out with one. -/
def DoContext.Good {σ : Type} (s : CtxState σ) : Prop :=
  s.crashed = false ∧ s.err = none ∧ ∀ (j : Nat) (e : Error), s.workers[j]? ≠ some (CtxWorker.failing e)

/-- What holds of a `DoContext` in which no failure has happened and the counter has not wrapped:
every drawn index below `n` has been passed to `f` or is still held by a goroutine, every call
returned nil, and a goroutine has left only after the counter reached `n`. -/
structure DoContext.Core {σ : Type} (n : Int) (s : CtxState σ) : Prop where
  lo : -1 ≤ s.x
  range : ∀ (j : Nat) (w : CtxWorker) (i : Int), s.workers[j]? = some w → w.index = some i →
    0 ≤ i ∧ i ≤ s.x
  cover : ∀ v, 0 ≤ v → v ≤ s.x → v < n →
    v ∈ s.calls.map Prod.fst ∨ ∃ (j : Nat) (w : CtxWorker), s.workers[j]? = some w ∧ w.index = some v
  gone : ∀ j : Nat, s.workers[j]? = some CtxWorker.exited → n ≤ s.x
  clean : ∀ c ∈ s.calls, c.2 = none

/-- Number of counter values at or above `n` a goroutine of `DoContext` may still draw. -/
def DoContext.credit (n : Int) : CtxWorker → Nat
  | CtxWorker.fetch => 1
  | CtxWorker.hold i => if i < n then 1 else 0
  | CtxWorker.ready i => if i < n then 1 else 0
  | CtxWorker.failing _ => 0
  | CtxWorker.exited => 0

/-- Number of actions a goroutine of `DoContext` can take before its next draw or its end. -/
def DoContext.rank : CtxWorker → Nat
  | CtxWorker.exited => 0
  | CtxWorker.failing _ => 1
  | CtxWorker.fetch => 2
  | CtxWorker.ready _ => 3
  | CtxWorker.hold _ => 4

/-- Upper bound on the number of actions left, in the range where the counter does not wrap. -/
def DoContext.potential {σ : Type} (n : Int) (s : CtxState σ) : Int :=
  3 * (n + s.workers.length - (s.x + 1)) + ((s.workers.map DoContext.rank).sum : Nat)

/-- Bookkeeping of the indices: every index passed to `f` lies in `[0, n)` and was passed once;
every index held by a goroutine is held by it alone and has not been passed to `f`; a goroutine
about to call `f` holds an index below `n`. -/
def DoContext.Ledger (n x : Int) (ws : List CtxWorker) (calls : List (Int × Option Error)) :
    Prop :=
  (∀ c ∈ calls, 0 ≤ c.1 ∧ c.1 < n ∧ c.1 ≤ x) ∧ (calls.map Prod.fst).Nodup ∧
  (∀ (j : Nat) (w : CtxWorker) (i : Int), ws[j]? = some w → w.index = some i →
    0 ≤ i ∧ i ≤ x ∧ i ∉ calls.map Prod.fst ∧
    ∀ (k : Nat) (w1 : CtxWorker), ws[k]? = some w1 → w1.index = some i → k = j) ∧
  (∀ (j : Nat) (i : Int), ws[j]? = some (CtxWorker.ready i) → i < n)

/-- The facts that hold in every state of a `DoContext` whose counter cannot wrap. -/
structure DoContext.Inv {σ : Type} (n : Int) (s : CtxState σ) : Prop where
  alive : s.crashed = false
  lo : -1 ≤ s.x
  budget : s.x + 1 - n + ((s.workers.map (DoContext.credit n)).sum : Nat) ≤ s.workers.length
  ledger : DoContext.Ledger n s.x s.workers s.calls
  core : DoContext.Good s → DoContext.Core n s

/-- What `DoContext` guarantees about a result: `f` was called on indices of `[0, n)` only and
on none twice, and a nil result means that `f` was called on every index of `[0, n)` and
returned nil each time. -/
def DoContext.Post {σ : Type} (n : Int) (r : DoContext.Result σ) : Prop :=
  (r.calls.map Prod.fst).Nodup ∧ (∀ c ∈ r.calls, 0 ≤ c.1 ∧ c.1 < n) ∧
  (r.err = none → (r.calls.map Prod.fst).Perm (upTo n.toNat) ∧ ∀ c ∈ r.calls, c.2 = none)

/-- Some goroutine holds a negative index: the counter has wrapped. -/
def DoContext.Doomed {σ : Type} (s : CtxState σ) : Prop :=
  ∃ (j : Nat) (w : CtxWorker) (i : Int), s.workers[j]? = some w ∧ w.index = some i ∧ i < 0

/-- What holds of every state of a `DoContext` whose `f` panics on negative indices, whatever
`n` and the number of goroutines: as long as no failure has happened, either the counter has
wrapped and a goroutine holds a negative index, or the facts of `Core` hold. -/
def DoContext.Sound {σ : Type} (n : Int) (s : CtxState σ) : Prop :=
  s.x < 2147483648 ∧ (DoContext.Good s → DoContext.Doomed s ∨ DoContext.Core n s)

/-- No goroutine has left its loop, none is on its way out, every index held is an `int32`
value, the context is not cancelled and the errgroup holds no error. -/
def DoContext.Trapped {σ : Type} (s : CtxState σ) : Prop :=
  s.ctx = none ∧ s.err = none ∧
    ∀ (j : Nat) (w : CtxWorker), s.workers[j]? = some w →
      w = CtxWorker.fetch ∨
        ∃ i, i < 2147483648 ∧ (w = CtxWorker.hold i ∨ w = CtxWorker.ready i)

/-- What `MapContext` has written so far, as long as the errgroup holds no error: the context
is as the caller passed it and every index passed to the closure holds the value `f` returns for
the element of `in` at that index. -/
def MapContext.Stored {T U : Type} (f : Option Error → T → U × Option Error) (input : List T)
    (ctx : Option Error) (s : CtxState (List U)) : Prop :=
  s.err = none →
    s.ctx = ctx ∧ Map.Stored (fun a => (f ctx a).1) input s.mem (s.calls.map Prod.fst)

/-- What holds of the goroutines of a `DoContext` that was handed a context already cancelled
with error `e0`, for `n ≥ 1`: the context stays cancelled with `e0`, `f` is never called, the
only error around is `e0`, and the refusal of index 0 is on its way: recorded by the errgroup,
carried by a goroutine on its way out, still to be noticed by the goroutine holding index 0, or
no goroutine has drawn an index yet. -/
def DoContext.Refused {σ : Type} (e0 : Error) (s : CtxState σ) : Prop :=
  s.crashed = false ∧ s.ctx = some e0 ∧ s.calls = [] ∧ (s.err = none ∨ s.err = some e0) ∧
  (∀ (j : Nat) (w : CtxWorker), s.workers[j]? = some w →
    (∀ i, w ≠ CtxWorker.ready i) ∧ ∀ e, w = CtxWorker.failing e → e = e0) ∧
  (s.err = some e0 ∨ (∃ j : Nat, s.workers[j]? = some (CtxWorker.failing e0)) ∨
    (∃ j : Nat, s.workers[j]? = some (CtxWorker.hold 0)) ∨
    (s.x = -1 ∧ ∀ (j : Nat) (w : CtxWorker), s.workers[j]? = some w → w = CtxWorker.fetch))

/-- Number of actions a goroutine has left when the context is cancelled from the start. -/
def DoContext.rest : CtxWorker → Nat
  | CtxWorker.fetch => 3
  | CtxWorker.hold _ => 2
  | CtxWorker.ready _ => 2
  | CtxWorker.failing _ => 1
  | CtxWorker.exited => 0

/-- The pair `valueAndIndex[T]` of parallel_go1.18.go.  The field `idx` is a Go `int`; the only
values it ever takes are those of the producer's counter `i`, which starts at 0 and is
incremented by one per item, so it is modelled as a natural number. -/
structure valueAndIndex (T : Type) where
  value : T
  idx : Nat
  deriving DecidableEq, Repr

/-- Insertion of `x` into a list sorted by `less`, before the first element it is less than. -/
def xheap.insert {T : Type} (less : T → T → Bool) (x : T) : List T → List T
  | [] => [x]
  | y :: ys => if less x y then x :: y :: ys else y :: xheap.insert less x ys

/-- Modelled from the spec: `xheap.Heap` of `container/xheap`, whose source is not part of the
material.  The spec (section 6) describes it as "a min-priority structure over (index, value)
ordered by index, exposing push/peek-min/pop-min/size".  The model keeps the elements in a list
sorted by `less`, least element first. -/
structure xheap.Heap (T : Type) where
  less : T → T → Bool
  items : List T

/-- Modelled from the spec: `xheap.New(less, nil)`, the empty heap ordered by `less`. -/
def xheap.New {T : Type} (less : T → T → Bool) : xheap.Heap T := ⟨less, []⟩

/-- Modelled from the spec: `Len`, the number of elements ("size"). -/
def xheap.Heap.Len {T : Type} (h : xheap.Heap T) : Nat := h.items.length

/-- Modelled from the spec: `Push` ("push"). -/
def xheap.Heap.Push {T : Type} (h : xheap.Heap T) (x : T) : xheap.Heap T :=
  { h with items := xheap.insert h.less x h.items }

/-- Modelled from the spec: `Peek` ("peek-min"), the least element, if there is one. -/
def xheap.Heap.Peek {T : Type} (h : xheap.Heap T) : Option T := h.items.head?

/-- Modelled from the spec: `Pop` ("pop-min"), the least element and the heap without it. -/
def xheap.Heap.Pop {T : Type} (h : xheap.Heap T) : Option (T × xheap.Heap T) :=
  match h.items with
  | [] => none
  | x :: xs => some (x, { h with items := xs })

/-- The order `func(a, b valueAndIndex[U]) bool { return a.idx < b.idx }` that `MapIterator` and
`MapStream` give to their heap. -/
def idxLess {U : Type} (a b : valueAndIndex U) : Bool := decide (a.idx < b.idx)

/-- The struct `mapIterator[U]`.  The channel `c` is given by the items that are still to arrive
on it, in arrival order; it is closed after the last of them. -/
structure mapIterator (U : Type) where
  c : List (valueAndIndex U)
  h : xheap.Heap (valueAndIndex U)
  i : Nat

/-- The test `h.Len() > 0 && h.Peek().idx == i` of both `Next` methods. -/
def releasable {U : Type} (h : xheap.Heap (valueAndIndex U)) (i : Nat) : Bool :=
  decide (h.Len > 0) &&
    (match h.Peek with
     | some top => decide (top.idx = i)
     | none => false)

/-- Outcome of one pass through the body of the `for` loop of `mapIterator.Next`. -/
inductive mapIterator.Pass (U : Type) where
  /-- `return item.value, true`. -/
  | value (u : U) (next : mapIterator U)
  /-- `return zero, false`. -/
  | finished (next : mapIterator U)
  /-- An item was received and pushed; the loop goes round again. -/
  | again (next : mapIterator U)

/-- One pass through the body of the `for` loop of `mapIterator.Next` (lines 128-138). -/
def mapIterator.pass {U : Type} (iter : mapIterator U) : mapIterator.Pass U :=
  if releasable iter.h iter.i then
    match iter.h.Pop with
    | some (item, h1) => mapIterator.Pass.value item.value { iter with h := h1, i := iter.i + 1 }
    | none => mapIterator.Pass.finished iter
  else
    match iter.c with
    | [] => mapIterator.Pass.finished iter
    | item :: rest => mapIterator.Pass.again { iter with c := rest, h := iter.h.Push item }

/-- The loop of `mapIterator.Next`, by recursion on the items still to arrive. -/
def mapIterator.Next.loop {U : Type} :
    List (valueAndIndex U) → xheap.Heap (valueAndIndex U) → Nat → Option U × mapIterator U
  | [], h, i =>
    match mapIterator.pass ⟨[], h, i⟩ with
    | mapIterator.Pass.value u next => (some u, next)
    | mapIterator.Pass.finished next => (none, next)
    | mapIterator.Pass.again next => (none, next)
  | item :: rest, h, i =>
    match mapIterator.pass ⟨item :: rest, h, i⟩ with
    | mapIterator.Pass.value u next => (some u, next)
    | mapIterator.Pass.finished next => (none, next)
    | mapIterator.Pass.again _ => mapIterator.Next.loop rest (h.Push item) i

/-- Model of `mapIterator.Next`: the result `(u, true)` is `some u`, the result `(zero, false)`
is `none`; the second component is the iterator after the call. -/
def mapIterator.Next {U : Type} (iter : mapIterator U) : Option U × mapIterator U :=
  mapIterator.Next.loop iter.c iter.h iter.i

/-- Result of `stream.Stream.Next`: a value with a nil error, the sentinel `stream.End`, or
another error. -/
inductive NextResult (U : Type) where
  | value (u : U)
  | End
  | failed (e : Error)
  deriving DecidableEq, Repr

/-- The struct `mapStream[U]`, as far as `Next` uses it.  The channel `c` is given by the items
that are still to arrive on it, in arrival order, and is closed after the last of them; `eg` is
what `s.eg.Wait()` returns once the channel is closed. -/
structure mapStream (U : Type) where
  eg : Option Error
  c : List (valueAndIndex U)
  h : xheap.Heap (valueAndIndex U)
  i : Nat

/-- Outcome of one pass through the body of the `for` loop of `mapStream.Next`. -/
inductive mapStream.Pass (U : Type) where
  /-- `Next` returns with this result. -/
  | result (r : NextResult U) (next : mapStream U)
  /-- An item was received and pushed; the loop goes round again. -/
  | again (next : mapStream U)

/-- One pass through the body of the `for` loop of `mapStream.Next` (lines 243-260).  `ctx` is
`ctx.Err()` of the context given to `Next`; `pick` tells whether the `select` takes the case
`<-ctx.Done()` when that case is ready. -/
def mapStream.pass {U : Type} (s : mapStream U) (ctx : Option Error) (pick : Bool) :
    mapStream.Pass U :=
  if releasable s.h s.i then
    match s.h.Pop with
    | some (item, h1) =>
      mapStream.Pass.result (NextResult.value item.value) { s with h := h1, i := s.i + 1 }
    | none => mapStream.Pass.result NextResult.End s
  else
    match ctx, pick with
    | some e, true => mapStream.Pass.result (NextResult.failed e) s
    | _, _ =>
      match s.c with
      | [] =>
        match s.eg with
        | some e => mapStream.Pass.result (NextResult.failed e) s
        | none => mapStream.Pass.result NextResult.End s
      | item :: rest => mapStream.Pass.again { s with c := rest, h := s.h.Push item }

/-- The loop of `mapStream.Next`, by recursion on the items still to arrive; `picks` lists the
choices of the successive `select` statements (none left: the receive case is taken). -/
def mapStream.Next.loop {U : Type} (eg ctx : Option Error) :
    List (valueAndIndex U) → xheap.Heap (valueAndIndex U) → Nat → List Bool →
      NextResult U × mapStream U
  | [], h, i, picks =>
    match mapStream.pass ⟨eg, [], h, i⟩ ctx (picks.headD false) with
    | mapStream.Pass.result r next => (r, next)
    | mapStream.Pass.again next => (NextResult.End, next)
  | item :: rest, h, i, picks =>
    match mapStream.pass ⟨eg, item :: rest, h, i⟩ ctx (picks.headD false) with
    | mapStream.Pass.result r next => (r, next)
    | mapStream.Pass.again _ => mapStream.Next.loop eg ctx rest (h.Push item) i picks.tail

/-- Model of `mapStream.Next(ctx)`. -/
def mapStream.Next {U : Type} (s : mapStream U) (ctx : Option Error) (picks : List Bool) :
    NextResult U × mapStream U :=
  mapStream.Next.loop s.eg ctx s.c s.h s.i picks

/-- The results of `k` successive calls of `mapIterator.Next`, and the iterator after them. -/
def mapIterator.drain {U : Type} : Nat → mapIterator U → List (Option U) × mapIterator U
  | 0, iter => ([], iter)
  | k + 1, iter =>
    let r := mapIterator.Next iter
    let rest := mapIterator.drain k r.2
    (r.1 :: rest.1, rest.2)

/-- The results of `k` successive calls of `mapStream.Next` with a context that is never
cancelled, and the stream after them. -/
def mapStream.drain {U : Type} : Nat → mapStream U → List (NextResult U) × mapStream U
  | 0, s => ([], s)
  | k + 1, s =>
    let r := mapStream.Next s none []
    let rest := mapStream.drain k r.2
    (r.1 :: rest.1, rest.2)

/-- The result pairs `(k, f(x_k)), (k + 1, f(x_{k+1})), ...` of the inputs `x_k, x_{k+1}, ...`,
in input order. -/
def resultItemsFrom {T U : Type} (f : T → U) : Nat → List T → List (valueAndIndex U)
  | _, [] => []
  | k, x :: xs => ⟨f x, k⟩ :: resultItemsFrom f (k + 1) xs

/-- The result pairs `(k, f(x_k))` of the input `x_0, ..., x_{n-1}`, in input order. -/
def resultItems {T U : Type} (f : T → U) (xs : List T) : List (valueAndIndex U) :=
  resultItemsFrom f 0 xs

/-- The reorder buffer and the channel hold between them the results of the inputs `ys` that
are still to be released, numbered from `i`; the heap is ordered by index. -/
def Pending {T U : Type} (f : T → U) (c : List (valueAndIndex U))
    (h : xheap.Heap (valueAndIndex U)) (i : Nat) (ys : List T) : Prop :=
  (c ++ h.items).Perm (resultItemsFrom f i ys) ∧ h.less = idxLess ∧
    h.items.Pairwise (fun a b => a.idx ≤ b.idx)

/-- The iterator a pass of `mapIterator.Next` leaves behind. -/
def mapIterator.Pass.next {U : Type} : mapIterator.Pass U → mapIterator U
  | mapIterator.Pass.value _ next => next
  | mapIterator.Pass.finished next => next
  | mapIterator.Pass.again next => next

/-- The iterator after `k` passes through the loop body of `mapIterator.Next`, over as many
calls of `Next` as that takes. -/
def mapIterator.after {U : Type} : Nat → mapIterator U → mapIterator U
  | 0, iter => iter
  | k + 1, iter => mapIterator.after k (mapIterator.pass iter).next

/-- The stream a pass of `mapStream.Next` leaves behind. -/
def mapStream.Pass.next {U : Type} : mapStream.Pass U → mapStream U
  | mapStream.Pass.result _ next => next
  | mapStream.Pass.again next => next

/-- The stream after one pass through the loop body of `mapStream.Next` for each entry of
`events`, over as many calls of `Next` as that takes; an entry gives `ctx.Err()` of the context
of the call and the choice of the `select`. -/
def mapStream.after {U : Type} : List (Option Error × Bool) → mapStream U → mapStream U
  | [], s => s
  | ev :: events, s => mapStream.after events (mapStream.pass s ev.1 ev.2).next

/-- Invariant of the reorder buffer: no element of the heap and no item still to arrive has an
index below the cursor `i`, and the indices of all of them are pairwise distinct. -/
def Buffered {U : Type} (c : List (valueAndIndex U)) (h : xheap.Heap (valueAndIndex U))
    (i : Nat) : Prop :=
  (∀ x ∈ h.items, i ≤ x.idx) ∧ (∀ x ∈ c, i ≤ x.idx) ∧
    ((c ++ h.items).map (fun x => x.idx)).Nodup

/-- Control point of the producer goroutine of `MapStream` (parallel_go1.18.go, lines
172-195). -/
inductive Producer (T : Type) where
  /-- About to call `s.Next(ctx)`. -/
  | pull
  /-- Holds `item`; blocked in the `select` that sends it on `in` or sees `ctx.Done()`. -/
  | send (item : T)
  /-- Left the loop with result `r`; the deferred `close(in)` and `s.Close()` are still to
  run. -/
  | returning (r : Option Error)
  /-- The deferred calls have run; the errgroup has not looked at `r` yet. -/
  | reporting (r : Option Error)
  /-- The goroutine is over. -/
  | exited
  deriving DecidableEq, Repr

/-- Control point of one worker goroutine of `MapStream` (lines 200-218). -/
inductive StreamWorker (T U : Type) where
  /-- Blocked in `for item := range in`. -/
  | recv
  /-- Received the item `x` with index `idx`; about to call `f(ctx, item.value)`. -/
  | got (x : T) (idx : Nat)
  /-- `f` returned `u` and a nil error; blocked in the `select` that sends the result on `c` or
  sees `ctx.Done()`. -/
  | send (u : U) (idx : Nat)
  /-- Left the loop with result `r`; the deferred function is still to run. -/
  | returning (r : Option Error)
  /-- The deferred function has run; the errgroup has not looked at `r` yet. -/
  | reporting (r : Option Error)
  /-- The goroutine is over. -/
  | exited
  deriving DecidableEq, Repr

/-- State of a `MapStream` pipeline and of its consumer: the producer with its counter `i`
(`pi`), the channel `in` (unbuffered, so only whether it is closed), the workers, the buffer of
the channel `c` and whether it is closed, the counter `nDone`, `ctx.Err()` of the errgroup's
context, the error recorded by the errgroup, the heap and cursor of the returned `mapStream`,
the values the calls of `Next` have returned so far, and the first result of `Next` that is not
a value (after which the consumer stops calling `Next`). -/
structure Pipe (T U : Type) where
  producer : Producer T
  pi : Nat
  inClosed : Bool
  workers : List (StreamWorker T U)
  queue : List (valueAndIndex U)
  cClosed : Bool
  nDone : Nat
  ctx : Option Error
  err : Option Error
  h : xheap.Heap (valueAndIndex U)
  i : Nat
  out : List U
  result : Option (NextResult U)

/-- The atomic actions of the goroutines of a `MapStream` pipeline and of its consumer. -/
inductive Action where
  /-- The producer calls `s.Next(ctx)`. -/
  | pull
  /-- The producer's send on `in` meets the receive of worker `j`; the producer runs `i++`. -/
  | give (j : Nat)
  /-- The producer's `select` takes `<-ctx.Done()`. -/
  | producerQuit
  /-- The producer's deferred `close(in)` and `s.Close()` run. -/
  | producerDefer
  /-- The errgroup looks at the producer's result. -/
  | producerReport
  /-- Worker `j` finds `in` closed. -/
  | recvClosed (j : Nat)
  /-- Worker `j` calls `f`. -/
  | call (j : Nat)
  /-- Worker `j` sends its result on `c`. -/
  | put (j : Nat)
  /-- The `select` of worker `j` takes `<-ctx.Done()`. -/
  | quit (j : Nat)
  /-- The deferred function of worker `j` runs. -/
  | workerDefer (j : Nat)
  /-- The errgroup looks at the result of worker `j`. -/
  | workerReport (j : Nat)
  /-- The consumer makes one pass through the loop body of `mapStream.Next`. -/
  | next
  deriving DecidableEq, Repr

/-- What the errgroup does with the result `r` of a goroutine: the first non-nil error is kept
and cancels the context. -/
def Pipe.record {T U : Type} (s : Pipe T U) (r : Option Error) : Pipe T U :=
  match r, s.err with
  | some e, none =>
    { s with err := some e,
             ctx := match s.ctx with
               | none => some Error.Canceled
               | some c => some c }
  | _, _ => s

/-- The condition under which `s.eg.Wait()` returns: producer and workers are over. -/
def Pipe.allExited {T U : Type} [DecidableEq T] [DecidableEq U] (s : Pipe T U) : Bool :=
  decide (s.producer = Producer.exited) && s.workers.all (fun w => w == StreamWorker.exited)

/-- The consumer is blocked receiving from `c`: it is still calling `Next` and the test on the
heap fails. -/
def Pipe.receiving {T U : Type} (s : Pipe T U) : Bool :=
  s.result.isNone && !releasable s.h s.i

/-- State right after `MapStream(ctx, s, parallelism, bufferSize, f)` has returned, for a
context that is not cancelled: `parallelism` workers wait for items, nothing has been pulled
from the input. -/
def MapStream.init {T U : Type} (parallelism : Nat) : Pipe T U :=
  { producer := Producer.pull, pi := 0, inClosed := false,
    workers := List.replicate parallelism StreamWorker.recv, queue := [], cClosed := false,
    nDone := 0, ctx := none, err := none, h := xheap.New idxLess, i := 0, out := [],
    result := none }

/-- One atomic action of a `MapStream` pipeline over the input stream that yields the elements
of `input` and then `stream.End`; `none` when the action is not possible in state `s`.
`parallelism` is the number of workers (after the `GOMAXPROCS` default), `bufferSize` the
capacity of `c`.  The context handed to `Next` is never cancelled. -/
def MapStream.step {T U : Type} [DecidableEq T] [DecidableEq U] (input : List T)
    (f : T → U × Option Error) (parallelism bufferSize : Nat) (s : Pipe T U) :
    Action → Option (Pipe T U)
  | Action.pull =>
    match s.producer with
    | Producer.pull =>
      match input[s.pi]? with
      | some x => some { s with producer := Producer.send x }
      | none => some { s with producer := Producer.returning none }
    | _ => none
  | Action.give j =>
    match s.producer, s.workers[j]? with
    | Producer.send x, some StreamWorker.recv =>
      some { s with producer := Producer.pull, pi := s.pi + 1,
                    workers := s.workers.set j (StreamWorker.got x s.pi) }
    | _, _ => none
  | Action.producerQuit =>
    match s.producer, s.ctx with
    | Producer.send _, some e => some { s with producer := Producer.returning (some e) }
    | _, _ => none
  | Action.producerDefer =>
    match s.producer with
    | Producer.returning r => some { s with inClosed := true, producer := Producer.reporting r }
    | _ => none
  | Action.producerReport =>
    match s.producer with
    | Producer.reporting r => some ({ s with producer := Producer.exited }.record r)
    | _ => none
  | Action.recvClosed j =>
    match s.workers[j]? with
    | some StreamWorker.recv =>
      if s.inClosed then some { s with workers := s.workers.set j (StreamWorker.returning none) }
      else none
    | _ => none
  | Action.call j =>
    match s.workers[j]? with
    | some (StreamWorker.got x idx) =>
      match f x with
      | (u, none) => some { s with workers := s.workers.set j (StreamWorker.send u idx) }
      | (_, some e) =>
        some { s with workers := s.workers.set j (StreamWorker.returning (some e)) }
    | _ => none
  | Action.put j =>
    match s.workers[j]? with
    | some (StreamWorker.send u idx) =>
      if s.queue.length < bufferSize ∨ (bufferSize = 0 ∧ s.queue = [] ∧ s.receiving = true) then
        some { s with queue := s.queue ++ [⟨u, idx⟩],
                      workers := s.workers.set j StreamWorker.recv }
      else none
    | _ => none
  | Action.quit j =>
    match s.workers[j]?, s.ctx with
    | some (StreamWorker.send _ _), some e =>
      some { s with workers := s.workers.set j (StreamWorker.returning (some e)) }
    | _, _ => none
  | Action.workerDefer j =>
    match s.workers[j]? with
    | some (StreamWorker.returning r) =>
      some { s with nDone := s.nDone + 1,
                    cClosed := s.cClosed || decide (s.nDone + 1 = parallelism),
                    workers := s.workers.set j (StreamWorker.reporting r) }
    | _ => none
  | Action.workerReport j =>
    match s.workers[j]? with
    | some (StreamWorker.reporting r) =>
      some ({ s with workers := s.workers.set j StreamWorker.exited }.record r)
    | _ => none
  | Action.next =>
    if s.result.isSome then none
    else if releasable s.h s.i ∨ s.queue ≠ [] ∨ (s.cClosed = true ∧ s.allExited = true) then
      match mapStream.pass ⟨s.err, s.queue, s.h, s.i⟩ none false with
      | mapStream.Pass.result (NextResult.value u) nx =>
        some { s with out := s.out ++ [u], h := nx.h, i := nx.i }
      | mapStream.Pass.result r _ => some { s with result := some r }
      | mapStream.Pass.again nx => some { s with queue := nx.c, h := nx.h }
    else none

/-- Runs a `MapStream` pipeline and its consumer along the interleaving `sched`. -/
def MapStream.run {T U : Type} [DecidableEq T] [DecidableEq U] (input : List T)
    (f : T → U × Option Error) (parallelism bufferSize : Nat) :
    Pipe T U → List Action → Option (Pipe T U)
  | s, [] => some s
  | s, a :: sched =>
    match MapStream.step input f parallelism bufferSize s a with
    | some s1 => MapStream.run input f parallelism bufferSize s1 sched
    | none => none

/-- What a worker of `MapStream` holds is genuine: a received item is the input element of its
index, which the producer has passed, and a result waiting to be sent is what `f` returned,
with a nil error, for the input element of its index. -/
def StreamWorker.Genuine {T U : Type} (input : List T) (f : T → U × Option Error) (pi : Nat) :
    StreamWorker T U → Prop
  | StreamWorker.got x idx => idx < pi ∧ input[idx]? = some x
  | StreamWorker.send u idx => ∃ x, input[idx]? = some x ∧ f x = (u, none)
  | _ => True

/-- Integrity of a `MapStream` pipeline whose `f` fails on no input before position `k` and
fails at position `k`: workers, result channel and heap hold genuine items only, the producer
holds the input element of its counter, `Next` has returned the images of the first `i` inputs
in input order, and the cursor `i` has not passed `k`. -/
structure Pipe.Sane {T U : Type} (input : List T) (f : T → U × Option Error) (k : Nat)
    (s : Pipe T U) : Prop where
  workers : ∀ (j : Nat) (w : StreamWorker T U), s.workers[j]? = some w →
    StreamWorker.Genuine input f s.pi w
  stored : ∀ item ∈ s.queue ++ s.h.items,
    ∃ x, input[item.idx]? = some x ∧ f x = (item.value, none)
  held : ∀ x, s.producer = Producer.send x → input[s.pi]? = some x
  out : s.out = (input.take s.i).map (fun x => (f x).1)
  cursor : s.i ≤ k

/-- The error `e1` is what `f` returns for some input element at position `k` or later. -/
def Caused {T U : Type} (input : List T) (f : T → U × Option Error) (k : Nat) (e1 : Error) :
    Prop :=
  ∃ (j : Nat) (x : T), k ≤ j ∧ input[j]? = some x ∧ (f x).2 = some e1

/-- The non-nil error a worker is leaving with, if there is one. -/
def StreamWorker.failed {T U : Type} : StreamWorker T U → Option Error
  | StreamWorker.returning (some e) => some e
  | StreamWorker.reporting (some e) => some e
  | _ => none

/-- No failure has happened in the pipeline: the errgroup holds no error and no worker is
leaving with one. -/
def Pipe.Clean {T U : Type} (s : Pipe T U) : Prop :=
  s.err = none ∧ ∀ (j : Nat) (w : StreamWorker T U), s.workers[j]? = some w → w.failed = none

/-- Where the errors of a `MapStream` pipeline come from, when the caller's context is never
cancelled: the context is cancelled exactly when the errgroup holds an error; that error was
returned by `f`; a worker leaves with an error returned by `f` or after the errgroup recorded
one; the producer leaves with an error only after the errgroup recorded one; and as long as no
failure has happened, `f` returned nil for every element already handed to a worker unless the
worker still holds it, and the producer has left only after handing over the whole input. -/
structure Pipe.Blame {T U : Type} (input : List T) (f : T → U × Option Error) (k : Nat)
    (s : Pipe T U) : Prop where
  ctx : s.ctx = none ↔ s.err = none
  err : ∀ e1, s.err = some e1 → Caused input f k e1
  worker : ∀ (j : Nat) (w : StreamWorker T U), s.workers[j]? = some w →
    ∀ e1, w.failed = some e1 → Caused input f k e1 ∨ s.err ≠ none
  producer : ∀ e1, (s.producer = Producer.returning (some e1) ∨
    s.producer = Producer.reporting (some e1)) → s.err ≠ none
  clean : Pipe.Clean s →
    (∀ idx, idx < s.pi → (∃ x, input[idx]? = some x ∧ (f x).2 = none) ∨
      ∃ (j : Nat) (x : T), s.workers[j]? = some (StreamWorker.got x idx)) ∧
    (s.producer ≠ Producer.pull → (∀ x, s.producer ≠ Producer.send x) →
      input.length ≤ s.pi)


/-- Number of actions the producer can still take when `left` input elements are still to be
handed over, up to a constant factor. -/
def Producer.rank {T : Type} (left : Nat) : Producer T → Nat
  | Producer.pull => 6 * left + 3
  | Producer.send _ => 6 * left + 2
  | Producer.returning _ => 2
  | Producer.reporting _ => 1
  | Producer.exited => 0

/-- Number of actions a worker can still take without receiving another item. -/
def StreamWorker.rank {T U : Type} : StreamWorker T U → Nat
  | StreamWorker.recv => 3
  | StreamWorker.got _ _ => 7
  | StreamWorker.send _ _ => 6
  | StreamWorker.returning _ => 2
  | StreamWorker.reporting _ => 1
  | StreamWorker.exited => 0

/-- Bound on the number of actions a `MapStream` pipeline over `n` input elements and its
consumer can still take. -/
def Pipe.potential {T U : Type} (n : Nat) (s : Pipe T U) : Nat :=
  s.producer.rank (n - s.pi) + (s.workers.map StreamWorker.rank).sum + 2 * s.queue.length +
    s.h.items.length + (if s.result.isSome then 0 else 1)

/-! ## Theorems -/

theorem wrapInt32_of_range (v : Int) (h0 : -2147483648 ≤ v) (h1 : v < 2147483648) :
    wrapInt32 v = v := by
  unfold wrapInt32
  omega

theorem sum_map_set {α : Type} (g : α → Nat) (b : α) :
    ∀ (l : List α) (j : Nat) (a : α), l[j]? = some a →
      ((l.set j b).map g).sum + g a = (l.map g).sum + g b := by
  intro l
  induction l with
  | nil => intro j a h; simp at h
  | cons c l ih =>
    intro j a h
    cases j with
    | zero =>
      simp at h
      subst h
      simp
      omega
    | succ j =>
      simp at h
      have := ih j a h
      simp only [List.set_cons_succ, List.map_cons, List.sum_cons]
      omega

theorem le_sum_map_of_getElem {α : Type} (g : α → Nat) :
    ∀ (l : List α) (j : Nat) (a : α), l[j]? = some a → g a ≤ (l.map g).sum := by
  intro l
  induction l with
  | nil => intro j a h; simp at h
  | cons c l ih =>
    intro j a h
    cases j with
    | zero =>
      simp at h
      subst h
      simp
    | succ j =>
      simp at h
      have := ih j a h
      simp
      omega

theorem sum_map_le_length {α : Type} (g : α → Nat) (hg : ∀ a, g a ≤ 1) :
    ∀ (l : List α), (l.map g).sum ≤ l.length := by
  intro l
  induction l with
  | nil => simp
  | cons c l ih =>
    have := hg c
    simp
    omega

theorem Do.credit_le_one (n : Int) (w : DoWorker) : Do.credit n w ≤ 1 := by
  cases w <;> simp [Do.credit]
  split <;> simp

theorem Do.holding_le_one (w : DoWorker) : Do.holding w ≤ 1 := by
  cases w <;> simp [Do.holding]

theorem getElem?_set_cases {α : Type} (l : List α) (j k : Nat) (b w : α)
    (h : (l.set j b)[k]? = some w) : (k = j ∧ w = b) ∨ (k ≠ j ∧ l[k]? = some w) := by
  by_cases hk : k = j
  · subst hk
    rw [List.getElem?_set] at h
    simp at h
    exact Or.inl ⟨rfl, h.2.symm⟩
  · rw [List.getElem?_set_ne (Ne.symm hk)] at h
    exact Or.inr ⟨hk, h⟩

theorem getElem?_set_same {α : Type} (l : List α) (j : Nat) (a b : α) (h : l[j]? = some a) :
    (l.set j b)[j]? = some b := by
  have hlt : j < l.length := by
    rcases List.getElem?_eq_some.mp h with ⟨hj, _⟩
    exact hj
  exact List.getElem?_set_self hlt

theorem forall_getElem?_set {α : Type} (Q : α → Prop) (l : List α) (j : Nat) (b : α)
    (hold : ∀ (k : Nat) (a : α), l[k]? = some a → Q a) (hb : Q b) :
    ∀ (k : Nat) (a : α), (l.set j b)[k]? = some a → Q a := by
  intro k a hk
  rcases getElem?_set_cases _ _ _ _ _ hk with ⟨_, ha⟩ | ⟨_, hold1⟩
  · rw [ha]
    exact hb
  · exact hold k a hold1

/-- A goroutine that draws the next counter value keeps the invariant. -/
theorem Do.Inv.fetch {σ : Type} {n : Int} {s : DoState σ} (h : Do.Inv n s) (j : Nat)
    (hw : s.workers[j]? = some DoWorker.fetch) :
    Do.Inv n { s with x := s.x + 1, workers := s.workers.set j (DoWorker.hold (s.x + 1)) } := by
  have hsum := sum_map_set (Do.credit n) (DoWorker.hold (s.x + 1)) s.workers j _ hw
  have hle := sum_map_le_length (Do.credit n) (Do.credit_le_one n)
    (s.workers.set j (DoWorker.hold (s.x + 1)))
  have hnew := getElem?_set_same s.workers j _ (DoWorker.hold (s.x + 1)) hw
  refine ⟨h.alive, ?_, ?_, ?_, h.nodup, ?_, ?_, ?_⟩
  · have := h.lo
    show -1 ≤ s.x + 1
    omega
  · have hb := h.budget
    simp only [List.length_set] at hle ⊢
    simp only [Do.credit] at hsum
    by_cases hx : s.x + 1 < n
    · rw [if_pos hx] at hsum
      omega
    · rw [if_neg hx] at hsum
      omega
  · intro v hv
    have := h.called v hv
    show 0 ≤ v ∧ v < n ∧ v ≤ s.x + 1
    omega
  · intro k i hk
    show 0 ≤ i ∧ i ≤ s.x + 1 ∧ i ∉ s.calls ∧
      ∀ k1 : Nat, (s.workers.set j (DoWorker.hold (s.x + 1)))[k1]? = some (DoWorker.hold i) →
        k1 = k
    rcases getElem?_set_cases _ _ _ _ _ hk with ⟨hkj, hi⟩ | ⟨hkj, hold⟩
    · injection hi with hi
      subst hi
      have hlo := h.lo
      refine ⟨by omega, le_refl _, ?_, ?_⟩
      · intro hmem
        have := h.called _ hmem
        omega
      · intro k1 hk1
        rcases getElem?_set_cases _ _ _ _ _ hk1 with ⟨hk1j, _⟩ | ⟨_, hold1⟩
        · rw [hk1j, hkj]
        · have := (h.held k1 _ hold1).2.1
          omega
    · have hh := h.held k i hold
      refine ⟨hh.1, by omega, hh.2.2.1, ?_⟩
      intro k1 hk1
      rcases getElem?_set_cases _ _ _ _ _ hk1 with ⟨_, hi⟩ | ⟨_, hold1⟩
      · injection hi with hi
        omega
      · exact hh.2.2.2 k1 hold1
  · intro v hv0 hvx hvn
    show v ∈ s.calls ∨
      ∃ j1 : Nat, (s.workers.set j (DoWorker.hold (s.x + 1)))[j1]? = some (DoWorker.hold v)
    have hvx1 : v ≤ s.x + 1 := hvx
    by_cases hveq : v = s.x + 1
    · subst hveq
      exact Or.inr ⟨j, hnew⟩
    · rcases h.cover v hv0 (by omega) hvn with hc | ⟨j1, hj1⟩
      · exact Or.inl hc
      · refine Or.inr ⟨j1, ?_⟩
        have hne : j ≠ j1 := by
          intro hEq
          subst hEq
          rw [hw] at hj1
          cases hj1
        rw [List.getElem?_set_ne hne]
        exact hj1
  · intro k hk
    show n ≤ s.x + 1
    rcases getElem?_set_cases _ _ _ _ _ hk with ⟨_, hi⟩ | ⟨_, hold⟩
    · cases hi
    · have := h.gone k hold
      omega

/-- A goroutine that sees `i >= n` and returns keeps the invariant. -/
theorem Do.Inv.leave {σ : Type} {n : Int} {s : DoState σ} (h : Do.Inv n s) (j : Nat) (i : Int)
    (hw : s.workers[j]? = some (DoWorker.hold i)) (hi : n ≤ i) :
    Do.Inv n { s with workers := s.workers.set j DoWorker.exited } := by
  have hsum := sum_map_set (Do.credit n) DoWorker.exited s.workers j _ hw
  refine ⟨h.alive, h.lo, ?_, h.called, h.nodup, ?_, ?_, ?_⟩
  · have hb := h.budget
    simp only [List.length_set]
    simp only [Do.credit] at hsum
    rw [if_neg (by omega)] at hsum
    show s.x + 1 - n + ((List.map (Do.credit n) (s.workers.set j DoWorker.exited)).sum : Nat)
      ≤ s.workers.length
    omega
  · intro k i1 hk
    show 0 ≤ i1 ∧ i1 ≤ s.x ∧ i1 ∉ s.calls ∧
      ∀ k1 : Nat, (s.workers.set j DoWorker.exited)[k1]? = some (DoWorker.hold i1) → k1 = k
    rcases getElem?_set_cases _ _ _ _ _ hk with ⟨_, hc⟩ | ⟨_, hold⟩
    · cases hc
    · have hh := h.held k i1 hold
      refine ⟨hh.1, hh.2.1, hh.2.2.1, ?_⟩
      intro k1 hk1
      rcases getElem?_set_cases _ _ _ _ _ hk1 with ⟨_, hc⟩ | ⟨_, hold1⟩
      · cases hc
      · exact hh.2.2.2 k1 hold1
  · intro v hv0 hvx hvn
    show v ∈ s.calls ∨ ∃ j1 : Nat, (s.workers.set j DoWorker.exited)[j1]? = some (DoWorker.hold v)
    rcases h.cover v hv0 hvx hvn with hc | ⟨j1, hj1⟩
    · exact Or.inl hc
    · refine Or.inr ⟨j1, ?_⟩
      have hne : j ≠ j1 := by
        intro hEq
        subst hEq
        rw [hw] at hj1
        injection hj1 with hj1
        injection hj1 with hj1
        omega
      rw [List.getElem?_set_ne hne]
      exact hj1
  · intro k hk
    show n ≤ s.x
    rcases getElem?_set_cases _ _ _ _ _ hk with ⟨_, _⟩ | ⟨_, hold⟩
    · have := (h.held j i hw).2.1
      omega
    · exact h.gone k hold

/-- A goroutine that calls `f(i)` and goes back to the counter keeps the invariant. -/
theorem Do.Inv.call {σ : Type} {n : Int} {s : DoState σ} (h : Do.Inv n s) (j : Nat) (i : Int)
    (m : σ) (hw : s.workers[j]? = some (DoWorker.hold i)) (hi : i < n) :
    Do.Inv n { s with mem := m, calls := s.calls ++ [i],
                      workers := s.workers.set j DoWorker.fetch } := by
  have hsum := sum_map_set (Do.credit n) DoWorker.fetch s.workers j _ hw
  have hj := h.held j i hw
  refine ⟨h.alive, h.lo, ?_, ?_, ?_, ?_, ?_, ?_⟩
  · have hb := h.budget
    simp only [List.length_set]
    simp only [Do.credit] at hsum
    rw [if_pos hi] at hsum
    show s.x + 1 - n + ((List.map (Do.credit n) (s.workers.set j DoWorker.fetch)).sum : Nat)
      ≤ s.workers.length
    omega
  · intro v hv
    show 0 ≤ v ∧ v < n ∧ v ≤ s.x
    rcases List.mem_append.mp hv with hv | hv
    · exact h.called v hv
    · rw [List.mem_singleton.mp hv]
      exact ⟨hj.1, hi, hj.2.1⟩
  · show (s.calls ++ [i]).Nodup
    rw [List.nodup_append]
    refine ⟨h.nodup, List.nodup_singleton i, ?_⟩
    intro a ha hai
    rw [List.mem_singleton.mp hai] at ha
    exact hj.2.2.1 ha
  · intro k i1 hk
    show 0 ≤ i1 ∧ i1 ≤ s.x ∧ i1 ∉ s.calls ++ [i] ∧
      ∀ k1 : Nat, (s.workers.set j DoWorker.fetch)[k1]? = some (DoWorker.hold i1) → k1 = k
    rcases getElem?_set_cases _ _ _ _ _ hk with ⟨_, hc⟩ | ⟨hkj, hold⟩
    · cases hc
    · have hh := h.held k i1 hold
      refine ⟨hh.1, hh.2.1, ?_, ?_⟩
      · intro hmem
        rcases List.mem_append.mp hmem with hmem | hmem
        · exact hh.2.2.1 hmem
        · rw [List.mem_singleton.mp hmem] at hold
          exact hkj (hj.2.2.2 k hold)
      · intro k1 hk1
        rcases getElem?_set_cases _ _ _ _ _ hk1 with ⟨_, hc⟩ | ⟨_, hold1⟩
        · cases hc
        · exact hh.2.2.2 k1 hold1
  · intro v hv0 hvx hvn
    show v ∈ s.calls ++ [i] ∨
      ∃ j1 : Nat, (s.workers.set j DoWorker.fetch)[j1]? = some (DoWorker.hold v)
    rcases h.cover v hv0 hvx hvn with hc | ⟨j1, hj1⟩
    · exact Or.inl (List.mem_append.mpr (Or.inl hc))
    · by_cases hEq : j = j1
      · subst hEq
        rw [hw] at hj1
        injection hj1 with hj1
        injection hj1 with hj1
        subst hj1
        exact Or.inl (List.mem_append.mpr (Or.inr (List.mem_singleton.mpr rfl)))
      · refine Or.inr ⟨j1, ?_⟩
        rw [List.getElem?_set_ne hEq]
        exact hj1
  · intro k hk
    show n ≤ s.x
    rcases getElem?_set_cases _ _ _ _ _ hk with ⟨_, hc⟩ | ⟨_, hold⟩
    · cases hc
    · exact h.gone k hold

/-- While a goroutine is still fetching, the next counter value fits an `int32`. -/
theorem Do.Inv.no_wrap {σ : Type} {n : Int} {s : DoState σ} (h : Do.Inv n s) (j : Nat)
    (hw : s.workers[j]? = some DoWorker.fetch) (hb : n + s.workers.length ≤ 2147483648) :
    wrapInt32 (s.x + 1) = s.x + 1 := by
  have hc := le_sum_map_of_getElem (Do.credit n) s.workers j _ hw
  simp only [Do.credit] at hc
  have hbud := h.budget
  have hlo := h.lo
  apply wrapInt32_of_range <;> omega

/-- Every enabled action keeps the invariant and uses up exactly one unit of potential. -/
theorem Do.step_inv {σ : Type} {n : Int} (f : Int → σ → Option σ)
    (hf : ∀ i m, 0 ≤ i → i < n → (f i m).isSome = true) {s s1 : DoState σ} {j : Nat}
    (h : Do.Inv n s) (hb : n + s.workers.length ≤ 2147483648)
    (hs : Do.step n f s j = some s1) :
    Do.Inv n s1 ∧ s1.workers.length = s.workers.length ∧
      Do.potential n s1 + 1 = Do.potential n s := by
  unfold Do.step at hs
  rw [if_neg (by simp [h.alive])] at hs
  cases hw : s.workers[j]? with
  | none => rw [hw] at hs; cases hs
  | some w =>
    rw [hw] at hs
    cases w with
    | exited => cases hs
    | fetch =>
      simp only [Option.some.injEq] at hs
      rw [h.no_wrap j hw hb] at hs
      subst hs
      refine ⟨h.fetch j hw, by simp, ?_⟩
      have hsum := sum_map_set Do.holding (DoWorker.hold (s.x + 1)) s.workers j _ hw
      simp only [Do.holding] at hsum
      simp only [Do.potential, List.length_set]
      omega
    | hold i =>
      by_cases hi : i ≥ n
      · simp only [hi, if_true, Option.some.injEq] at hs
        subst hs
        refine ⟨h.leave j i hw hi, by simp, ?_⟩
        have hsum := sum_map_set Do.holding DoWorker.exited s.workers j _ hw
        simp only [Do.holding] at hsum
        simp only [Do.potential, List.length_set]
        omega
      · simp only [hi, if_false] at hs
        have hsome := hf i s.mem (h.held j i hw).1 (by omega)
        cases hfi : f i s.mem with
        | none => rw [hfi] at hsome; cases hsome
        | some m =>
          rw [hfi] at hs
          simp only [Option.some.injEq] at hs
          subst hs
          refine ⟨h.call j i m hw (by omega), by simp, ?_⟩
          have hsum := sum_map_set Do.holding DoWorker.fetch s.workers j _ hw
          simp only [Do.holding] at hsum
          simp only [Do.potential, List.length_set]
          omega

/-- The invariant holds along every interleaving, and the number of actions taken is the
potential used up. -/
theorem Do.run_inv {σ : Type} {n : Int} (f : Int → σ → Option σ)
    (hf : ∀ i m, 0 ≤ i → i < n → (f i m).isSome = true) :
    ∀ (sched : List Nat) (s s1 : DoState σ), Do.Inv n s →
      n + s.workers.length ≤ 2147483648 → Do.run n f s sched = some s1 →
      Do.Inv n s1 ∧ s1.workers.length = s.workers.length ∧
        Do.potential n s1 + sched.length = Do.potential n s := by
  intro sched
  induction sched with
  | nil =>
    intro s s1 h _ hr
    simp only [Do.run, Option.some.injEq] at hr
    subst hr
    exact ⟨h, rfl, by simp⟩
  | cons j sched ih =>
    intro s s1 h hb hr
    simp only [Do.run] at hr
    cases hs : Do.step n f s j with
    | none => rw [hs] at hr; cases hr
    | some s2 =>
      rw [hs] at hr
      simp only at hr
      obtain ⟨h2, hlen2, hpot2⟩ := Do.step_inv f hf h hb hs
      obtain ⟨h1, hlen1, hpot1⟩ := ih s2 s1 h2 (by rw [hlen2]; exact hb) hr
      refine ⟨h1, by rw [hlen1, hlen2], ?_⟩
      simp only [List.length_cons, Nat.cast_add, Nat.cast_one]
      omega

theorem Do.init_inv {σ : Type} (n p : Int) (mem : σ) (hn : 0 ≤ n) :
    Do.Inv n (Do.init p mem) := by
  refine ⟨rfl, by simp [Do.init], ?_, ?_, ?_, ?_, ?_, ?_⟩
  · have := sum_map_le_length (Do.credit n) (Do.credit_le_one n)
      (List.replicate p.toNat DoWorker.fetch)
    simp only [Do.init]
    omega
  · intro v hv
    simp [Do.init] at hv
  · simp [Do.init]
  · intro j i hj
    simp only [Do.init] at hj
    rw [List.getElem?_replicate] at hj
    split at hj <;> cases hj
  · intro v hv0 hvx
    simp only [Do.init] at hvx
    omega
  · intro j hj
    simp only [Do.init] at hj
    rw [List.getElem?_replicate] at hj
    split at hj <;> cases hj

theorem Do.potential_init {σ : Type} (n p : Int) (mem : σ) (hp : 0 ≤ p) :
    Do.potential n (Do.init p mem) = 2 * (n + p) := by
  have hz : ∀ k : Nat, ((List.replicate k DoWorker.fetch).map Do.holding).sum = 0 := by
    intro k
    induction k with
    | zero => simp
    | succ k ih =>
      simp only [List.replicate_succ, List.map_cons, List.sum_cons, ih]
      simp [Do.holding]
  simp only [Do.potential, Do.init, hz, List.length_replicate]
  have : ((p.toNat : Nat) : Int) = p := Int.toNat_of_nonneg hp
  omega

theorem Do.run_append {σ : Type} (n : Int) (f : Int → σ → Option σ) :
    ∀ (a b : List Nat) (s : DoState σ),
      Do.run n f s (a ++ b) = (Do.run n f s a).bind (fun s1 => Do.run n f s1 b) := by
  intro a
  induction a with
  | nil => intro b s; rfl
  | cons j a ih =>
    intro b s
    simp only [List.cons_append, Do.run]
    cases Do.step n f s j with
    | none => rfl
    | some s1 => exact ih b s1

theorem Do.Inv.potential_nonneg {σ : Type} {n : Int} {s : DoState σ} (h : Do.Inv n s) :
    0 ≤ Do.potential n s := by
  have := h.budget
  simp only [Do.potential]
  omega

/-- A live state in which `wg.Wait()` still blocks has a goroutine that can act. -/
theorem Do.progress {σ : Type} (n : Int) (f : Int → σ → Option σ) (s : DoState σ)
    (hal : s.crashed = false) (hr : Do.returned s = false) :
    ∃ j s1, Do.step n f s j = some s1 := by
  simp only [Do.returned, hal, Bool.not_false, Bool.true_and] at hr
  have hex : ∃ w ∈ s.workers, w ≠ DoWorker.exited := by
    by_contra hne
    push_neg at hne
    have : s.workers.all (fun w => w == DoWorker.exited) = true := by
      rw [List.all_eq_true]
      intro w hw
      simp [hne w hw]
    rw [this] at hr
    cases hr
  obtain ⟨w, hw, hne⟩ := hex
  obtain ⟨j, hj⟩ := List.mem_iff_getElem?.mp hw
  refine ⟨j, ?_⟩
  unfold Do.step
  rw [if_neg (by simp [hal]), hj]
  cases w with
  | exited => exact absurd rfl hne
  | fetch => exact ⟨_, rfl⟩
  | hold i =>
    by_cases hi : i ≥ n
    · simp only [hi, if_true]
      exact ⟨_, rfl⟩
    · simp only [hi, if_false]
      cases f i s.mem with
      | none => exact ⟨_, rfl⟩
      | some m => exact ⟨_, rfl⟩

/-- Every state of a non-wrapping `Do` can be run to the point where `wg.Wait()` returns. -/
theorem Do.completes {σ : Type} {n : Int} (f : Int → σ → Option σ)
    (hf : ∀ i m, 0 ≤ i → i < n → (f i m).isSome = true) :
    ∀ (k : Nat) (s : DoState σ), Do.Inv n s → n + s.workers.length ≤ 2147483648 →
      Do.potential n s ≤ k →
      ∃ ext s1, Do.run n f s ext = some s1 ∧ Do.returned s1 = true := by
  intro k
  induction k with
  | zero =>
    intro s h hb hk
    cases hr : Do.returned s with
    | true => exact ⟨[], s, rfl, hr⟩
    | false =>
      obtain ⟨j, s1, hs⟩ := Do.progress n f s h.alive hr
      obtain ⟨h1, _, hpot⟩ := Do.step_inv f hf h hb hs
      have := h1.potential_nonneg
      simp only [Nat.cast_zero] at hk
      omega
  | succ k ih =>
    intro s h hb hk
    cases hr : Do.returned s with
    | true => exact ⟨[], s, rfl, hr⟩
    | false =>
      obtain ⟨j, s1, hs⟩ := Do.progress n f s h.alive hr
      obtain ⟨h1, hlen, hpot⟩ := Do.step_inv f hf h hb hs
      have hk1 : Do.potential n s1 ≤ k := by
        simp only [Nat.cast_add, Nat.cast_one] at hk
        omega
      obtain ⟨ext, s2, hrun, hret⟩ := ih s1 h1 (by rw [hlen]; exact hb) hk1
      refine ⟨j :: ext, s2, ?_, hret⟩
      simp only [Do.run, hs]
      exact hrun

theorem mem_upTo (k : Nat) (v : Int) : v ∈ upTo k ↔ 0 ≤ v ∧ v < k := by
  simp only [upTo, List.mem_map, List.mem_range]
  constructor
  · rintro ⟨a, ha, rfl⟩
    simp only [Int.ofNat_eq_coe]
    omega
  · rintro ⟨h0, h1⟩
    refine ⟨v.toNat, by omega, ?_⟩
    simp only [Int.ofNat_eq_coe]
    omega

theorem nodup_upTo (k : Nat) : (upTo k).Nodup := by
  unfold upTo
  apply List.Nodup.map
  · intro a b hab
    simpa using hab
  · exact List.nodup_range k

/-- When `wg.Wait()` returns, `f` has been called once with each index below `n` and with
nothing else. -/
theorem Do.Inv.calls_perm {σ : Type} {n : Int} {s : DoState σ} (h : Do.Inv n s)
    (hp : 0 < s.workers.length) (hr : Do.returned s = true) :
    s.calls.Perm (upTo n.toNat) := by
  simp only [Do.returned, h.alive, Bool.not_false, Bool.true_and, List.all_eq_true,
    beq_iff_eq] at hr
  have hall : ∀ (j : Nat) (w : DoWorker), s.workers[j]? = some w → w = DoWorker.exited := by
    intro j w hj
    exact hr w (List.mem_iff_getElem?.mpr ⟨j, hj⟩)
  have h0 : s.workers[0]? = some DoWorker.exited := by
    cases hw : s.workers[0]? with
    | none =>
      rw [List.getElem?_eq_none_iff] at hw
      omega
    | some w => rw [hall 0 w hw]
  have hx := h.gone 0 h0
  rw [List.perm_ext_iff_of_nodup h.nodup (nodup_upTo _)]
  intro v
  rw [mem_upTo]
  constructor
  · intro hv
    have := h.called v hv
    omega
  · rintro ⟨hv0, hv1⟩
    rcases h.cover v hv0 (by omega) (by omega) with hc | ⟨j, hj⟩
    · exact hc
    · have := hall j _ hj
      cases this

/-- The sequential loop started at `i` with `k = n - i` iterations to go calls `f` with
`i, i + 1, ..., n - 1` in this order. -/
theorem Do.loop_calls {σ : Type} {n : Int} (f : Int → σ → Option σ)
    (hf : ∀ i m, 0 ≤ i → i < n → (f i m).isSome = true) :
    ∀ (k : Nat) (i : Int) (m : σ) (calls : List Int), 0 ≤ i → i + k = n →
      ∃ m1, Do.loop n f k i m calls
        = some (m1, calls ++ (List.range k).map (fun t : Nat => i + (t : Int))) := by
  intro k
  induction k with
  | zero =>
    intro i m calls _ _
    exact ⟨m, by simp [Do.loop]⟩
  | succ k ih =>
    intro i m calls hi hik
    have hlt : i < n := by
      simp only [Nat.cast_add, Nat.cast_one] at hik
      omega
    have hsome := hf i m hi hlt
    cases hfi : f i m with
    | none => rw [hfi] at hsome; cases hsome
    | some m1 =>
      obtain ⟨m2, h2⟩ := ih (i + 1) m1 (calls ++ [i]) (by omega)
        (by simp only [Nat.cast_add, Nat.cast_one] at hik; omega)
      refine ⟨m2, ?_⟩
      simp only [Do.loop, hlt, if_true, hfi]
      rw [h2, List.range_succ_eq_map]
      simp only [List.append_assoc, List.singleton_append, List.map_cons, List.map_map,
        Nat.cast_zero, add_zero]
      congr 4
      apply List.map_congr_left
      intro t _
      simp only [Function.comp, Nat.cast_succ]
      omega

theorem Do.loop_upTo {σ : Type} {n : Int} (f : Int → σ → Option σ)
    (hf : ∀ i m, 0 ≤ i → i < n → (f i m).isSome = true) (hn : 0 ≤ n) (m : σ) :
    ∃ m1, Do.loop n f n.toNat 0 m [] = some (m1, upTo n.toNat) := by
  obtain ⟨m1, h1⟩ := Do.loop_calls f hf n.toNat 0 m [] (le_refl 0) (by omega)
  refine ⟨m1, ?_⟩
  rw [h1]
  simp only [List.nil_append, upTo]
  congr 2
  apply List.map_congr_left
  intro t _
  simp

/-- The worker count `Do` ends up with. -/
theorem Do.effective {σ : Type} (gomaxprocs parallelism n : Int) (f : Int → σ → Option σ)
    (mem : σ) (sched : List Nat) :
    Do gomaxprocs parallelism n f mem sched
      = Do gomaxprocs (if parallelism ≤ 0 then gomaxprocs else parallelism) n f mem sched := by
  by_cases hp : parallelism ≤ 0
  · by_cases hg : gomaxprocs ≤ 0
    · simp only [Do, hp, hg, if_true]
    · simp only [Do, hp, hg, if_true, if_false]
  · simp only [Do, hp, if_false]

/-- Whenever `Do` returns, below the wrapping range or with one worker, the arguments of the
calls to `f` are a permutation of `0, ..., n - 1`. -/
theorem Do.result_perm {σ : Type} (gomaxprocs parallelism n : Int)
    (f : Int → σ → Option σ) (mem : σ)
    (hn : 0 ≤ n) (hp : 1 ≤ parallelism) (hb : parallelism = 1 ∨ n + parallelism ≤ 2147483648)
    (hf : ∀ i m, 0 ≤ i → i < n → (f i m).isSome = true) (sched : List Nat) (r : σ × List Int)
    (hr : Do gomaxprocs parallelism n f mem sched = some r) : r.2.Perm (upTo n.toNat) := by
  have hpos : ¬ parallelism ≤ 0 := by omega
  simp only [Do, hpos, if_false] at hr
  by_cases h1 : parallelism = 1
  · simp only [h1, if_true] at hr
    obtain ⟨m1, hm1⟩ := Do.loop_upTo f hf hn mem
    rw [hm1] at hr
    cases hr
    exact List.Perm.refl _
  · simp only [h1, if_false] at hr
    have hlen : ((Do.init parallelism mem).workers.length : Int) = parallelism := by
      simp only [Do.init, List.length_replicate]
      omega
    have hbound : n + ((Do.init parallelism mem).workers.length : Int) ≤ 2147483648 := by
      rw [hlen]
      omega
    cases hrun : Do.run n f (Do.init parallelism mem) sched with
    | none => rw [hrun] at hr; cases hr
    | some s =>
      rw [hrun] at hr
      simp only at hr
      cases hret : Do.returned s with
      | false => rw [hret] at hr; cases hr
      | true =>
        rw [hret] at hr
        simp only [if_true, Option.some.injEq] at hr
        subst hr
        obtain ⟨hs, hl, _⟩ :=
          Do.run_inv f hf sched _ s (Do.init_inv n parallelism mem hn) hbound hrun
        have hwl : 0 < s.workers.length := by
          have : (s.workers.length : Int) = parallelism := by rw [hl, hlen]
          omega
        exact hs.calls_perm hwl hret

/-- Every interleaving of a `Do` below the wrapping range extends to one on which `Do`
returns. -/
theorem Do.extends {σ : Type} (gomaxprocs parallelism n : Int)
    (f : Int → σ → Option σ) (mem : σ)
    (hn : 0 ≤ n) (hp : 1 ≤ parallelism) (hb : parallelism = 1 ∨ n + parallelism ≤ 2147483648)
    (hf : ∀ i m, 0 ≤ i → i < n → (f i m).isSome = true) (sched : List Nat) (s : DoState σ)
    (hrun : Do.run n f (Do.init parallelism mem) sched = some s) :
    ∃ ext r, Do gomaxprocs parallelism n f mem (sched ++ ext) = some r := by
  have hpos : ¬ parallelism ≤ 0 := by omega
  by_cases h1 : parallelism = 1
  · obtain ⟨m1, hm1⟩ := Do.loop_upTo f hf hn mem
    refine ⟨[], (m1, upTo n.toNat), ?_⟩
    simp only [Do, hpos, if_false, h1, if_true]
    exact hm1
  · have hlen : ((Do.init parallelism mem).workers.length : Int) = parallelism := by
      simp only [Do.init, List.length_replicate]
      omega
    have hbound : n + ((Do.init parallelism mem).workers.length : Int) ≤ 2147483648 := by
      rw [hlen]
      omega
    obtain ⟨hs, hl, hpot⟩ :=
      Do.run_inv f hf sched _ s (Do.init_inv n parallelism mem hn) hbound hrun
    have hnn := hs.potential_nonneg
    obtain ⟨ext, s1, hext, hret⟩ := Do.completes f hf (Do.potential n s).toNat s hs
      (by rw [hl]; exact hbound) (by omega)
    refine ⟨ext, (s1.mem, s1.calls), ?_⟩
    simp only [Do, hpos, if_false, h1]
    rw [Do.run_append, hrun]
    show (match Do.run n f s ext with
      | some s => if Do.returned s = true then some (s.mem, s.calls) else none
      | none => none) = some (s1.mem, s1.calls)
    rw [hext]
    simp only [hret, if_true]

theorem Do.replay_append {σ : Type} (f : Int → σ → Option σ) (i : Int) :
    ∀ (l : List Int) (m : σ),
      Do.replay f (l ++ [i]) m = (Do.replay f l m).bind (f i) := by
  intro l
  induction l with
  | nil =>
    intro m
    simp only [List.nil_append, Do.replay, Option.some_bind]
    cases f i m <;> rfl
  | cons c l ih =>
    intro m
    simp only [List.cons_append, Do.replay]
    cases f c m with
    | none => rfl
    | some m1 => exact ih m1

/-- An action of a goroutine of `Do` keeps the memory equal to what the calls made so far leave
behind. -/
theorem Do.replay_step {σ : Type} {n : Int} (f : Int → σ → Option σ) (mem : σ)
    {s s1 : DoState σ} {j : Nat}
    (h : s.crashed = false → Do.replay f s.calls mem = some s.mem)
    (hs : Do.step n f s j = some s1) :
    s1.crashed = false → Do.replay f s1.calls mem = some s1.mem := by
  unfold Do.step at hs
  by_cases hc : s.crashed = true
  · rw [if_pos hc] at hs
    cases hs
  · rw [if_neg hc] at hs
    have hal : s.crashed = false := by simpa using hc
    have h0 := h hal
    cases hw : s.workers[j]? with
    | none => rw [hw] at hs; cases hs
    | some w =>
      rw [hw] at hs
      cases w with
      | exited => cases hs
      | fetch =>
        simp only [Option.some.injEq] at hs
        subst hs
        exact fun _ => h0
      | hold i =>
        by_cases hi : i ≥ n
        · simp only [hi, if_true, Option.some.injEq] at hs
          subst hs
          exact fun _ => h0
        · simp only [hi, if_false] at hs
          cases hfi : f i s.mem with
          | none =>
            simp only [hfi, Option.some.injEq] at hs
            subst hs
            intro hcr
            cases hcr
          | some m =>
            simp only [hfi, Option.some.injEq] at hs
            subst hs
            intro _
            show Do.replay f (s.calls ++ [i]) mem = some m
            rw [Do.replay_append, h0, Option.some_bind, hfi]

theorem Do.replay_run {σ : Type} {n : Int} (f : Int → σ → Option σ) (mem : σ) :
    ∀ (sched : List Nat) (s s1 : DoState σ),
      (s.crashed = false → Do.replay f s.calls mem = some s.mem) →
      Do.run n f s sched = some s1 →
      s1.crashed = false → Do.replay f s1.calls mem = some s1.mem := by
  intro sched
  induction sched with
  | nil =>
    intro s s1 h hr
    simp only [Do.run, Option.some.injEq] at hr
    subst hr
    exact h
  | cons j sched ih =>
    intro s s1 h hr
    simp only [Do.run] at hr
    cases hs : Do.step n f s j with
    | none => rw [hs] at hr; cases hr
    | some s2 =>
      rw [hs] at hr
      exact ih s2 s1 (Do.replay_step f mem h hs) hr

theorem Do.replay_loop {σ : Type} {n : Int} (f : Int → σ → Option σ) (mem : σ) :
    ∀ (k : Nat) (i : Int) (m : σ) (calls : List Int) (r : σ × List Int),
      Do.replay f calls mem = some m → Do.loop n f k i m calls = some r →
      Do.replay f r.2 mem = some r.1 := by
  intro k
  induction k with
  | zero =>
    intro i m calls r h hr
    simp only [Do.loop, Option.some.injEq] at hr
    subst hr
    exact h
  | succ k ih =>
    intro i m calls r h hr
    simp only [Do.loop] at hr
    by_cases hi : i < n
    · simp only [hi, if_true] at hr
      cases hfi : f i m with
      | none => rw [hfi] at hr; cases hr
      | some m1 =>
        rw [hfi] at hr
        refine ih (i + 1) m1 (calls ++ [i]) r ?_ hr
        rw [Do.replay_append, h, Option.some_bind, hfi]
    · simp only [hi, if_false, Option.some.injEq] at hr
      subst hr
      exact h

/-- Whenever `Do` returns, the memory it leaves is the one the calls to `f` it made leave
behind, in the order it made them. -/
theorem Do.result_replay {σ : Type} (gomaxprocs parallelism n : Int)
    (f : Int → σ → Option σ) (mem : σ) (sched : List Nat) (r : σ × List Int)
    (hr : Do gomaxprocs parallelism n f mem sched = some r) :
    Do.replay f r.2 mem = some r.1 := by
  unfold Do at hr
  generalize (if parallelism ≤ 0 then gomaxprocs else parallelism) = p at hr
  by_cases h1 : p = 1
  · simp only [h1, if_true] at hr
    exact Do.replay_loop f mem n.toNat 0 mem [] r rfl hr
  · simp only [h1, if_false] at hr
    cases hrun : Do.run n f (Do.init p mem) sched with
    | none => rw [hrun] at hr; cases hr
    | some s =>
      rw [hrun] at hr
      simp only at hr
      by_cases hret : Do.returned s = true
      · rw [if_pos hret] at hr
        simp only [Option.some.injEq] at hr
        subst hr
        have hal : s.crashed = false := by
          simp only [Do.returned, Bool.and_eq_true, Bool.not_eq_true'] at hret
          exact hret.1
        exact Do.replay_run f mem sched (Do.init p mem) s (fun _ => rfl) hrun hal
      · rw [if_neg hret] at hr
        cases hr

/-- C1. For `n ≥ 0`, `parallelism ≥ 1` and `n + parallelism < 2^31`, and a function `f` that
returns on every index of `[0, n)`: whenever `Do` returns, the arguments `f` was called with are
a permutation of `0, ..., n - 1` (each index exactly once, nothing else) and the memory `Do`
leaves is the one these calls of `f` leave behind, made one after the other in this order; with
`parallelism = 1` the calls are `0, ..., n - 1` in this order; and along every interleaving of
the goroutines at most `2 * (n + parallelism)` actions happen, no index outside `[0, n)` is
passed to `f`, none is passed twice, the memory is the one the calls made so far leave behind,
and the interleaving extends to one on which `Do` returns. -/
theorem Do_calls_each_index_once {σ : Type} (gomaxprocs parallelism n : Int)
    (f : Int → σ → Option σ) (mem : σ)
    (hn : 0 ≤ n) (hp : 1 ≤ parallelism) (hb : n + parallelism < 2147483648)
    (hf : ∀ i m, 0 ≤ i → i < n → (f i m).isSome = true) :
    (∀ sched r, Do gomaxprocs parallelism n f mem sched = some r →
      r.2.Perm (upTo n.toNat) ∧ Do.replay f r.2 mem = some r.1) ∧
    (parallelism = 1 →
      ∀ sched, ∃ m, Do gomaxprocs parallelism n f mem sched = some (m, upTo n.toNat) ∧
        Do.replay f (upTo n.toNat) mem = some m) ∧
    (∀ sched s, Do.run n f (Do.init parallelism mem) sched = some s →
      (sched.length : Int) ≤ 2 * (n + parallelism) ∧
      (∀ v ∈ s.calls, 0 ≤ v ∧ v < n) ∧ s.calls.Nodup ∧
      Do.replay f s.calls mem = some s.mem ∧
      ∃ ext r, Do gomaxprocs parallelism n f mem (sched ++ ext) = some r) := by
  have hpos : ¬ parallelism ≤ 0 := by omega
  refine ⟨?_, ?_, ?_⟩
  · intro sched r hr
    exact ⟨Do.result_perm gomaxprocs parallelism n f mem hn hp (Or.inr (by omega)) hf sched r hr,
      Do.result_replay gomaxprocs parallelism n f mem sched r hr⟩
  · intro h1 sched
    obtain ⟨m, hm⟩ := Do.loop_upTo f hf hn mem
    have hdo : Do gomaxprocs parallelism n f mem sched = some (m, upTo n.toNat) := by
      simp only [Do, hpos, if_false, h1, if_true]
      exact hm
    exact ⟨m, hdo, Do.result_replay gomaxprocs parallelism n f mem sched _ hdo⟩
  · intro sched s hrun
    have hlen : ((Do.init parallelism mem).workers.length : Int) = parallelism := by
      simp only [Do.init, List.length_replicate]
      omega
    obtain ⟨hs, hl, hpot⟩ := Do.run_inv f hf sched _ s (Do.init_inv n parallelism mem hn)
      (by rw [hlen]; omega) hrun
    rw [Do.potential_init n parallelism mem (by omega)] at hpot
    have hnn := hs.potential_nonneg
    exact ⟨by omega, fun v hv => ⟨(hs.called v hv).1, (hs.called v hv).2.1⟩, hs.nodup,
      Do.replay_run f mem sched (Do.init parallelism mem) s (fun _ => rfl) hrun hs.alive,
      Do.extends gomaxprocs parallelism n f mem hn hp (Or.inr (by omega)) hf sched s hrun⟩

/-- Instance of C1 with two goroutines and three indices, for an `f` that puts its argument in
front of the list it finds in memory: on the interleaving given the calls are made with 1, 0, 2
in this order and the memory ends as `[2, 0, 1]`; with one goroutine the calls are made with
0, 1, 2 and the memory ends as `[2, 1, 0]`. -/
theorem Do_calls_each_index_once_witness :
    ((0 : Int) ≤ 3 ∧ (1 : Int) ≤ 2 ∧ (3 : Int) + 2 < 2147483648) ∧
    (∀ sched r, Do 8 2 3 (fun (i : Int) (m : List Int) => some (i :: m)) [] sched = some r →
      r.2.Perm (upTo (3 : Int).toNat) ∧
        Do.replay (fun (i : Int) (m : List Int) => some (i :: m)) r.2 [] = some r.1) ∧
    Do 8 2 3 (fun (i : Int) (m : List Int) => some (i :: m)) [] [0, 1, 1, 0, 0, 0, 1, 1, 0, 0]
      = some ([2, 0, 1], [1, 0, 2]) ∧
    Do 8 1 3 (fun (i : Int) (m : List Int) => some (i :: m)) [] [] = some ([2, 1, 0], [0, 1, 2]) := by
  refine ⟨by decide, ?_, by decide, by decide⟩
  exact (Do_calls_each_index_once 8 2 3 (fun (i : Int) (m : List Int) => some (i :: m)) []
    (by decide) (by decide) (by decide) (fun _ _ _ _ => rfl)).1

theorem set_zero_restore {α : Type} (l : List α) (a b : α) (h : l[0]? = some a) :
    (l.set 0 b).set 0 a = l := by
  cases l with
  | nil => simp at h
  | cons c t =>
    simp only [List.getElem?_cons_zero, Option.some.injEq] at h
    subst h
    rfl

/-- Goroutine 0 running alone for `k` rounds (fetch, then call) draws the next `k` counter
values and passes each to `f`, as long as they stay below `n` and below `2^31`. -/
theorem Do.solo {σ : Type} {n : Int} (f : Int → σ → Option σ)
    (hf : ∀ i m, 0 ≤ i → i < n → (f i m).isSome = true) :
    ∀ (k : Nat) (s : DoState σ), s.crashed = false → s.workers[0]? = some DoWorker.fetch →
      -1 ≤ s.x → s.x + k < 2147483648 → s.x + k < n →
      ∃ s1, Do.run n f s (List.replicate (2 * k) 0) = some s1 ∧ s1.x = s.x + k ∧
        s1.workers = s.workers ∧ s1.crashed = false ∧
        ∀ v ∈ s.calls, v ∈ s1.calls := by
  intro k
  induction k with
  | zero =>
    intro s hal _ _ _ _
    exact ⟨s, rfl, by simp, rfl, hal, fun v hv => hv⟩
  | succ k ih =>
    intro s hal hw hlo hhi hn
    simp only [Nat.cast_add, Nat.cast_one] at hhi hn
    have hwrap : wrapInt32 (s.x + 1) = s.x + 1 := wrapInt32_of_range _ (by omega) (by omega)
    have hsome := hf (s.x + 1) s.mem (by omega) (by omega)
    cases hfi : f (s.x + 1) s.mem with
    | none => rw [hfi] at hsome; cases hsome
    | some m =>
      have hlt : ¬ (s.x + 1 ≥ n) := by omega
      have hstep1 : Do.step n f s 0
          = some { s with x := s.x + 1, workers := s.workers.set 0 (DoWorker.hold (s.x + 1)) } := by
        unfold Do.step
        rw [if_neg (by simp [hal]), hw]
        simp only [hwrap]
      have hstep2 : Do.step n f
          { s with x := s.x + 1, workers := s.workers.set 0 (DoWorker.hold (s.x + 1)) } 0
          = some { s with x := s.x + 1, mem := m, calls := s.calls ++ [s.x + 1] } := by
        unfold Do.step
        rw [if_neg (by simp [hal])]
        simp only [getElem?_set_same s.workers 0 _ _ hw, hlt, if_false, hfi,
          set_zero_restore s.workers _ _ hw]
      obtain ⟨s1, hrun, hx, hws, hal1, hcalls⟩ :=
        ih { s with x := s.x + 1, mem := m, calls := s.calls ++ [s.x + 1] } hal hw
          (by show -1 ≤ s.x + 1; omega) (by show s.x + 1 + k < 2147483648; omega)
          (by show s.x + 1 + k < n; omega)
      refine ⟨s1, ?_, ?_, hws, hal1, ?_⟩
      · have : 2 * (k + 1) = (2 * k + 1) + 1 := by omega
        rw [this, List.replicate_succ, List.replicate_succ]
        simp only [Do.run, hstep1, hstep2]
        exact hrun
      · rw [hx]
        show s.x + 1 + (k : Int) = s.x + ((k : Int) + 1)
        omega
      · intro v hv
        exact hcalls v (List.mem_append.mpr (Or.inl hv))

/-- After goroutine 0 has drawn the value `2^31 - 1`, its next two actions wrap the counter
to `-2^31` and pass that value to `f`, whenever `n > 0`. -/
theorem Do.wrap_call {σ : Type} {n : Int} (f : Int → σ → Option σ) (s : DoState σ)
    (hal : s.crashed = false) (hw : s.workers[0]? = some DoWorker.fetch)
    (hx : s.x = 2147483647) (hn : 0 ≤ n) :
    ∃ s1, Do.run n f s [0, 0] = some s1 ∧ (-2147483648 : Int) ∈ s1.calls ∧
      s1.crashed = (f (-2147483648) s.mem).isNone := by
  have hwrap : wrapInt32 (s.x + 1) = -2147483648 := by
    rw [hx]
    decide
  have hlt : ¬ ((-2147483648 : Int) ≥ n) := by omega
  have hstep1 : Do.step n f s 0
      = some { s with x := -2147483648,
                      workers := s.workers.set 0 (DoWorker.hold (-2147483648)) } := by
    unfold Do.step
    rw [if_neg (by simp [hal]), hw]
    simp only [hwrap]
  cases hfi : f (-2147483648) s.mem with
  | none =>
    refine ⟨{ s with x := -2147483648,
                     workers := s.workers.set 0 (DoWorker.hold (-2147483648)),
                     calls := s.calls ++ [-2147483648], crashed := true }, ?_, by simp, rfl⟩
    simp only [Do.run, hstep1]
    unfold Do.step
    rw [if_neg (by simp [hal])]
    simp only [getElem?_set_same s.workers 0 _ _ hw, hlt, if_false, hfi]
  | some m =>
    refine ⟨{ s with x := -2147483648, mem := m, calls := s.calls ++ [-2147483648] }, ?_,
      by simp, by simpa using hal⟩
    simp only [Do.run, hstep1]
    unfold Do.step
    rw [if_neg (by simp [hal])]
    simp only [getElem?_set_same s.workers 0 _ _ hw, hlt, if_false, hfi,
      set_zero_restore s.workers _ _ hw]

/-- C8 at `Do(2, 2147483648, f)`: when goroutine 0 runs `2^31` rounds and then two more
actions, the `int32` counter has wrapped and `f` has been called with `-2147483648`, which is
outside `[0, n)`. -/
theorem Do_counter_wraps_past_int32 :
    ∃ s, Do.run 2147483648 (fun _ (_ : Unit) => some ()) (Do.init 2 ())
        (List.replicate (2 * 2147483648) 0 ++ [0, 0]) = some s ∧
      s.crashed = false ∧ (-2147483648 : Int) ∈ s.calls := by
  obtain ⟨s1, hrun, hx, hws, hal, _⟩ :=
    @Do.solo Unit 2147483648 (fun _ (_ : Unit) => some ()) (fun _ _ _ _ => rfl) 2147483648
      (Do.init 2 ()) rfl (by decide) (by decide) (by decide) (by decide)
  have hw1 : s1.workers[0]? = some DoWorker.fetch := by
    rw [hws]
    decide
  have hx1 : s1.x = 2147483647 := by
    rw [hx]
    decide
  obtain ⟨s2, hrun2, hmem, hcr⟩ :=
    @Do.wrap_call Unit 2147483648 (fun _ (_ : Unit) => some ()) s1 hal hw1 hx1 (by decide)
  refine ⟨s2, ?_, by simpa using hcr, hmem⟩
  rw [Do.run_append, hrun]
  exact hrun2

theorem wrapInt32_lt (v : Int) : wrapInt32 v < 2147483648 := by
  unfold wrapInt32
  omega

theorem Map.store_isSome {T U : Type} (f : T → U) (input : List T) (i : Int) (out : List U)
    (h0 : 0 ≤ i) (h1 : i < input.length) : (Map.store f input i out).isSome = true := by
  have hlt : i.toNat < input.length := by omega
  simp only [Map.store, h0, if_true, List.getElem?_eq_getElem hlt, Option.isSome_some]

/-- One call of the closure keeps what was stored and stores the image at the new index. -/
theorem Map.Stored.store {T U : Type} {f : T → U} {input : List T} {mem m : List U}
    {calls : List Int} (h : Map.Stored f input mem calls) (i : Int)
    (hs : Map.store f input i mem = some m) : Map.Stored f input m (calls ++ [i]) := by
  unfold Map.store at hs
  by_cases h0 : 0 ≤ i
  · simp only [h0, if_true] at hs
    cases hin : input[i.toNat]? with
    | none => rw [hin] at hs; cases hs
    | some a =>
      rw [hin] at hs
      simp only [Option.some.injEq] at hs
      subst hs
      have hlt : i.toNat < input.length := by
        rcases List.getElem?_eq_some.mp hin with ⟨hj, _⟩
        exact hj
      refine ⟨by simp [h.1], ?_⟩
      intro v hv hv0 hv1
      by_cases hEq : i.toNat = v.toNat
      · rw [← hEq, List.getElem?_set_self (by rw [h.1]; exact hlt), hin]
        rfl
      · rw [List.getElem?_set_ne hEq]
        rcases List.mem_append.mp hv with hv | hv
        · exact h.2 v hv hv0 hv1
        · rw [List.mem_singleton.mp hv] at hEq
          exact absurd rfl hEq
  · simp only [h0, if_false] at hs
    cases hs

theorem Map.Stored.stored_step {T U : Type} {f : T → U} {input : List T} {n : Int}
    {s s1 : DoState (List U)} {j : Nat} (h : Map.Stored f input s.mem s.calls)
    (hs : Do.step n (Map.store f input) s j = some s1) (hal : s1.crashed = false) :
    Map.Stored f input s1.mem s1.calls := by
  unfold Do.step at hs
  split at hs
  · cases hs
  · split at hs
    · simp only [Option.some.injEq] at hs
      subst hs
      exact h
    · split at hs
      · simp only [Option.some.injEq] at hs
        subst hs
        exact h
      · split at hs
        · rename_i m hm
          simp only [Option.some.injEq] at hs
          subst hs
          exact h.store _ hm
        · simp only [Option.some.injEq] at hs
          subst hs
          cases hal
    · cases hs

theorem Do.step_crashed {σ : Type} {n : Int} {f : Int → σ → Option σ} {s s1 : DoState σ}
    {j : Nat} (hs : Do.step n f s j = some s1) : s.crashed = false := by
  unfold Do.step at hs
  split at hs
  · cases hs
  · rename_i h
    simpa using h

theorem Do.run_crashed {σ : Type} {n : Int} {f : Int → σ → Option σ} :
    ∀ (sched : List Nat) (s s1 : DoState σ), Do.run n f s sched = some s1 →
      s1.crashed = false → s.crashed = false := by
  intro sched
  induction sched with
  | nil =>
    intro s s1 hr hal
    simp only [Do.run, Option.some.injEq] at hr
    rw [hr]
    exact hal
  | cons j sched ih =>
    intro s s1 hr hal
    simp only [Do.run] at hr
    cases hs : Do.step n f s j with
    | none => rw [hs] at hr; cases hr
    | some s2 => exact Do.step_crashed hs

theorem Map.Stored.stored_run {T U : Type} {f : T → U} {input : List T} {n : Int} :
    ∀ (sched : List Nat) (s s1 : DoState (List U)), Map.Stored f input s.mem s.calls →
      Do.run n (Map.store f input) s sched = some s1 → s1.crashed = false →
      Map.Stored f input s1.mem s1.calls := by
  intro sched
  induction sched with
  | nil =>
    intro s s1 h hr _
    simp only [Do.run, Option.some.injEq] at hr
    subst hr
    exact h
  | cons j sched ih =>
    intro s s1 h hr hal
    simp only [Do.run] at hr
    cases hs : Do.step n (Map.store f input) s j with
    | none => rw [hs] at hr; cases hr
    | some s2 =>
      rw [hs] at hr
      exact ih s2 s1 (h.stored_step hs (Do.run_crashed sched s2 s1 hr hal)) hr hal

theorem Map.Stored.loop {T U : Type} {f : T → U} {input : List T} {n : Int} :
    ∀ (k : Nat) (i : Int) (mem : List U) (calls : List Int) (r : List U × List Int),
      Map.Stored f input mem calls → Do.loop n (Map.store f input) k i mem calls = some r →
      Map.Stored f input r.1 r.2 := by
  intro k
  induction k with
  | zero =>
    intro i mem calls r h hr
    simp only [Do.loop, Option.some.injEq] at hr
    subst hr
    exact h
  | succ k ih =>
    intro i mem calls r h hr
    simp only [Do.loop] at hr
    split at hr
    · split at hr
      · rename_i m hm
        exact ih (i + 1) m (calls ++ [i]) r (h.store i hm) hr
      · cases hr
    · simp only [Option.some.injEq] at hr
      subst hr
      exact h

/-- Once every index of `in` has been passed to the closure, `out` is the image of `in`. -/
theorem Map.Stored.eq_map_of_mem {T U : Type} {f : T → U} {input : List T} {mem : List U}
    {calls : List Int} (h : Map.Stored f input mem calls)
    (hc : ∀ v : Int, 0 ≤ v → v < input.length → v ∈ calls) : mem = input.map f := by
  apply List.ext_getElem?
  intro k
  by_cases hk : k < input.length
  · have := h.2 (k : Int) (hc k (by omega) (by omega)) (by omega) (by omega)
    simpa using this
  · rw [List.getElem?_eq_none (by rw [h.1]; omega), List.getElem?_eq_none (by simp; omega)]

theorem Map.Stored.eq_map {T U : Type} {f : T → U} {input : List T} {mem : List U}
    {calls : List Int} (h : Map.Stored f input mem calls)
    (hc : calls.Perm (upTo input.length)) : mem = input.map f := by
  apply h.eq_map_of_mem
  intro v hv0 hv1
  rw [hc.mem_iff, mem_upTo]
  omega

theorem Do.step_length {σ : Type} {n : Int} {f : Int → σ → Option σ} {s s1 : DoState σ}
    {j : Nat} (hs : Do.step n f s j = some s1) : s1.workers.length = s.workers.length := by
  unfold Do.step at hs
  split at hs
  · cases hs
  · split at hs
    · simp only [Option.some.injEq] at hs
      subst hs
      simp
    · split at hs
      · simp only [Option.some.injEq] at hs
        subst hs
        simp
      · split at hs <;>
        · simp only [Option.some.injEq] at hs
          subst hs
          simp
    · cases hs

/-- With `n ≥ 2^31` the test `i >= n` never succeeds, so no goroutine ever leaves its loop. -/
theorem Do.Stuck.stuck_step {σ : Type} {n : Int} {f : Int → σ → Option σ} {s s1 : DoState σ}
    {j : Nat} (h : Do.Stuck s) (hn : 2147483648 ≤ n) (hs : Do.step n f s j = some s1) :
    Do.Stuck s1 := by
  unfold Do.step at hs
  split at hs
  · cases hs
  · split at hs
    · simp only [Option.some.injEq] at hs
      subst hs
      intro k w hk
      rcases getElem?_set_cases _ _ _ _ _ hk with ⟨_, hw⟩ | ⟨_, hold⟩
      · subst hw
        refine ⟨by simp, ?_⟩
        intro i hi
        injection hi with hi
        rw [← hi]
        exact wrapInt32_lt _
      · exact h k w hold
    · rename_i i hwj
      split at hs
      · have := (h j _ hwj).2 i rfl
        omega
      · split at hs
        · simp only [Option.some.injEq] at hs
          subst hs
          intro k w hk
          rcases getElem?_set_cases _ _ _ _ _ hk with ⟨_, hw⟩ | ⟨_, hold⟩
          · subst hw
            exact ⟨by simp, by intro i hi; cases hi⟩
          · exact h k w hold
        · simp only [Option.some.injEq] at hs
          subst hs
          exact h
    · cases hs

theorem Do.Stuck.stuck_run {σ : Type} {n : Int} {f : Int → σ → Option σ} (hn : 2147483648 ≤ n) :
    ∀ (sched : List Nat) (s s1 : DoState σ), Do.Stuck s → Do.run n f s sched = some s1 →
      Do.Stuck s1 ∧ s1.workers.length = s.workers.length := by
  intro sched
  induction sched with
  | nil =>
    intro s s1 h hr
    simp only [Do.run, Option.some.injEq] at hr
    subst hr
    exact ⟨h, rfl⟩
  | cons j sched ih =>
    intro s s1 h hr
    simp only [Do.run] at hr
    cases hs : Do.step n f s j with
    | none => rw [hs] at hr; cases hr
    | some s2 =>
      rw [hs] at hr
      obtain ⟨h1, hl⟩ := ih s2 s1 (h.stuck_step hn hs) hr
      exact ⟨h1, by rw [hl, Do.step_length hs]⟩

/-- With `n ≥ 2^31` and more than one worker, `Do` returns on no interleaving. -/
theorem Do.never_returns {σ : Type} (gomaxprocs parallelism n : Int) (f : Int → σ → Option σ)
    (mem : σ) (hn : 2147483648 ≤ n) (hp : 2 ≤ parallelism) (sched : List Nat) :
    Do gomaxprocs parallelism n f mem sched = none := by
  have hpos : ¬ parallelism ≤ 0 := by omega
  have h1 : ¬ parallelism = 1 := by omega
  simp only [Do, hpos, if_false, h1]
  cases hrun : Do.run n f (Do.init parallelism mem) sched with
  | none => rfl
  | some s =>
    have hinit : Do.Stuck (Do.init parallelism mem) := by
      intro j w hj
      simp only [Do.init] at hj
      rw [List.getElem?_replicate] at hj
      split at hj
      · injection hj with hj
        subst hj
        exact ⟨by simp, by intro i hi; cases hi⟩
      · cases hj
    obtain ⟨hs, hl⟩ := Do.Stuck.stuck_run hn sched _ s hinit hrun
    have hlen : 0 < s.workers.length := by
      rw [hl]
      simp only [Do.init, List.length_replicate]
      omega
    have hret : Do.returned s = false := by
      cases hw : s.workers[0]? with
      | none =>
        rw [List.getElem?_eq_none_iff] at hw
        omega
      | some w =>
        have hne := (hs 0 w hw).1
        cases hr : Do.returned s with
        | false => rfl
        | true =>
          simp only [Do.returned, Bool.and_eq_true, List.all_eq_true, beq_iff_eq] at hr
          exact absurd (hr.2 w (List.mem_iff_getElem?.mpr ⟨0, hw⟩)) hne
    simp only [hret]
    rfl

theorem Map.stored_init {T U : Type} (f : T → U) (input : List T) (zero : U) :
    Map.Stored f input (List.replicate input.length zero) [] :=
  ⟨List.length_replicate _ _, fun v hv => by cases hv⟩

/-- A result of `Do` comes from the sequential loop or from a complete interleaving. -/
theorem Do.result_cases {σ : Type} (gomaxprocs parallelism n : Int) (f : Int → σ → Option σ)
    (mem : σ) (sched : List Nat) (r : σ × List Int)
    (hr : Do gomaxprocs parallelism n f mem sched = some r) :
    Do.loop n f n.toNat 0 mem [] = some r ∨
    ∃ p s, Do.run n f (Do.init p mem) sched = some s ∧ Do.returned s = true ∧
      r = (s.mem, s.calls) := by
  unfold Do at hr
  generalize (if parallelism ≤ 0 then gomaxprocs else parallelism) = p at hr
  by_cases h1 : p = 1
  · simp only [h1, if_true] at hr
    exact Or.inl hr
  · simp only [h1, if_false] at hr
    cases hrun : Do.run n f (Do.init p mem) sched with
    | none => rw [hrun] at hr; cases hr
    | some s =>
      rw [hrun] at hr
      simp only at hr
      cases hret : Do.returned s with
      | false => rw [hret] at hr; cases hr
      | true =>
        rw [hret] at hr
        simp only [if_true, Option.some.injEq] at hr
        exact Or.inr ⟨p, s, hrun, hret, hr.symm⟩

/-- Whenever `Do` returns to `Map`, the closure has stored the image of every element it was
called on. -/
theorem Map.stored_result {T U : Type} (gomaxprocs parallelism : Int) (f : T → U)
    (input : List T) (zero : U) (sched : List Nat) (r : List U × List Int)
    (hr : Do gomaxprocs parallelism (input.length : Int) (Map.store f input)
      (List.replicate input.length zero) sched = some r) :
    Map.Stored f input r.1 r.2 := by
  rcases Do.result_cases _ _ _ _ _ _ _ hr with hl | ⟨p, s, hrun, hret, hrs⟩
  · exact Map.Stored.loop _ _ _ _ r (Map.stored_init f input zero) hl
  · subst hrs
    have hal : s.crashed = false := by
      simp only [Do.returned, Bool.and_eq_true, Bool.not_eq_true'] at hret
      exact hret.1
    exact Map.Stored.stored_run sched _ s (Map.stored_init f input zero) hrun hal

/-- Map below the wrapping range: with one worker, or with `len(in)` plus the number of workers
at most `2^31`, every result of `Map` is the image of `in` under `f`, position by position, and
there is an interleaving on which `Map` returns. -/
theorem Map.correct_below_wrap {T U : Type} (gomaxprocs parallelism : Int) (input : List T)
    (f : T → U) (zero : U) (hg : 1 ≤ gomaxprocs)
    (hb : (if parallelism ≤ 0 then gomaxprocs else parallelism) = 1 ∨
      (input.length : Int) + (if parallelism ≤ 0 then gomaxprocs else parallelism)
        ≤ 2147483648) :
    (∀ sched out, Map gomaxprocs parallelism input f zero sched = some out →
      out = input.map f) ∧
    ∃ sched, Map gomaxprocs parallelism input f zero sched = some (input.map f) := by
  have hp : 1 ≤ (if parallelism ≤ 0 then gomaxprocs else parallelism) := by
    split <;> omega
  have hf : ∀ (i : Int) (m : List U), 0 ≤ i → i < (input.length : Int) →
      (Map.store f input i m).isSome = true :=
    fun i m h0 h1 => Map.store_isSome f input i m h0 h1
  have hall : ∀ sched out, Map gomaxprocs parallelism input f zero sched = some out →
      out = input.map f := by
    intro sched out hout
    simp only [Map] at hout
    cases hdo : Do gomaxprocs parallelism (input.length : Int) (Map.store f input)
        (List.replicate input.length zero) sched with
    | none => rw [hdo] at hout; cases hout
    | some r =>
      rw [hdo] at hout
      simp only [Option.some.injEq] at hout
      subst hout
      have hst := Map.stored_result gomaxprocs parallelism f input zero sched r hdo
      rw [Do.effective] at hdo
      have hperm := Do.result_perm gomaxprocs _ _ _ _ (by omega) hp hb hf sched r hdo
      rw [Int.toNat_ofNat] at hperm
      exact hst.eq_map hperm
  refine ⟨hall, ?_⟩
  obtain ⟨ext, r, hr⟩ := Do.extends gomaxprocs _ (input.length : Int) (Map.store f input)
    (List.replicate input.length zero) (by omega) hp hb hf [] _ rfl
  rw [← Do.effective] at hr
  refine ⟨[] ++ ext, ?_⟩
  have hmap : Map gomaxprocs parallelism input f zero ([] ++ ext) = some r.1 := by
    simp only [Map, hr]
  rw [hmap, hall ([] ++ ext) r.1 hmap]

theorem Map.store_neg {T U : Type} (f : T → U) (input : List T) (i : Int) (out : List U)
    (hi : i < 0) : Map.store f input i out = none := by
  unfold Map.store
  rw [if_neg (by omega)]

/-- C2 at a slice of `2^31` elements and `parallelism = 2`: `Map` returns on no interleaving,
and on the interleaving where goroutine 0 runs alone the closure is called with index
`-2147483648` and panics. -/
theorem Map_breaks_at_2_31_elements :
    (∀ gomaxprocs sched,
      Map gomaxprocs 2 (List.replicate 2147483648 ()) (fun u : Unit => u) () sched = none) ∧
    ∃ s, Do.run 2147483648 (Map.store (fun u : Unit => u) (List.replicate 2147483648 ()))
        (Do.init 2 (List.replicate 2147483648 ()))
        (List.replicate (2 * 2147483648) 0 ++ [0, 0]) = some s ∧
      s.crashed = true ∧ (-2147483648 : Int) ∈ s.calls := by
  constructor
  · intro gomaxprocs sched
    simp only [Map, List.length_replicate]
    rw [Do.never_returns gomaxprocs 2 _ _ _ (by simp only [Nat.cast_ofNat]; decide)
      (by decide) sched]
  · have hf : ∀ (i : Int) (m : List Unit), 0 ≤ i → i < 2147483648 →
        (Map.store (fun u : Unit => u) (List.replicate 2147483648 ()) i m).isSome = true := by
      intro i m h0 h1
      apply Map.store_isSome _ _ i m h0
      simp only [List.length_replicate, Nat.cast_ofNat]
      exact h1
    obtain ⟨s1, hrun, hx, hws, hal, _⟩ :=
      @Do.solo (List Unit) 2147483648 _ hf 2147483648
        (Do.init 2 (List.replicate 2147483648 ())) rfl (by decide) (by decide) (by decide)
        (by decide)
    have hw1 : s1.workers[0]? = some DoWorker.fetch := by
      rw [hws]
      decide
    have hx1 : s1.x = 2147483647 := by
      rw [hx]
      decide
    obtain ⟨s2, hrun2, hmem, hcr⟩ :=
      @Do.wrap_call (List Unit) 2147483648 _ s1 hal hw1 hx1 (by decide)
    refine ⟨s2, ?_, ?_, hmem⟩
    · rw [Do.run_append, hrun]
      exact hrun2
    · rw [hcr, Map.store_neg _ _ _ _ (by decide)]
      rfl

theorem upTo_map_pair (k : Nat) :
    (List.range k).map (fun t : Nat => ((0 : Int) + (t : Int), (none : Option Error)))
      = (upTo k).map (fun i => (i, (none : Option Error))) := by
  simp only [upTo, List.map_map]
  apply List.map_congr_left
  intro t _
  simp

/-- Shape of a result of the sequential loop of `DoContext`. -/
theorem DoContext.loop_shape {σ : Type} (n : Int)
    (f : Option Error → Int → σ → Option (σ × Option Error)) (ctx : Option Error) :
    ∀ (k : Nat) (i : Int) (m : σ) (calls : List (Int × Option Error))
      (r : DoContext.Result σ), i + k = n → DoContext.loop n f ctx k i m calls = some r →
      (r.err = none ∧
        r.calls = calls ++ (List.range k).map (fun t : Nat => (i + (t : Int), none))) ∨
      ∃ (d : Nat) (e : Error), d < k ∧ r.err = some e ∧
        r.calls = calls ++ (List.range d).map (fun t : Nat => (i + (t : Int), none))
          ++ [(i + d, some e)] := by
  intro k
  induction k with
  | zero =>
    intro i m calls r _ hr
    simp only [DoContext.loop, Option.some.injEq] at hr
    subst hr
    left
    simp
  | succ k ih =>
    intro i m calls r hik hr
    simp only [Nat.cast_add, Nat.cast_one] at hik
    have hlt : i < n := by omega
    simp only [DoContext.loop, hlt, if_true] at hr
    have hmap : ∀ d : Nat,
        List.map (fun t : Nat => (i + 1 + (t : Int), (none : Option Error))) (List.range d)
        = List.map ((fun t : Nat => (i + (t : Int), (none : Option Error))) ∘ Nat.succ)
          (List.range d) := by
      intro d
      apply List.map_congr_left
      intro t _
      simp only [Function.comp, Nat.cast_succ]
      congr 1
      omega
    split at hr
    · rename_i m1 hm1
      rcases ih (i + 1) m1 (calls ++ [(i, none)]) r (by omega) hr with ⟨he, hc⟩ |
        ⟨d, e, hd, he, hc⟩
      · left
        refine ⟨he, ?_⟩
        rw [hc, List.range_succ_eq_map, hmap]
        simp
      · right
        refine ⟨d + 1, e, by omega, he, ?_⟩
        rw [hc, List.range_succ_eq_map, hmap]
        have hidx : i + 1 + (d : Int) = i + ((d + 1 : Nat) : Int) := by
          push_cast
          omega
        rw [hidx]
        simp
    · rename_i m1 e hm1
      simp only [Option.some.injEq] at hr
      subst hr
      right
      exact ⟨0, e, by omega, rfl, by simp⟩
    · cases hr

theorem DoContext.ctx_replay_append {σ : Type}
    (f : Option Error → Int → σ → Option (σ × Option Error)) (ctx : Option Error) :
    ∀ (l1 l2 : List (Int × Option Error)) (m : σ),
      DoContext.replay f ctx (l1 ++ l2) m
        = (DoContext.replay f ctx l1 m).bind (DoContext.replay f ctx l2) := by
  intro l1
  induction l1 with
  | nil => intro l2 m; rfl
  | cons c l1 ih =>
    intro l2 m
    obtain ⟨i, e⟩ := c
    simp only [List.cons_append, DoContext.replay]
    cases f ctx i m with
    | none => rfl
    | some r =>
      obtain ⟨m1, e1⟩ := r
      by_cases he : e1 = e
      · simp only [he, if_true]
        exact ih l2 m1
      · simp only [he, if_false]
        rfl

theorem DoContext.replay_single {σ : Type}
    (f : Option Error → Int → σ → Option (σ × Option Error)) (ctx : Option Error) (i : Int)
    (e : Option Error) (m m1 : σ) :
    DoContext.replay f ctx [(i, e)] m = some m1 ↔ f ctx i m = some (m1, e) := by
  simp only [DoContext.replay]
  cases f ctx i m with
  | none => simp
  | some r =>
    obtain ⟨m2, e2⟩ := r
    by_cases he : e2 = e
    · simp [he]
    · simp only [he, if_false, Option.some.injEq, Prod.mk.injEq]
      constructor
      · intro h
        cases h
      · intro h
        exact h.2.elim

/-- The sequential loop of `DoContext` keeps the memory equal to what the calls made so far
leave behind. -/
theorem DoContext.loop_replay {σ : Type} {n : Int}
    (f : Option Error → Int → σ → Option (σ × Option Error)) (ctx : Option Error) (mem : σ) :
    ∀ (k : Nat) (i : Int) (m : σ) (calls : List (Int × Option Error))
      (r : DoContext.Result σ),
      DoContext.replay f ctx calls mem = some m → DoContext.loop n f ctx k i m calls = some r →
      DoContext.replay f ctx r.calls mem = some r.mem := by
  intro k
  induction k with
  | zero =>
    intro i m calls r h hr
    simp only [DoContext.loop, Option.some.injEq] at hr
    subst hr
    exact h
  | succ k ih =>
    intro i m calls r h hr
    simp only [DoContext.loop] at hr
    by_cases hi : i < n
    · simp only [hi, if_true] at hr
      cases hfi : f ctx i m with
      | none => rw [hfi] at hr; cases hr
      | some v =>
        obtain ⟨m1, e1⟩ := v
        have hone : DoContext.replay f ctx (calls ++ [(i, e1)]) mem = some m1 := by
          rw [DoContext.ctx_replay_append, h, Option.some_bind]
          exact (DoContext.replay_single f ctx i e1 m m1).mpr hfi
        rw [hfi] at hr
        cases e1 with
        | none => exact ih (i + 1) m1 (calls ++ [(i, none)]) r hone hr
        | some e =>
          simp only [Option.some.injEq] at hr
          subst hr
          exact hone
    · simp only [hi, if_false, Option.some.injEq] at hr
      subst hr
      exact h

/-- While `f` returns nil on `i, i + 1, ..., i + t - 1`, called one after the other, the
sequential loop of `DoContext` makes exactly these calls and goes on from `i + t`. -/
theorem DoContext.loop_along {σ : Type} (n : Int)
    (f : Option Error → Int → σ → Option (σ × Option Error)) (ctx : Option Error) :
    ∀ (t fuel : Nat) (i : Int) (m m1 : σ) (calls : List (Int × Option Error)),
      DoContext.replay f ctx ((List.range t).map (fun d : Nat => (i + (d : Int), none))) m
        = some m1 →
      (i + t ≤ n ∨ t = 0) → t ≤ fuel →
      DoContext.loop n f ctx fuel i m calls
        = DoContext.loop n f ctx (fuel - t) (i + t) m1
            (calls ++ (List.range t).map (fun d : Nat => (i + (d : Int), none))) := by
  intro t
  induction t with
  | zero =>
    intro fuel i m m1 calls hrep _ _
    simp only [List.range_zero, List.map_nil, DoContext.replay, Option.some.injEq] at hrep
    subst hrep
    simp
  | succ t ih =>
    intro fuel i m m1 calls hrep hle hfuel
    obtain ⟨fuel1, rfl⟩ : ∃ fuel1, fuel = fuel1 + 1 := ⟨fuel - 1, by omega⟩
    have hle1 : i + ((t : Int) + 1) ≤ n := by
      rcases hle with hle | hle
      · simpa using hle
      · omega
    have hlt : i < n := by omega
    have hmap : List.map (fun d : Nat => (i + 1 + (d : Int), (none : Option Error)))
        (List.range t)
        = List.map ((fun d : Nat => (i + (d : Int), (none : Option Error))) ∘ Nat.succ)
          (List.range t) := by
      apply List.map_congr_left
      intro d _
      simp only [Function.comp, Nat.cast_succ]
      congr 1
      omega
    rw [List.range_succ_eq_map] at hrep
    simp only [List.map_cons, List.map_map, Nat.cast_zero, add_zero, DoContext.replay] at hrep
    cases hfi : f ctx i m with
    | none => rw [hfi] at hrep; cases hrep
    | some v =>
      obtain ⟨m2, e2⟩ := v
      rw [hfi] at hrep
      cases e2 with
      | some e3 => simp at hrep
      | none =>
        simp only [if_true] at hrep
        rw [← hmap] at hrep
        have h2 := ih fuel1 (i + 1) m2 m1 (calls ++ [(i, none)]) hrep
          (Or.inl (by omega)) (by omega)
        simp only [DoContext.loop, hlt, if_true, hfi]
        rw [h2, List.range_succ_eq_map]
        simp only [List.append_assoc, List.singleton_append, List.map_cons, List.map_map,
          Nat.cast_zero, add_zero, Nat.add_sub_add_right, Nat.cast_add, Nat.cast_one]
        rw [hmap]
        have hidx : i + 1 + (t : Int) = i + ((t : Int) + 1) := by omega
        rw [hidx]

theorem DoContext.loop_total {σ : Type} (n : Int)
    (f : Option Error → Int → σ → Option (σ × Option Error)) (ctx : Option Error)
    (hf : ∀ i m, 0 ≤ i → i < n → (f ctx i m).isSome = true) :
    ∀ (k : Nat) (i : Int) (m : σ) (calls : List (Int × Option Error)), 0 ≤ i →
      ∃ r, DoContext.loop n f ctx k i m calls = some r := by
  intro k
  induction k with
  | zero => intro i m calls _; exact ⟨_, rfl⟩
  | succ k ih =>
    intro i m calls hi
    by_cases hlt : i < n
    · simp only [DoContext.loop, hlt, if_true]
      have hsome := hf i m hi hlt
      cases hfi : f ctx i m with
      | none => rw [hfi] at hsome; cases hsome
      | some r =>
        obtain ⟨m1, e⟩ := r
        cases e with
        | none => exact ih (i + 1) m1 _ (by omega)
        | some e => exact ⟨_, rfl⟩
    · simp only [DoContext.loop, hlt, if_false]
      exact ⟨_, rfl⟩

/-- Shape of a result of the sequential loop of `DoContext` run from index 0: either all the
calls `0, ..., n - 1` with nil errors and a nil result, or the calls `0, ..., k` with nil
errors before `k` and the error of the call `k` as the result. -/
theorem DoContext.loop_outcome {σ : Type} (n : Int)
    (f : Option Error → Int → σ → Option (σ × Option Error)) (ctx : Option Error) (mem : σ)
    (r : DoContext.Result σ) (hr : DoContext.loop n f ctx n.toNat 0 mem [] = some r) :
    (r.err = none ∧ r.calls = (upTo n.toNat).map (fun i => (i, none))) ∨
    ∃ (k : Nat) (e : Error), (k : Int) < n ∧
      r.calls = (upTo k).map (fun i => (i, none)) ++ [((k : Int), some e)] ∧ r.err = some e := by
  by_cases hn : 0 ≤ n
  · rcases DoContext.loop_shape n f ctx n.toNat 0 mem [] r (by omega) hr with ⟨he, hc⟩ |
      ⟨d, e, hd, he, hc⟩
    · left
      refine ⟨he, ?_⟩
      rw [hc, List.nil_append, upTo_map_pair]
    · right
      refine ⟨d, e, by omega, ?_, he⟩
      rw [hc, List.nil_append, upTo_map_pair]
      simp
  · left
    have h0 : n.toNat = 0 := by omega
    rw [h0] at hr ⊢
    simp only [DoContext.loop, Option.some.injEq] at hr
    subst hr
    exact ⟨rfl, rfl⟩

/-- C5. With `parallelism == 1`, for every `n` and every `f`, which may act on memory and whose
error may depend on it: if `f`, called with `0, 1, ..., k` one after the other, returns nil
before `k` and the error `e` at `k < n` (so that `k` is the smallest index at which `f` returns
a non-nil error), then `DoContext` calls `f` with exactly `0, 1, ..., k` in this order, leaves
the memory these calls leave, and returns `e`; if `f` returns nil on all of `0, ..., n - 1`,
`DoContext` makes exactly these calls in this order, leaves the memory they leave and returns
nil; and for an `f` that does not panic on `[0, n)`, `DoContext` returns, in one of these two
ways, with the memory its calls leave behind. -/
theorem DoContext_sequential_stops_at_first_error {σ : Type} (gomaxprocs : Int)
    (ctx : Option Error) (n : Int) (f : Option Error → Int → σ → Option (σ × Option Error))
    (mem : σ) (sched : List Nat) :
    (∀ (k : Nat) (e : Error) (m1 : σ), (k : Int) < n →
      DoContext.replay f ctx
        ((upTo k).map (fun i => (i, none)) ++ [((k : Int), some e)]) mem = some m1 →
      DoContext gomaxprocs ctx 1 n f mem sched
        = some ⟨m1, (upTo k).map (fun i => (i, none)) ++ [((k : Int), some e)], some e⟩) ∧
    (∀ m1 : σ,
      DoContext.replay f ctx ((upTo n.toNat).map (fun i => (i, none))) mem = some m1 →
      DoContext gomaxprocs ctx 1 n f mem sched
        = some ⟨m1, (upTo n.toNat).map (fun i => (i, none)), none⟩) ∧
    ((∀ i m, 0 ≤ i → i < n → (f ctx i m).isSome = true) →
      ∃ r, DoContext gomaxprocs ctx 1 n f mem sched = some r ∧
        DoContext.replay f ctx r.calls mem = some r.mem ∧
        ((r.err = none ∧ r.calls = (upTo n.toNat).map (fun i => (i, none))) ∨
          ∃ (k : Nat) (e : Error), (k : Int) < n ∧
            r.calls = (upTo k).map (fun i => (i, none)) ++ [((k : Int), some e)] ∧
            r.err = some e)) := by
  have hdo : DoContext gomaxprocs ctx 1 n f mem sched
      = DoContext.loop n f ctx n.toNat 0 mem [] := by
    simp [DoContext]
  refine ⟨?_, ?_, ?_⟩
  · intro k e m1 hk hrep
    rw [DoContext.ctx_replay_append] at hrep
    cases hpre : DoContext.replay f ctx ((upTo k).map (fun i => (i, none))) mem with
    | none => rw [hpre] at hrep; cases hrep
    | some m0 =>
      rw [hpre, Option.some_bind] at hrep
      have hfk := (DoContext.replay_single f ctx k (some e) m0 m1).mp hrep
      rw [← upTo_map_pair] at hpre
      have hal := DoContext.loop_along n f ctx k n.toNat 0 mem m0 [] hpre
        (Or.inl (by omega)) (by omega)
      obtain ⟨fuel1, hfuel⟩ : ∃ fuel1, n.toNat - k = fuel1 + 1 := ⟨n.toNat - k - 1, by omega⟩
      rw [hdo, hal, hfuel]
      have hlt : (0 : Int) + (k : Int) < n := by omega
      simp only [DoContext.loop, hlt, if_true]
      rw [show (0 : Int) + (k : Int) = (k : Int) by omega, hfk, List.nil_append, upTo_map_pair]
  · intro m1 hrep
    by_cases hn : 0 ≤ n
    · rw [← upTo_map_pair] at hrep
      have hal := DoContext.loop_along n f ctx n.toNat n.toNat 0 mem m1 [] hrep
        (Or.inl (by omega)) (Nat.le_refl _)
      rw [hdo, hal, Nat.sub_self, List.nil_append, upTo_map_pair]
      rfl
    · have h0 : n.toNat = 0 := by omega
      rw [h0] at hrep ⊢
      simp only [upTo, List.range_zero, List.map_nil, DoContext.replay,
        Option.some.injEq] at hrep
      subst hrep
      rw [hdo, h0]
      rfl
  · intro hf
    obtain ⟨r, hr⟩ := DoContext.loop_total n f ctx hf n.toNat 0 mem [] (le_refl 0)
    refine ⟨r, by rw [hdo, hr], ?_, DoContext.loop_outcome n f ctx mem r hr⟩
    exact DoContext.loop_replay f ctx mem n.toNat 0 mem [] r rfl hr

/-- Instance of C5: five indices and an `f` that counts its calls in memory and fails on its
third call, whatever the index: `DoContext` calls it with 0, 1, 2, returns the error of the
third call and leaves the count at 3. -/
theorem DoContext_sequential_stops_at_first_error_witness :
    ((2 : Nat) : Int) < 5 ∧
    DoContext.replay
        (fun (_ : Option Error) (_ : Int) (m : Nat) =>
          some (m + 1, if m = 2 then some (Error.Failure 7) else none)) none
        ((upTo 2).map (fun i => (i, none)) ++ [(((2 : Nat) : Int), some (Error.Failure 7))]) 0
      = some 3 ∧
    (upTo 2).map (fun i => (i, (none : Option Error)))
        ++ [(((2 : Nat) : Int), some (Error.Failure 7))]
      = [(0, none), (1, none), (2, some (Error.Failure 7))] ∧
    DoContext 8 none 1 5
        (fun (_ : Option Error) (_ : Int) (m : Nat) =>
          some (m + 1, if m = 2 then some (Error.Failure 7) else none)) 0 []
      = some ⟨3, (upTo 2).map (fun i => (i, none))
          ++ [(((2 : Nat) : Int), some (Error.Failure 7))], some (Error.Failure 7)⟩ :=
  ⟨by decide, by decide, by decide,
   (DoContext_sequential_stops_at_first_error 8 none 5
      (fun (_ : Option Error) (_ : Int) (m : Nat) =>
        some (m + 1, if m = 2 then some (Error.Failure 7) else none)) 0 []).1
      2 (Error.Failure 7) 3 (by decide) (by decide)⟩

theorem DoContext.step_alive {σ : Type} {n : Int}
    {f : Option Error → Int → σ → Option (σ × Option Error)} {s s1 : CtxState σ} {j : Nat}
    (hs : DoContext.step n f s j = some s1) : s.crashed = false := by
  unfold DoContext.step at hs
  split at hs
  · cases hs
  · rename_i h
    simpa using h

/-- The shapes an action of goroutine `j` can take. -/
theorem DoContext.step_cases {σ : Type} {n : Int}
    {f : Option Error → Int → σ → Option (σ × Option Error)} {s s1 : CtxState σ} {j : Nat}
    (hs : DoContext.step n f s j = some s1) :
    (s.workers[j]? = some CtxWorker.fetch ∧
      s1 = { s with x := wrapInt32 (s.x + 1),
                    workers := s.workers.set j (CtxWorker.hold (wrapInt32 (s.x + 1))) }) ∨
    (∃ i, s.workers[j]? = some (CtxWorker.hold i) ∧ n ≤ i ∧
      s1 = { s with workers := s.workers.set j CtxWorker.exited }) ∨
    (∃ i e, s.workers[j]? = some (CtxWorker.hold i) ∧ i < n ∧ s.ctx = some e ∧
      s1 = { s with workers := s.workers.set j (CtxWorker.failing e) }) ∨
    (∃ i, s.workers[j]? = some (CtxWorker.hold i) ∧ i < n ∧ s.ctx = none ∧
      s1 = { s with workers := s.workers.set j (CtxWorker.ready i) }) ∨
    (∃ i m, s.workers[j]? = some (CtxWorker.ready i) ∧ f s.ctx i s.mem = some (m, none) ∧
      s1 = { s with mem := m, calls := s.calls ++ [(i, none)],
                    workers := s.workers.set j CtxWorker.fetch }) ∨
    (∃ i m e, s.workers[j]? = some (CtxWorker.ready i) ∧ f s.ctx i s.mem = some (m, some e) ∧
      s1 = { s with mem := m, calls := s.calls ++ [(i, some e)],
                    workers := s.workers.set j (CtxWorker.failing e) }) ∨
    (∃ i, s.workers[j]? = some (CtxWorker.ready i) ∧ f s.ctx i s.mem = none ∧
      s1 = { s with calls := s.calls ++ [(i, none)], crashed := true }) ∨
    (∃ e, s.workers[j]? = some (CtxWorker.failing e) ∧ s.err = none ∧
      s1 = { s with err := some e, workers := s.workers.set j CtxWorker.exited,
                    ctx := match s.ctx with
                      | none => some Error.Canceled
                      | some c => some c }) ∨
    (∃ e e1, s.workers[j]? = some (CtxWorker.failing e) ∧ s.err = some e1 ∧
      s1 = { s with workers := s.workers.set j CtxWorker.exited }) := by
  unfold DoContext.step at hs
  split at hs
  · cases hs
  · split at hs
    · rename_i hw
      simp only [Option.some.injEq] at hs
      exact Or.inl ⟨hw, hs.symm⟩
    · rename_i i hw
      split at hs
      · rename_i hi
        simp only [Option.some.injEq] at hs
        exact Or.inr (Or.inl ⟨i, hw, hi, hs.symm⟩)
      · rename_i hi
        split at hs
        · rename_i e he
          simp only [Option.some.injEq] at hs
          exact Or.inr (Or.inr (Or.inl ⟨i, e, hw, by omega, he, hs.symm⟩))
        · rename_i he
          simp only [Option.some.injEq] at hs
          exact Or.inr (Or.inr (Or.inr (Or.inl ⟨i, hw, by omega, he, hs.symm⟩)))
    · rename_i i hw
      split at hs
      · rename_i m hm
        simp only [Option.some.injEq] at hs
        exact Or.inr (Or.inr (Or.inr (Or.inr (Or.inl ⟨i, m, hw, hm, hs.symm⟩))))
      · rename_i m e hm
        simp only [Option.some.injEq] at hs
        exact Or.inr (Or.inr (Or.inr (Or.inr (Or.inr (Or.inl ⟨i, m, e, hw, hm, hs.symm⟩)))))
      · rename_i hm
        simp only [Option.some.injEq] at hs
        exact Or.inr (Or.inr (Or.inr (Or.inr (Or.inr (Or.inr (Or.inl ⟨i, hw, hm, hs.symm⟩))))))
    · rename_i e hw
      split at hs
      · rename_i he
        simp only [Option.some.injEq] at hs
        exact Or.inr (Or.inr (Or.inr (Or.inr (Or.inr (Or.inr (Or.inr
          (Or.inl ⟨e, hw, he, hs.symm⟩)))))))
      · rename_i e1 he
        simp only [Option.some.injEq] at hs
        exact Or.inr (Or.inr (Or.inr (Or.inr (Or.inr (Or.inr (Or.inr
          (Or.inr ⟨e, e1, hw, he, hs.symm⟩)))))))
    · cases hs

/-- A failure, once it has happened, stays: an action never leads from a failed state to a
state without failure. -/
theorem DoContext.Good.of_step {σ : Type} {n : Int}
    {f : Option Error → Int → σ → Option (σ × Option Error)} {s s1 : CtxState σ} {j : Nat}
    (hs : DoContext.step n f s j = some s1) (hg : DoContext.Good s1) : DoContext.Good s := by
  have keep : ∀ (w w1 : CtxWorker), s.workers[j]? = some w → (∀ e, w ≠ CtxWorker.failing e) →
      (∀ (k : Nat) (e : Error), (s.workers.set j w1)[k]? ≠ some (CtxWorker.failing e)) →
      ∀ (k : Nat) (e : Error), s.workers[k]? ≠ some (CtxWorker.failing e) := by
    intro w w1 hw hne hall k e hk
    have hkj : j ≠ k := by
      intro hEq
      subst hEq
      rw [hw] at hk
      injection hk with hk
      exact hne e hk
    apply hall k e
    rw [List.getElem?_set_ne hkj]
    exact hk
  obtain ⟨hal, herr, hfail⟩ := hg
  rcases DoContext.step_cases hs with ⟨hw, rfl⟩ | ⟨i, hw, _, rfl⟩ | ⟨i, e, hw, _, _, rfl⟩ |
    ⟨i, hw, _, _, rfl⟩ | ⟨i, m, hw, _, rfl⟩ | ⟨i, m, e, hw, _, rfl⟩ | ⟨i, hw, _, rfl⟩ |
    ⟨e, hw, _, rfl⟩ | ⟨e, e1, hw, he1, rfl⟩
  · exact ⟨hal, herr, keep _ _ hw (by intro e h; cases h) hfail⟩
  · exact ⟨hal, herr, keep _ _ hw (by intro e h; cases h) hfail⟩
  · exact absurd (getElem?_set_same s.workers j _ (CtxWorker.failing e) hw) (hfail j e)
  · exact ⟨hal, herr, keep _ _ hw (by intro e h; cases h) hfail⟩
  · exact ⟨hal, herr, keep _ _ hw (by intro e h; cases h) hfail⟩
  · exact absurd (getElem?_set_same s.workers j _ (CtxWorker.failing e) hw) (hfail j e)
  · cases hal
  · cases herr
  · rw [he1] at herr
    cases herr

/-- An action that leaves the state without failure and does not wrap the counter keeps the
facts of `Core`. -/
theorem DoContext.Core.core_step {σ : Type} {n : Int}
    {f : Option Error → Int → σ → Option (σ × Option Error)} {s s1 : CtxState σ} {j : Nat}
    (h : DoContext.Core n s) (hs : DoContext.step n f s j = some s1)
    (hg : DoContext.Good s1)
    (hwrap : s.workers[j]? = some CtxWorker.fetch → wrapInt32 (s.x + 1) = s.x + 1) :
    DoContext.Core n s1 := by
  obtain ⟨hal, herr, hfail⟩ := hg
  rcases DoContext.step_cases hs with ⟨hw, rfl⟩ | ⟨i, hw, hi, rfl⟩ | ⟨i, e, hw, _, _, rfl⟩ |
    ⟨i, hw, hi, _, rfl⟩ | ⟨i, m, hw, _, rfl⟩ | ⟨i, m, e, hw, _, rfl⟩ | ⟨i, hw, _, rfl⟩ |
    ⟨e, hw, _, rfl⟩ | ⟨e, e1, hw, he1, rfl⟩
  · -- fetch
    rw [hwrap hw]
    have hlo := h.lo
    refine ⟨by show -1 ≤ s.x + 1; omega, ?_, ?_, ?_, h.clean⟩
    · intro k w i hk hidx
      show 0 ≤ i ∧ i ≤ s.x + 1
      rcases getElem?_set_cases _ _ _ _ _ hk with ⟨_, hwq⟩ | ⟨_, hold⟩
      · subst hwq
        simp only [CtxWorker.index, Option.some.injEq] at hidx
        omega
      · have := h.range k w i hold hidx
        omega
    · intro v hv0 hvx hvn
      have hvx1 : v ≤ s.x + 1 := hvx
      by_cases hveq : v = s.x + 1
      · subst hveq
        exact Or.inr ⟨j, _, getElem?_set_same s.workers j _ _ hw, rfl⟩
      · rcases h.cover v hv0 (by omega) hvn with hc | ⟨k, w, hk, hidx⟩
        · exact Or.inl hc
        · refine Or.inr ⟨k, w, ?_, hidx⟩
          have hne : j ≠ k := by
            intro hEq
            subst hEq
            rw [hw] at hk
            injection hk with hk
            subst hk
            cases hidx
          show (s.workers.set j _)[k]? = some w
          rw [List.getElem?_set_ne hne]
          exact hk
    · intro k hk
      show n ≤ s.x + 1
      rcases getElem?_set_cases _ _ _ _ _ hk with ⟨_, hwq⟩ | ⟨_, hold⟩
      · cases hwq
      · have := h.gone k hold
        omega
  · -- hold, index at or above n
    refine ⟨h.lo, ?_, ?_, ?_, h.clean⟩
    · intro k w i1 hk hidx
      rcases getElem?_set_cases _ _ _ _ _ hk with ⟨_, hwq⟩ | ⟨_, hold⟩
      · subst hwq
        cases hidx
      · exact h.range k w i1 hold hidx
    · intro v hv0 hvx hvn
      rcases h.cover v hv0 hvx hvn with hc | ⟨k, w, hk, hidx⟩
      · exact Or.inl hc
      · refine Or.inr ⟨k, w, ?_, hidx⟩
        have hne : j ≠ k := by
          intro hEq
          subst hEq
          rw [hw] at hk
          injection hk with hk
          subst hk
          simp only [CtxWorker.index, Option.some.injEq] at hidx
          omega
        show (s.workers.set j _)[k]? = some w
        rw [List.getElem?_set_ne hne]
        exact hk
    · intro k hk
      show n ≤ s.x
      rcases getElem?_set_cases _ _ _ _ _ hk with ⟨_, _⟩ | ⟨_, hold⟩
      · have := (h.range j _ i hw rfl).2
        omega
      · exact h.gone k hold
  · exact absurd (getElem?_set_same s.workers j _ (CtxWorker.failing e) hw) (hfail j e)
  · -- hold, both tests pass
    refine ⟨h.lo, ?_, ?_, ?_, h.clean⟩
    · intro k w i1 hk hidx
      rcases getElem?_set_cases _ _ _ _ _ hk with ⟨_, hwq⟩ | ⟨_, hold⟩
      · subst hwq
        simp only [CtxWorker.index, Option.some.injEq] at hidx
        subst hidx
        exact h.range j _ i hw rfl
      · exact h.range k w i1 hold hidx
    · intro v hv0 hvx hvn
      rcases h.cover v hv0 hvx hvn with hc | ⟨k, w, hk, hidx⟩
      · exact Or.inl hc
      · by_cases hEq : j = k
        · subst hEq
          rw [hw] at hk
          injection hk with hk
          subst hk
          exact Or.inr ⟨j, CtxWorker.ready i, getElem?_set_same s.workers j _ _ hw, hidx⟩
        · refine Or.inr ⟨k, w, ?_, hidx⟩
          show (s.workers.set j _)[k]? = some w
          rw [List.getElem?_set_ne hEq]
          exact hk
    · intro k hk
      rcases getElem?_set_cases _ _ _ _ _ hk with ⟨_, hwq⟩ | ⟨_, hold⟩
      · cases hwq
      · exact h.gone k hold
  · -- call returning nil
    refine ⟨h.lo, ?_, ?_, ?_, ?_⟩
    · intro k w i1 hk hidx
      rcases getElem?_set_cases _ _ _ _ _ hk with ⟨_, hwq⟩ | ⟨_, hold⟩
      · subst hwq
        cases hidx
      · exact h.range k w i1 hold hidx
    · intro v hv0 hvx hvn
      show v ∈ (s.calls ++ [(i, none)]).map Prod.fst ∨ _
      rcases h.cover v hv0 hvx hvn with hc | ⟨k, w, hk, hidx⟩
      · left
        rw [List.map_append]
        exact List.mem_append.mpr (Or.inl hc)
      · by_cases hEq : j = k
        · subst hEq
          rw [hw] at hk
          injection hk with hk
          subst hk
          simp only [CtxWorker.index, Option.some.injEq] at hidx
          subst hidx
          left
          simp
        · refine Or.inr ⟨k, w, ?_, hidx⟩
          show (s.workers.set j _)[k]? = some w
          rw [List.getElem?_set_ne hEq]
          exact hk
    · intro k hk
      rcases getElem?_set_cases _ _ _ _ _ hk with ⟨_, hwq⟩ | ⟨_, hold⟩
      · cases hwq
      · exact h.gone k hold
    · intro c hc
      rcases List.mem_append.mp hc with hc | hc
      · exact h.clean c hc
      · rw [List.mem_singleton.mp hc]
  · exact absurd (getElem?_set_same s.workers j _ (CtxWorker.failing e) hw) (hfail j e)
  · cases hal
  · cases herr
  · rw [he1] at herr
    cases herr

theorem DoContext.ctx_credit_le_one (n : Int) (w : CtxWorker) : DoContext.credit n w ≤ 1 := by
  cases w <;> simp only [DoContext.credit] <;> first | omega | (split <;> omega)

/-- A goroutine that gives up its index, or had none, keeps the ledger. -/
theorem DoContext.Ledger.give_up {n x : Int} {ws : List CtxWorker}
    {calls : List (Int × Option Error)} (h : DoContext.Ledger n x ws calls) (j : Nat)
    (w1 : CtxWorker) (hidx : w1.index = none) :
    DoContext.Ledger n x (ws.set j w1) calls := by
  obtain ⟨hc, hn, hh, hr⟩ := h
  refine ⟨hc, hn, ?_, ?_⟩
  · intro k w i hk hi
    rcases getElem?_set_cases _ _ _ _ _ hk with ⟨_, hwq⟩ | ⟨_, hold⟩
    · subst hwq
      rw [hidx] at hi
      cases hi
    · obtain ⟨h0, h1, h2, h3⟩ := hh k w i hold hi
      refine ⟨h0, h1, h2, ?_⟩
      intro k1 w2 hk1 hi1
      rcases getElem?_set_cases _ _ _ _ _ hk1 with ⟨_, hwq⟩ | ⟨_, hold1⟩
      · subst hwq
        rw [hidx] at hi1
        cases hi1
      · exact h3 k1 w2 hold1 hi1
  · intro k i hk
    rcases getElem?_set_cases _ _ _ _ _ hk with ⟨_, hwq⟩ | ⟨_, hold⟩
    · rw [← hwq] at hidx
      cases hidx
    · exact hr k i hold

/-- A goroutine that passes both tests keeps its index and the ledger. -/
theorem DoContext.Ledger.pass {n x : Int} {ws : List CtxWorker}
    {calls : List (Int × Option Error)} (h : DoContext.Ledger n x ws calls) (j : Nat) (i : Int)
    (hw : ws[j]? = some (CtxWorker.hold i)) (hi : i < n) :
    DoContext.Ledger n x (ws.set j (CtxWorker.ready i)) calls := by
  obtain ⟨hc, hn, hh, hr⟩ := h
  have back : ∀ (k : Nat) (w : CtxWorker) (v : Int),
      (ws.set j (CtxWorker.ready i))[k]? = some w → w.index = some v →
      ∃ w0, ws[k]? = some w0 ∧ w0.index = some v := by
    intro k w v hk hv
    rcases getElem?_set_cases _ _ _ _ _ hk with ⟨hkj, hwq⟩ | ⟨_, hold⟩
    · subst hwq
      subst hkj
      exact ⟨_, hw, hv⟩
    · exact ⟨w, hold, hv⟩
  refine ⟨hc, hn, ?_, ?_⟩
  · intro k w v hk hv
    obtain ⟨w0, hk0, hv0⟩ := back k w v hk hv
    obtain ⟨h0, h1, h2, h3⟩ := hh k w0 v hk0 hv0
    refine ⟨h0, h1, h2, ?_⟩
    intro k1 w2 hk1 hv1
    obtain ⟨w3, hk3, hv3⟩ := back k1 w2 v hk1 hv1
    exact h3 k1 w3 hk3 hv3
  · intro k v hk
    rcases getElem?_set_cases _ _ _ _ _ hk with ⟨_, hwq⟩ | ⟨_, hold⟩
    · injection hwq with hwq
      omega
    · exact hr k v hold

/-- A goroutine that draws the next counter value keeps the ledger. -/
theorem DoContext.Ledger.draw {n x : Int} {ws : List CtxWorker}
    {calls : List (Int × Option Error)} (h : DoContext.Ledger n x ws calls) (j : Nat)
    (hx : -1 ≤ x) :
    DoContext.Ledger n (x + 1) (ws.set j (CtxWorker.hold (x + 1))) calls := by
  obtain ⟨hc, hn, hh, hr⟩ := h
  refine ⟨?_, hn, ?_, ?_⟩
  · intro c hcm
    have := hc c hcm
    omega
  · intro k w i hk hi
    rcases getElem?_set_cases _ _ _ _ _ hk with ⟨hkj, hwq⟩ | ⟨_, hold⟩
    · subst hwq
      simp only [CtxWorker.index, Option.some.injEq] at hi
      subst hi
      refine ⟨by omega, le_refl _, ?_, ?_⟩
      · intro hmem
        obtain ⟨c, hcm, hc1⟩ := List.mem_map.mp hmem
        have := hc c hcm
        omega
      · intro k1 w2 hk1 hi1
        rcases getElem?_set_cases _ _ _ _ _ hk1 with ⟨hk1j, _⟩ | ⟨_, hold1⟩
        · rw [hk1j, hkj]
        · have := (hh k1 w2 _ hold1 hi1).2.1
          omega
    · obtain ⟨h0, h1, h2, h3⟩ := hh k w i hold hi
      refine ⟨h0, by omega, h2, ?_⟩
      intro k1 w2 hk1 hi1
      rcases getElem?_set_cases _ _ _ _ _ hk1 with ⟨_, hwq⟩ | ⟨_, hold1⟩
      · subst hwq
        simp only [CtxWorker.index, Option.some.injEq] at hi1
        omega
      · exact h3 k1 w2 hold1 hi1
  · intro k i hk
    rcases getElem?_set_cases _ _ _ _ _ hk with ⟨_, hwq⟩ | ⟨_, hold⟩
    · cases hwq
    · exact hr k i hold

/-- A goroutine that has called `f` on its index keeps the ledger. -/
theorem DoContext.Ledger.log {n x : Int} {ws : List CtxWorker}
    {calls : List (Int × Option Error)} (h : DoContext.Ledger n x ws calls) (j : Nat) (i : Int)
    (r : Option Error) (w1 : CtxWorker) (hw : ws[j]? = some (CtxWorker.ready i))
    (hidx : w1.index = none) :
    DoContext.Ledger n x (ws.set j w1) (calls ++ [(i, r)]) := by
  have hrel := h.give_up j w1 hidx
  obtain ⟨hc, hn, hh, hr⟩ := h
  obtain ⟨hj0, hj1, hj2, hj3⟩ := hh j _ i hw rfl
  have hjn := hr j i hw
  refine ⟨?_, ?_, ?_, hrel.2.2.2⟩
  · intro c hcm
    rcases List.mem_append.mp hcm with hcm | hcm
    · exact hc c hcm
    · rw [List.mem_singleton.mp hcm]
      exact ⟨hj0, hjn, hj1⟩
  · rw [List.map_append, List.nodup_append]
    refine ⟨hn, List.nodup_singleton _, ?_⟩
    intro a ha hai
    simp only [List.map_cons, List.map_nil, List.mem_singleton] at hai
    rw [hai] at ha
    exact hj2 ha
  · intro k w v hk hv
    obtain ⟨h0, h1, h2, h3⟩ := hrel.2.2.1 k w v hk hv
    refine ⟨h0, h1, ?_, h3⟩
    intro hmem
    rw [List.map_append] at hmem
    rcases List.mem_append.mp hmem with hmem | hmem
    · exact h2 hmem
    · simp only [List.map_cons, List.map_nil, List.mem_singleton] at hmem
      subst hmem
      rcases getElem?_set_cases _ _ _ _ _ hk with ⟨_, hwq⟩ | ⟨hkj, hold⟩
      · subst hwq
        rw [hidx] at hv
        cases hv
      · exact hkj (hj3 k w hold hv)

/-- While a goroutine of `DoContext` is still fetching, the next counter value fits an
`int32`. -/
theorem DoContext.Inv.ctx_no_wrap {σ : Type} {n : Int} {s : CtxState σ} (h : DoContext.Inv n s)
    (j : Nat) (hw : s.workers[j]? = some CtxWorker.fetch)
    (hb : n + s.workers.length ≤ 2147483648) : wrapInt32 (s.x + 1) = s.x + 1 := by
  have hc := le_sum_map_of_getElem (DoContext.credit n) s.workers j _ hw
  simp only [DoContext.credit] at hc
  have hbud := h.budget
  have hlo := h.lo
  apply wrapInt32_of_range <;> omega

/-- Every action of a `DoContext` below the wrapping range keeps the invariant and uses up at
least one unit of potential. -/
theorem DoContext.ctx_step_inv {σ : Type} {n : Int}
    (f : Option Error → Int → σ → Option (σ × Option Error))
    (hf : ∀ c i m, 0 ≤ i → i < n → (f c i m).isSome = true) {s s1 : CtxState σ} {j : Nat}
    (h : DoContext.Inv n s) (hb : n + s.workers.length ≤ 2147483648)
    (hs : DoContext.step n f s j = some s1) :
    DoContext.Inv n s1 ∧ s1.workers.length = s.workers.length ∧
      DoContext.potential n s1 + 1 ≤ DoContext.potential n s := by
  have hcore : DoContext.Good s1 → DoContext.Core n s1 := fun hg =>
    (h.core (DoContext.Good.of_step hs hg)).core_step hs hg (fun hw => h.ctx_no_wrap j hw hb)
  have hbud := h.budget
  have hlo := h.lo
  rcases DoContext.step_cases hs with ⟨hw, hs1⟩ | ⟨i, hw, hi, hs1⟩ | ⟨i, e, hw, hi, _, hs1⟩ |
    ⟨i, hw, hi, _, hs1⟩ | ⟨i, m, hw, hfi, hs1⟩ | ⟨i, m, e, hw, hfi, hs1⟩ | ⟨i, hw, hfi, hs1⟩ |
    ⟨e, hw, _, hs1⟩ | ⟨e, e1, hw, _, hs1⟩
  · -- fetch
    rw [h.ctx_no_wrap j hw hb] at hs1
    have hcr := sum_map_set (DoContext.credit n) (CtxWorker.hold (s.x + 1)) s.workers j _ hw
    have hrk := sum_map_set DoContext.rank (CtxWorker.hold (s.x + 1)) s.workers j _ hw
    have hle := sum_map_le_length (DoContext.credit n) (DoContext.ctx_credit_le_one n)
      (s.workers.set j (CtxWorker.hold (s.x + 1)))
    simp only [DoContext.credit] at hcr
    simp only [DoContext.rank] at hrk
    simp only [List.length_set] at hle
    refine ⟨⟨?_, ?_, ?_, ?_, hcore⟩, ?_, ?_⟩
    · rw [hs1]; exact h.alive
    · rw [hs1]; show -1 ≤ s.x + 1; omega
    · rw [hs1]
      simp only [List.length_set]
      by_cases hx : s.x + 1 < n
      · rw [if_pos hx] at hcr
        omega
      · rw [if_neg hx] at hcr
        omega
    · rw [hs1]; exact h.ledger.draw j hlo
    · rw [hs1]; simp
    · rw [hs1]
      simp only [DoContext.potential, List.length_set]
      omega
  · -- hold, index at or above n
    have hcr := sum_map_set (DoContext.credit n) CtxWorker.exited s.workers j _ hw
    have hrk := sum_map_set DoContext.rank CtxWorker.exited s.workers j _ hw
    simp only [DoContext.credit] at hcr
    simp only [DoContext.rank] at hrk
    refine ⟨⟨?_, ?_, ?_, ?_, hcore⟩, ?_, ?_⟩
    · rw [hs1]; exact h.alive
    · rw [hs1]; exact hlo
    · rw [hs1]
      simp only [List.length_set]
      omega
    · rw [hs1]; exact h.ledger.give_up j _ rfl
    · rw [hs1]; simp
    · rw [hs1]
      simp only [DoContext.potential, List.length_set]
      omega
  · -- hold, context cancelled
    have hcr := sum_map_set (DoContext.credit n) (CtxWorker.failing e) s.workers j _ hw
    have hrk := sum_map_set DoContext.rank (CtxWorker.failing e) s.workers j _ hw
    simp only [DoContext.credit] at hcr
    simp only [DoContext.rank] at hrk
    refine ⟨⟨?_, ?_, ?_, ?_, hcore⟩, ?_, ?_⟩
    · rw [hs1]; exact h.alive
    · rw [hs1]; exact hlo
    · rw [hs1]
      simp only [List.length_set]
      omega
    · rw [hs1]; exact h.ledger.give_up j _ rfl
    · rw [hs1]; simp
    · rw [hs1]
      simp only [DoContext.potential, List.length_set]
      omega
  · -- hold, both tests pass
    have hcr := sum_map_set (DoContext.credit n) (CtxWorker.ready i) s.workers j _ hw
    have hrk := sum_map_set DoContext.rank (CtxWorker.ready i) s.workers j _ hw
    simp only [DoContext.credit] at hcr
    simp only [DoContext.rank] at hrk
    refine ⟨⟨?_, ?_, ?_, ?_, hcore⟩, ?_, ?_⟩
    · rw [hs1]; exact h.alive
    · rw [hs1]; exact hlo
    · rw [hs1]
      simp only [List.length_set]
      omega
    · rw [hs1]; exact h.ledger.pass j i hw hi
    · rw [hs1]; simp
    · rw [hs1]
      simp only [DoContext.potential, List.length_set]
      omega
  · -- call returning nil
    have hcr := sum_map_set (DoContext.credit n) CtxWorker.fetch s.workers j _ hw
    have hrk := sum_map_set DoContext.rank CtxWorker.fetch s.workers j _ hw
    have hin := h.ledger.2.2.2 j i hw
    simp only [DoContext.credit, if_pos hin] at hcr
    simp only [DoContext.rank] at hrk
    refine ⟨⟨?_, ?_, ?_, ?_, hcore⟩, ?_, ?_⟩
    · rw [hs1]; exact h.alive
    · rw [hs1]; exact hlo
    · rw [hs1]
      simp only [List.length_set]
      omega
    · rw [hs1]; exact h.ledger.log j i none _ hw rfl
    · rw [hs1]; simp
    · rw [hs1]
      simp only [DoContext.potential, List.length_set]
      omega
  · -- call returning an error
    have hcr := sum_map_set (DoContext.credit n) (CtxWorker.failing e) s.workers j _ hw
    have hrk := sum_map_set DoContext.rank (CtxWorker.failing e) s.workers j _ hw
    simp only [DoContext.credit] at hcr
    simp only [DoContext.rank] at hrk
    refine ⟨⟨?_, ?_, ?_, ?_, hcore⟩, ?_, ?_⟩
    · rw [hs1]; exact h.alive
    · rw [hs1]; exact hlo
    · rw [hs1]
      simp only [List.length_set]
      omega
    · rw [hs1]; exact h.ledger.log j i (some e) _ hw rfl
    · rw [hs1]; simp
    · rw [hs1]
      simp only [DoContext.potential, List.length_set]
      omega
  · -- call that panics: excluded by `hf`
    have hin := h.ledger.2.2.2 j i hw
    have h0 := (h.ledger.2.2.1 j _ i hw rfl).1
    have := hf s.ctx i s.mem h0 hin
    rw [hfi] at this
    cases this
  · -- first error recorded
    have hcr := sum_map_set (DoContext.credit n) CtxWorker.exited s.workers j _ hw
    have hrk := sum_map_set DoContext.rank CtxWorker.exited s.workers j _ hw
    simp only [DoContext.credit] at hcr
    simp only [DoContext.rank] at hrk
    refine ⟨⟨?_, ?_, ?_, ?_, hcore⟩, ?_, ?_⟩
    · rw [hs1]; exact h.alive
    · rw [hs1]; exact hlo
    · rw [hs1]
      simp only [List.length_set]
      omega
    · rw [hs1]; exact h.ledger.give_up j _ rfl
    · rw [hs1]; simp
    · rw [hs1]
      simp only [DoContext.potential, List.length_set]
      omega
  · -- later error dropped
    have hcr := sum_map_set (DoContext.credit n) CtxWorker.exited s.workers j _ hw
    have hrk := sum_map_set DoContext.rank CtxWorker.exited s.workers j _ hw
    simp only [DoContext.credit] at hcr
    simp only [DoContext.rank] at hrk
    refine ⟨⟨?_, ?_, ?_, ?_, hcore⟩, ?_, ?_⟩
    · rw [hs1]; exact h.alive
    · rw [hs1]; exact hlo
    · rw [hs1]
      simp only [List.length_set]
      omega
    · rw [hs1]; exact h.ledger.give_up j _ rfl
    · rw [hs1]; simp
    · rw [hs1]
      simp only [DoContext.potential, List.length_set]
      omega

theorem DoContext.ctx_run_inv {σ : Type} {n : Int}
    (f : Option Error → Int → σ → Option (σ × Option Error))
    (hf : ∀ c i m, 0 ≤ i → i < n → (f c i m).isSome = true) :
    ∀ (sched : List Nat) (s s1 : CtxState σ), DoContext.Inv n s →
      n + s.workers.length ≤ 2147483648 → DoContext.run n f s sched = some s1 →
      DoContext.Inv n s1 ∧ s1.workers.length = s.workers.length ∧
        DoContext.potential n s1 + sched.length ≤ DoContext.potential n s := by
  intro sched
  induction sched with
  | nil =>
    intro s s1 h _ hr
    simp only [DoContext.run, Option.some.injEq] at hr
    subst hr
    exact ⟨h, rfl, by simp⟩
  | cons j sched ih =>
    intro s s1 h hb hr
    simp only [DoContext.run] at hr
    cases hs : DoContext.step n f s j with
    | none => rw [hs] at hr; cases hr
    | some s2 =>
      rw [hs] at hr
      simp only at hr
      obtain ⟨h2, hlen2, hpot2⟩ := DoContext.ctx_step_inv f hf h hb hs
      obtain ⟨h1, hlen1, hpot1⟩ := ih s2 s1 h2 (by rw [hlen2]; exact hb) hr
      refine ⟨h1, by rw [hlen1, hlen2], ?_⟩
      simp only [List.length_cons, Nat.cast_add, Nat.cast_one]
      omega

theorem DoContext.ctx_init_inv {σ : Type} (n p : Int) (ctx : Option Error) (mem : σ)
    (hn : 0 ≤ n) : DoContext.Inv n (DoContext.init ctx p mem) := by
  have hnone : ∀ (j : Nat) (w : CtxWorker),
      (List.replicate p.toNat CtxWorker.fetch)[j]? = some w → w = CtxWorker.fetch := by
    intro j w hj
    rw [List.getElem?_replicate] at hj
    split at hj
    · injection hj with hj
      exact hj.symm
    · cases hj
  refine ⟨rfl, by simp [DoContext.init], ?_, ⟨?_, ?_, ?_, ?_⟩, ?_⟩
  · have := sum_map_le_length (DoContext.credit n) (DoContext.ctx_credit_le_one n)
      (List.replicate p.toNat CtxWorker.fetch)
    simp only [DoContext.init]
    omega
  · intro c hc
    simp [DoContext.init] at hc
  · simp [DoContext.init]
  · intro j w i hj hi
    rw [hnone j w hj] at hi
    cases hi
  · intro j i hj
    have := hnone j _ hj
    cases this
  · intro _
    refine ⟨by simp [DoContext.init], ?_, ?_, ?_, ?_⟩
    · intro j w i hj hi
      rw [hnone j w hj] at hi
      cases hi
    · intro v hv0 hvx
      simp only [DoContext.init] at hvx
      omega
    · intro j hj
      have := hnone j _ hj
      cases this
    · intro c hc
      simp [DoContext.init] at hc

theorem DoContext.ctx_run_append {σ : Type} (n : Int)
    (f : Option Error → Int → σ → Option (σ × Option Error)) :
    ∀ (a b : List Nat) (s : CtxState σ),
      DoContext.run n f s (a ++ b)
        = (DoContext.run n f s a).bind (fun s1 => DoContext.run n f s1 b) := by
  intro a
  induction a with
  | nil => intro b s; rfl
  | cons j a ih =>
    intro b s
    simp only [List.cons_append, DoContext.run]
    cases DoContext.step n f s j with
    | none => rfl
    | some s1 => exact ih b s1

theorem DoContext.Inv.ctx_potential_nonneg {σ : Type} {n : Int} {s : CtxState σ}
    (h : DoContext.Inv n s) : 0 ≤ DoContext.potential n s := by
  have := h.budget
  simp only [DoContext.potential]
  omega

/-- A live state in which `eg.Wait()` still blocks has a goroutine that can act. -/
theorem DoContext.ctx_progress {σ : Type} (n : Int)
    (f : Option Error → Int → σ → Option (σ × Option Error)) (s : CtxState σ)
    (hal : s.crashed = false) (hr : DoContext.returned s = false) :
    ∃ j s1, DoContext.step n f s j = some s1 := by
  simp only [DoContext.returned, hal, Bool.not_false, Bool.true_and] at hr
  have hex : ∃ w ∈ s.workers, w ≠ CtxWorker.exited := by
    by_contra hne
    push_neg at hne
    have : s.workers.all (fun w => w == CtxWorker.exited) = true := by
      rw [List.all_eq_true]
      intro w hw
      simp [hne w hw]
    rw [this] at hr
    cases hr
  obtain ⟨w, hw, hne⟩ := hex
  obtain ⟨j, hj⟩ := List.mem_iff_getElem?.mp hw
  refine ⟨j, ?_⟩
  unfold DoContext.step
  rw [if_neg (by simp [hal]), hj]
  cases w with
  | exited => exact absurd rfl hne
  | fetch => exact ⟨_, rfl⟩
  | hold i =>
    by_cases hi : i ≥ n
    · simp only [hi, if_true]
      exact ⟨_, rfl⟩
    · simp only [hi, if_false]
      cases s.ctx with
      | none => exact ⟨_, rfl⟩
      | some e => exact ⟨_, rfl⟩
  | ready i =>
    simp only
    cases f s.ctx i s.mem with
    | none => exact ⟨_, rfl⟩
    | some r =>
      obtain ⟨m, e⟩ := r
      cases e with
      | none => exact ⟨_, rfl⟩
      | some e => exact ⟨_, rfl⟩
  | failing e =>
    simp only
    cases s.err with
    | none => exact ⟨_, rfl⟩
    | some e1 => exact ⟨_, rfl⟩

/-- Every state of a non-wrapping `DoContext` can be run to the point where `eg.Wait()`
returns. -/
theorem DoContext.ctx_completes {σ : Type} {n : Int}
    (f : Option Error → Int → σ → Option (σ × Option Error))
    (hf : ∀ c i m, 0 ≤ i → i < n → (f c i m).isSome = true) :
    ∀ (k : Nat) (s : CtxState σ), DoContext.Inv n s → n + s.workers.length ≤ 2147483648 →
      DoContext.potential n s ≤ k →
      ∃ ext s1, DoContext.run n f s ext = some s1 ∧ DoContext.returned s1 = true := by
  intro k
  induction k with
  | zero =>
    intro s h hb hk
    cases hr : DoContext.returned s with
    | true => exact ⟨[], s, rfl, hr⟩
    | false =>
      obtain ⟨j, s1, hs⟩ := DoContext.ctx_progress n f s h.alive hr
      obtain ⟨h1, _, hpot⟩ := DoContext.ctx_step_inv f hf h hb hs
      have := h1.ctx_potential_nonneg
      simp only [Nat.cast_zero] at hk
      omega
  | succ k ih =>
    intro s h hb hk
    cases hr : DoContext.returned s with
    | true => exact ⟨[], s, rfl, hr⟩
    | false =>
      obtain ⟨j, s1, hs⟩ := DoContext.ctx_progress n f s h.alive hr
      obtain ⟨h1, hlen, hpot⟩ := DoContext.ctx_step_inv f hf h hb hs
      have hk1 : DoContext.potential n s1 ≤ k := by
        simp only [Nat.cast_add, Nat.cast_one] at hk
        omega
      obtain ⟨ext, s2, hrun, hret⟩ := ih s1 h1 (by rw [hlen]; exact hb) hk1
      refine ⟨j :: ext, s2, ?_, hret⟩
      simp only [DoContext.run, hs]
      exact hrun

theorem DoContext.returned_good {σ : Type} {s : CtxState σ}
    (hr : DoContext.returned s = true) (he : s.err = none) : DoContext.Good s := by
  simp only [DoContext.returned, Bool.and_eq_true, Bool.not_eq_true', List.all_eq_true,
    beq_iff_eq] at hr
  refine ⟨hr.1, he, ?_⟩
  intro j e hj
  have := hr.2 _ (List.mem_iff_getElem?.mpr ⟨j, hj⟩)
  cases this

/-- In a state without failure where every goroutine is over, `f` has been called on every
index of `[0, n)`. -/
theorem DoContext.Core.all_called {σ : Type} {n : Int} {s : CtxState σ}
    (h : DoContext.Core n s) (hr : DoContext.returned s = true) (hp : 0 < s.workers.length)
    (v : Int) (hv0 : 0 ≤ v) (hvn : v < n) : v ∈ s.calls.map Prod.fst := by
  simp only [DoContext.returned, Bool.and_eq_true, Bool.not_eq_true', List.all_eq_true,
    beq_iff_eq] at hr
  have hall : ∀ (j : Nat) (w : CtxWorker), s.workers[j]? = some w → w = CtxWorker.exited :=
    fun j w hj => hr.2 w (List.mem_iff_getElem?.mpr ⟨j, hj⟩)
  have h0 : s.workers[0]? = some CtxWorker.exited := by
    cases hw : s.workers[0]? with
    | none =>
      rw [List.getElem?_eq_none_iff] at hw
      omega
    | some w => rw [hall 0 w hw]
  have hx := h.gone 0 h0
  rcases h.cover v hv0 (by omega) hvn with hc | ⟨j, w, hj, hidx⟩
  · exact hc
  · rw [hall j w hj] at hidx
    cases hidx

theorem DoContext.loop_returns {σ : Type} (n : Int)
    (f : Option Error → Int → σ → Option (σ × Option Error)) (ctx : Option Error)
    (hf : ∀ c i m, 0 ≤ i → i < n → (f c i m).isSome = true) :
    ∀ (k : Nat) (i : Int) (m : σ) (calls : List (Int × Option Error)), 0 ≤ i →
      ∃ r, DoContext.loop n f ctx k i m calls = some r := by
  intro k
  induction k with
  | zero => intro i m calls _; exact ⟨_, rfl⟩
  | succ k ih =>
    intro i m calls hi
    by_cases hlt : i < n
    · simp only [DoContext.loop, hlt, if_true]
      have hsome := hf ctx i m hi hlt
      cases hfi : f ctx i m with
      | none => rw [hfi] at hsome; cases hsome
      | some r =>
        obtain ⟨m1, e⟩ := r
        cases e with
        | none => exact ih (i + 1) m1 _ (by omega)
        | some e => exact ⟨_, rfl⟩
    · simp only [DoContext.loop, hlt, if_false]
      exact ⟨_, rfl⟩

theorem map_fst_range_pairs (d : Nat) :
    ((List.range d).map (fun t : Nat => ((0 : Int) + (t : Int), (none : Option Error)))).map
      Prod.fst = upTo d := by
  simp only [upTo, List.map_map]
  apply List.map_congr_left
  intro t _
  simp

/-- The guarantees of `DoContext` hold for every result of the sequential loop. -/
theorem DoContext.loop_post {σ : Type} (n : Int)
    (f : Option Error → Int → σ → Option (σ × Option Error)) (ctx : Option Error) (m : σ)
    (r : DoContext.Result σ) (hn : 0 ≤ n)
    (hr : DoContext.loop n f ctx n.toNat 0 m [] = some r) : DoContext.Post n r := by
  rcases DoContext.loop_shape n f ctx n.toNat 0 m [] r (by omega) hr with ⟨he, hc⟩ |
    ⟨d, e, hd, he, hc⟩
  · have hfst : r.calls.map Prod.fst = upTo n.toNat := by
      rw [hc, List.nil_append, map_fst_range_pairs]
    refine ⟨by rw [hfst]; exact nodup_upTo _, ?_, ?_⟩
    · intro c hcm
      have : c.1 ∈ upTo n.toNat := by
        rw [← hfst]
        exact List.mem_map.mpr ⟨c, hcm, rfl⟩
      rw [mem_upTo] at this
      omega
    · intro _
      refine ⟨by rw [hfst], ?_⟩
      intro c hcm
      rw [hc, List.nil_append] at hcm
      obtain ⟨t, _, rfl⟩ := List.mem_map.mp hcm
      rfl
  · have hfst : r.calls.map Prod.fst = upTo (d + 1) := by
      rw [hc, List.nil_append, List.map_append, map_fst_range_pairs]
      simp only [upTo, List.range_succ, List.map_append, List.map_cons, List.map_nil]
      simp
    refine ⟨by rw [hfst]; exact nodup_upTo _, ?_, ?_⟩
    · intro c hcm
      have : c.1 ∈ upTo (d + 1) := by
        rw [← hfst]
        exact List.mem_map.mpr ⟨c, hcm, rfl⟩
      rw [mem_upTo] at this
      omega
    · intro hnone
      rw [he] at hnone
      cases hnone

/-- A result of `DoContext` comes from the sequential loop or from a complete interleaving of
the goroutines. -/
theorem DoContext.ctx_result_cases {σ : Type} (gomaxprocs : Int) (ctx : Option Error)
    (parallelism n : Int) (f : Option Error → Int → σ → Option (σ × Option Error)) (mem : σ)
    (sched : List Nat) (r : DoContext.Result σ)
    (hr : DoContext gomaxprocs ctx parallelism n f mem sched = some r) :
    ((if parallelism ≤ 0 then gomaxprocs else parallelism) = 1 ∧
      DoContext.loop n f ctx n.toNat 0 mem [] = some r) ∨
    ((if parallelism ≤ 0 then gomaxprocs else parallelism) ≠ 1 ∧
      ∃ s, DoContext.run n f
          (DoContext.init ctx (if parallelism ≤ 0 then gomaxprocs else parallelism) mem) sched
          = some s ∧
        DoContext.returned s = true ∧ r = ⟨s.mem, s.calls, s.err⟩) := by
  unfold DoContext at hr
  generalize (if parallelism ≤ 0 then gomaxprocs else parallelism) = p at hr ⊢
  by_cases h1 : p = 1
  · simp only [h1, if_true] at hr
    exact Or.inl ⟨h1, hr⟩
  · simp only [h1, if_false] at hr
    cases hrun : DoContext.run n f (DoContext.init ctx p mem) sched with
    | none => rw [hrun] at hr; cases hr
    | some s =>
      rw [hrun] at hr
      simp only at hr
      cases hret : DoContext.returned s with
      | false => rw [hret] at hr; cases hr
      | true =>
        rw [hret] at hr
        simp only [if_true, Option.some.injEq] at hr
        exact Or.inr ⟨h1, s, rfl, hret, hr.symm⟩

theorem DoContext.init_length {σ : Type} (ctx : Option Error) (p : Int) (mem : σ)
    (hp : 0 ≤ p) : ((DoContext.init ctx p mem).workers.length : Int) = p := by
  simp only [DoContext.init, List.length_replicate]
  omega

/-- Below the wrapping range every interleaving of `DoContext` extends to one on which
`DoContext` returns. -/
theorem DoContext.ctx_extends {σ : Type} (gomaxprocs : Int) (ctx : Option Error)
    (parallelism n : Int) (f : Option Error → Int → σ → Option (σ × Option Error)) (mem : σ)
    (hn : 0 ≤ n) (hp : 1 ≤ parallelism) (hb : n + parallelism ≤ 2147483648)
    (hf : ∀ c i m, 0 ≤ i → i < n → (f c i m).isSome = true) (sched : List Nat)
    (s : CtxState σ)
    (hrun : DoContext.run n f (DoContext.init ctx parallelism mem) sched = some s) :
    ∃ ext r, DoContext gomaxprocs ctx parallelism n f mem (sched ++ ext) = some r := by
  have hpos : ¬ parallelism ≤ 0 := by omega
  by_cases h1 : parallelism = 1
  · obtain ⟨r, hr⟩ := DoContext.loop_returns n f ctx hf n.toNat 0 mem [] (le_refl 0)
    refine ⟨[], r, ?_⟩
    simp only [DoContext, hpos, if_false, h1, if_true]
    exact hr
  · have hlen := DoContext.init_length ctx parallelism mem (by omega)
    obtain ⟨hs, hl, hpot⟩ := DoContext.ctx_run_inv f hf sched _ s
      (DoContext.ctx_init_inv n parallelism ctx mem hn) (by rw [hlen]; exact hb) hrun
    have hnn := hs.ctx_potential_nonneg
    obtain ⟨ext, s1, hext, hret⟩ := DoContext.ctx_completes f hf (DoContext.potential n s).toNat s
      hs (by rw [hl, hlen]; exact hb) (by omega)
    refine ⟨ext, ⟨s1.mem, s1.calls, s1.err⟩, ?_⟩
    simp only [DoContext, hpos, if_false, h1]
    rw [DoContext.ctx_run_append, hrun]
    show (match DoContext.run n f s ext with
      | some s => if DoContext.returned s = true then some ⟨s.mem, s.calls, s.err⟩ else none
      | none => none) = some (⟨s1.mem, s1.calls, s1.err⟩ : DoContext.Result σ)
    rw [hext]
    simp only [hret, if_true]

/-- For an `f` that panics on negative indices, every action keeps `Sound`. -/
theorem DoContext.Sound.sound_step {σ : Type} {n : Int}
    {f : Option Error → Int → σ → Option (σ × Option Error)}
    (hneg : ∀ c i m, i < 0 → f c i m = none) (hn : 0 ≤ n) {s s1 : CtxState σ} {j : Nat}
    (h : DoContext.Sound n s) (hs : DoContext.step n f s j = some s1) :
    DoContext.Sound n s1 := by
  obtain ⟨hx, hK⟩ := h
  constructor
  · rcases DoContext.step_cases hs with ⟨_, rfl⟩ | ⟨_, _, _, rfl⟩ | ⟨_, _, _, _, _, rfl⟩ |
      ⟨_, _, _, _, rfl⟩ | ⟨_, _, _, _, rfl⟩ | ⟨_, _, _, _, _, rfl⟩ | ⟨_, _, _, rfl⟩ |
      ⟨_, _, _, rfl⟩ | ⟨_, _, _, _, rfl⟩
    · exact wrapInt32_lt _
    all_goals exact hx
  · intro hg1
    have hg := DoContext.Good.of_step hs hg1
    rcases hK hg with ⟨j0, w0, i0, hj0, hi0, hlt⟩ | hcore
    · -- a goroutine already holds a negative index
      left
      by_cases hEq : j = j0
      · subst hEq
        rcases DoContext.step_cases hs with ⟨hw, _⟩ | ⟨i, hw, hi, _⟩ | ⟨i, e, hw, _, _, hs1⟩ |
          ⟨i, hw, _, _, hs1⟩ | ⟨i, m, hw, hfi, _⟩ | ⟨i, m, e, hw, hfi, _⟩ | ⟨i, hw, _, hs1⟩ |
          ⟨e, hw, _, _⟩ | ⟨e, e1, hw, _, _⟩
        · rw [hw] at hj0
          injection hj0 with hj0
          subst hj0
          cases hi0
        · rw [hw] at hj0
          injection hj0 with hj0
          subst hj0
          simp only [CtxWorker.index, Option.some.injEq] at hi0
          omega
        · subst hs1
          exact absurd (getElem?_set_same s.workers j _ (CtxWorker.failing e) hw) (hg1.2.2 j e)
        · subst hs1
          rw [hw] at hj0
          injection hj0 with hj0
          subst hj0
          exact ⟨j, CtxWorker.ready i, i0, getElem?_set_same s.workers j _ _ hw, hi0, hlt⟩
        · rw [hw] at hj0
          injection hj0 with hj0
          subst hj0
          simp only [CtxWorker.index, Option.some.injEq] at hi0
          subst hi0
          rw [hneg _ _ _ hlt] at hfi
          cases hfi
        · rw [hw] at hj0
          injection hj0 with hj0
          subst hj0
          simp only [CtxWorker.index, Option.some.injEq] at hi0
          subst hi0
          rw [hneg _ _ _ hlt] at hfi
          cases hfi
        · subst hs1
          have := hg1.1
          cases this
        · rw [hw] at hj0
          injection hj0 with hj0
          subst hj0
          cases hi0
        · rw [hw] at hj0
          injection hj0 with hj0
          subst hj0
          cases hi0
      · have hkeep : ∀ w1 : CtxWorker, (s.workers.set j w1)[j0]? = some w0 := by
          intro w1
          rw [List.getElem?_set_ne hEq]
          exact hj0
        rcases DoContext.step_cases hs with ⟨_, rfl⟩ | ⟨_, _, _, rfl⟩ | ⟨_, _, _, _, _, rfl⟩ |
          ⟨_, _, _, _, rfl⟩ | ⟨_, _, _, _, rfl⟩ | ⟨_, _, _, _, _, rfl⟩ | ⟨_, _, _, rfl⟩ |
          ⟨_, _, _, rfl⟩ | ⟨_, _, _, _, rfl⟩
        · exact ⟨j0, w0, i0, hkeep _, hi0, hlt⟩
        · exact ⟨j0, w0, i0, hkeep _, hi0, hlt⟩
        · exact ⟨j0, w0, i0, hkeep _, hi0, hlt⟩
        · exact ⟨j0, w0, i0, hkeep _, hi0, hlt⟩
        · exact ⟨j0, w0, i0, hkeep _, hi0, hlt⟩
        · exact ⟨j0, w0, i0, hkeep _, hi0, hlt⟩
        · exact ⟨j0, w0, i0, hj0, hi0, hlt⟩
        · exact ⟨j0, w0, i0, hkeep _, hi0, hlt⟩
        · exact ⟨j0, w0, i0, hkeep _, hi0, hlt⟩
    · -- the counter has not wrapped so far
      by_cases hfetch : s.workers[j]? = some CtxWorker.fetch
      · by_cases hlast : s.x + 1 < 2147483648
        · right
          have hlo := hcore.lo
          exact hcore.core_step hs hg1 (fun _ => wrapInt32_of_range _ (by omega) hlast)
        · left
          have hxe : s.x = 2147483647 := by omega
          rcases DoContext.step_cases hs with ⟨_, rfl⟩ | ⟨i, hw, _⟩ | ⟨i, e, hw, _⟩ |
            ⟨i, hw, _⟩ | ⟨i, m, hw, _⟩ | ⟨i, m, e, hw, _⟩ | ⟨i, hw, _⟩ | ⟨e, hw, _⟩ |
            ⟨e, e1, hw, _⟩
          · refine ⟨j, _, wrapInt32 (s.x + 1), getElem?_set_same s.workers j _ _ hfetch, rfl, ?_⟩
            rw [hxe]
            decide
          all_goals (rw [hw] at hfetch; cases hfetch)
      · right
        exact hcore.core_step hs hg1 (fun hw => absurd hw hfetch)

theorem DoContext.Sound.sound_run {σ : Type} {n : Int}
    {f : Option Error → Int → σ → Option (σ × Option Error)}
    (hneg : ∀ c i m, i < 0 → f c i m = none) (hn : 0 ≤ n) :
    ∀ (sched : List Nat) (s s1 : CtxState σ), DoContext.Sound n s →
      DoContext.run n f s sched = some s1 → DoContext.Sound n s1 := by
  intro sched
  induction sched with
  | nil =>
    intro s s1 h hr
    simp only [DoContext.run, Option.some.injEq] at hr
    subst hr
    exact h
  | cons j sched ih =>
    intro s s1 h hr
    simp only [DoContext.run] at hr
    cases hs : DoContext.step n f s j with
    | none => rw [hs] at hr; cases hr
    | some s2 =>
      rw [hs] at hr
      exact ih s2 s1 (h.sound_step hneg hn hs) hr

theorem DoContext.ctx_step_length {σ : Type} {n : Int}
    {f : Option Error → Int → σ → Option (σ × Option Error)} {s s1 : CtxState σ} {j : Nat}
    (hs : DoContext.step n f s j = some s1) : s1.workers.length = s.workers.length := by
  rcases DoContext.step_cases hs with ⟨_, rfl⟩ | ⟨_, _, _, rfl⟩ | ⟨_, _, _, _, _, rfl⟩ |
    ⟨_, _, _, _, rfl⟩ | ⟨_, _, _, _, rfl⟩ | ⟨_, _, _, _, _, rfl⟩ | ⟨_, _, _, rfl⟩ |
    ⟨_, _, _, rfl⟩ | ⟨_, _, _, _, rfl⟩ <;> simp

theorem DoContext.run_length {σ : Type} {n : Int}
    {f : Option Error → Int → σ → Option (σ × Option Error)} :
    ∀ (sched : List Nat) (s s1 : CtxState σ), DoContext.run n f s sched = some s1 →
      s1.workers.length = s.workers.length := by
  intro sched
  induction sched with
  | nil =>
    intro s s1 hr
    simp only [DoContext.run, Option.some.injEq] at hr
    rw [hr]
  | cons j sched ih =>
    intro s s1 hr
    simp only [DoContext.run] at hr
    cases hs : DoContext.step n f s j with
    | none => rw [hs] at hr; cases hr
    | some s2 =>
      rw [hs] at hr
      rw [ih s2 s1 hr, DoContext.ctx_step_length hs]

theorem DoContext.init_sound {σ : Type} (n p : Int) (ctx : Option Error) (mem : σ)
    (hn : 0 ≤ n) : DoContext.Sound n (DoContext.init ctx p mem) :=
  ⟨by simp [DoContext.init], fun hg => Or.inr ((DoContext.ctx_init_inv n p ctx mem hn).core hg)⟩

theorem MapContext.ctx_store_neg {T U : Type} (f : Option Error → T → U × Option Error)
    (input : List T) (c : Option Error) (i : Int) (out : List U) (hi : i < 0) :
    MapContext.store f input c i out = none := by
  unfold MapContext.store
  rw [if_neg (by omega)]

theorem MapContext.ctx_store_isSome {T U : Type} (f : Option Error → T → U × Option Error)
    (input : List T) (c : Option Error) (i : Int) (out : List U) (h0 : 0 ≤ i)
    (h1 : i < input.length) : (MapContext.store f input c i out).isSome = true := by
  have hlt : i.toNat < input.length := by omega
  simp only [MapContext.store, h0, if_true, List.getElem?_eq_getElem hlt, Option.isSome_some]

/-- The slice part of the closure of `MapContext` is the closure of `Map` for the value part
of `f`. -/
theorem MapContext.store_some {T U : Type} {f : Option Error → T → U × Option Error}
    {input : List T} {c : Option Error} {i : Int} {out m : List U} {r : Option Error}
    (h : MapContext.store f input c i out = some (m, r)) :
    Map.store (fun a => (f c a).1) input i out = some m := by
  unfold MapContext.store at h
  unfold Map.store
  split at h
  · rename_i h0
    rw [if_pos h0]
    split at h
    · rename_i a ha
      simp only [Option.some.injEq, Prod.mk.injEq] at h
      simp only [ha, h.1]
    · cases h
  · cases h

theorem MapContext.store_none {T U : Type} {f : Option Error → T → U × Option Error}
    {input : List T} {c : Option Error} {i : Int} {out : List U}
    (h : MapContext.store f input c i out = none) : ¬ (0 ≤ i ∧ i < input.length) := by
  intro hi
  have := MapContext.ctx_store_isSome f input c i out hi.1 hi.2
  rw [h] at this
  cases this

theorem MapContext.Stored.ctx_stored_step {T U : Type} {f : Option Error → T → U × Option Error}
    {input : List T} {ctx : Option Error} {n : Int} {s s1 : CtxState (List U)} {j : Nat}
    (h : MapContext.Stored f input ctx s)
    (hs : DoContext.step n (MapContext.store f input) s j = some s1) :
    MapContext.Stored f input ctx s1 := by
  rcases DoContext.step_cases hs with ⟨_, rfl⟩ | ⟨_, _, _, rfl⟩ | ⟨_, _, _, _, _, rfl⟩ |
    ⟨_, _, _, _, rfl⟩ | ⟨i, m, _, hfi, rfl⟩ | ⟨i, m, e, _, hfi, rfl⟩ | ⟨i, _, hfi, rfl⟩ |
    ⟨_, _, _, rfl⟩ | ⟨_, _, _, _, rfl⟩
  · exact h
  · exact h
  · exact h
  · exact h
  · intro he
    obtain ⟨hctx, hst⟩ := h he
    refine ⟨hctx, ?_⟩
    rw [hctx] at hfi
    have := hst.store i (MapContext.store_some hfi)
    simpa using this
  · intro he
    obtain ⟨hctx, hst⟩ := h he
    refine ⟨hctx, ?_⟩
    rw [hctx] at hfi
    have := hst.store i (MapContext.store_some hfi)
    simpa using this
  · intro he
    obtain ⟨hctx, hst⟩ := h he
    refine ⟨hctx, hst.1, ?_⟩
    intro v hv hv0 hv1
    simp only [List.map_append, List.map_cons, List.map_nil, List.mem_append,
      List.mem_singleton] at hv
    rcases hv with hv | hv
    · exact hst.2 v hv hv0 hv1
    · subst hv
      exact absurd ⟨hv0, hv1⟩ (MapContext.store_none hfi)
  · intro he
    cases he
  · exact h

theorem MapContext.Stored.ctx_stored_run {T U : Type} {f : Option Error → T → U × Option Error}
    {input : List T} {ctx : Option Error} {n : Int} :
    ∀ (sched : List Nat) (s s1 : CtxState (List U)), MapContext.Stored f input ctx s →
      DoContext.run n (MapContext.store f input) s sched = some s1 →
      MapContext.Stored f input ctx s1 := by
  intro sched
  induction sched with
  | nil =>
    intro s s1 h hr
    simp only [DoContext.run, Option.some.injEq] at hr
    subst hr
    exact h
  | cons j sched ih =>
    intro s s1 h hr
    simp only [DoContext.run] at hr
    cases hs : DoContext.step n (MapContext.store f input) s j with
    | none => rw [hs] at hr; cases hr
    | some s2 =>
      rw [hs] at hr
      exact ih s2 s1 (h.ctx_stored_step hs) hr

theorem MapContext.stored_loop {T U : Type} {f : Option Error → T → U × Option Error}
    {input : List T} {ctx : Option Error} {n : Int} :
    ∀ (k : Nat) (i : Int) (mem : List U) (calls : List (Int × Option Error))
      (r : DoContext.Result (List U)),
      Map.Stored (fun a => (f ctx a).1) input mem (calls.map Prod.fst) →
      DoContext.loop n (MapContext.store f input) ctx k i mem calls = some r →
      Map.Stored (fun a => (f ctx a).1) input r.mem (r.calls.map Prod.fst) := by
  intro k
  induction k with
  | zero =>
    intro i mem calls r h hr
    simp only [DoContext.loop, Option.some.injEq] at hr
    subst hr
    exact h
  | succ k ih =>
    intro i mem calls r h hr
    simp only [DoContext.loop] at hr
    split at hr
    · split at hr
      · rename_i m1 hm1
        refine ih (i + 1) m1 _ r ?_ hr
        have := h.store i (MapContext.store_some hm1)
        simpa using this
      · rename_i m1 e hm1
        simp only [Option.some.injEq] at hr
        subst hr
        have := h.store i (MapContext.store_some hm1)
        simpa using this
      · cases hr
    · simp only [Option.some.injEq] at hr
      subst hr
      exact h

/-- Whenever the `DoContext` under `MapContext` returns nil, `out` is the image of `in`:
position by position the value `f` returns under the caller's context. -/
theorem MapContext.out_of_nil {T U : Type} (gomaxprocs : Int) (ctx : Option Error)
    (parallelism : Int) (input : List T) (f : Option Error → T → U × Option Error) (zero : U)
    (hg : 1 ≤ gomaxprocs) (sched : List Nat) (r : DoContext.Result (List U))
    (hr : DoContext gomaxprocs ctx parallelism (input.length : Int) (MapContext.store f input)
      (List.replicate input.length zero) sched = some r)
    (he : r.err = none) : r.mem = input.map (fun a => (f ctx a).1) := by
  have hinit : Map.Stored (fun a => (f ctx a).1) input (List.replicate input.length zero)
      (([] : List (Int × Option Error)).map Prod.fst) :=
    Map.stored_init _ input zero
  have hp : 1 ≤ (if parallelism ≤ 0 then gomaxprocs else parallelism) := by
    split <;> omega
  rcases DoContext.ctx_result_cases _ _ _ _ _ _ _ _ hr with ⟨_, hl⟩ | ⟨_, s, hrun, hret, hrs⟩
  · have hst := MapContext.stored_loop _ _ _ _ r hinit hl
    have hpost := DoContext.loop_post _ _ ctx _ r (by omega) hl
    have hperm := (hpost.2.2 he).1
    rw [Int.toNat_ofNat] at hperm
    exact hst.eq_map hperm
  · subst hrs
    have he1 : s.err = none := he
    have hsound := DoContext.Sound.sound_run
      (fun c i m hi => MapContext.ctx_store_neg f input c i m hi) (by omega) sched _ s
      (DoContext.init_sound _ _ ctx _ (by omega)) hrun
    have hstored : MapContext.Stored f input ctx s :=
      MapContext.Stored.ctx_stored_run sched _ s (fun _ => ⟨rfl, hinit⟩) hrun
    have hgood := DoContext.returned_good hret he1
    have hlen : 0 < s.workers.length := by
      rw [DoContext.run_length sched _ s hrun]
      have := DoContext.init_length ctx _ (List.replicate input.length zero)
        (by omega : 0 ≤ (if parallelism ≤ 0 then gomaxprocs else parallelism))
      omega
    have hall : ∀ (j : Nat) (w : CtxWorker), s.workers[j]? = some w → w = CtxWorker.exited := by
      have hret1 := hret
      simp only [DoContext.returned, Bool.and_eq_true, Bool.not_eq_true', List.all_eq_true,
        beq_iff_eq] at hret1
      exact fun j w hj => hret1.2 w (List.mem_iff_getElem?.mpr ⟨j, hj⟩)
    rcases hsound.2 hgood with ⟨j, w, i, hj, hi, _⟩ | hcore
    · rw [hall j w hj] at hi
      cases hi
    · obtain ⟨_, hst⟩ := hstored he1
      exact hst.eq_map_of_mem (fun v hv0 hv1 => hcore.all_called hret hlen v hv0 hv1)

/-- The worker count `DoContext` ends up with. -/
theorem DoContext.ctx_effective {σ : Type} (gomaxprocs : Int) (ctx : Option Error)
    (parallelism n : Int) (f : Option Error → Int → σ → Option (σ × Option Error)) (mem : σ)
    (sched : List Nat) :
    DoContext gomaxprocs ctx parallelism n f mem sched
      = DoContext gomaxprocs ctx (if parallelism ≤ 0 then gomaxprocs else parallelism) n f mem
          sched := by
  by_cases hp : parallelism ≤ 0
  · by_cases hg : gomaxprocs ≤ 0
    · simp only [DoContext, hp, hg, if_true]
    · simp only [DoContext, hp, hg, if_true, if_false]
  · simp only [DoContext, hp, if_false]

/-- Below the wrapping range, with `runtime.GOMAXPROCS(-1) ≥ 1`: on every interleaving on which
the `DoContext` under `MapContext` returns, `MapContext` returns the nil slice and the error
`DoContext` reports, or, when there is none, a nil error and the slice holding at every
position `i` the value `f` returned for `in[i]`; and there is an interleaving on which
`MapContext` returns. -/
theorem MapContext.ctx_correct_below_wrap {T U : Type} (gomaxprocs : Int)
    (ctx : Option Error) (parallelism : Int) (input : List T)
    (f : Option Error → T → U × Option Error) (zero : U) (hg : 1 ≤ gomaxprocs)
    (hb : (input.length : Int) + (if parallelism ≤ 0 then gomaxprocs else parallelism)
      ≤ 2147483648) :
    (∀ sched r,
      DoContext gomaxprocs ctx parallelism (input.length : Int) (MapContext.store f input)
        (List.replicate input.length zero) sched = some r →
      (∀ e, r.err = some e →
        MapContext gomaxprocs ctx parallelism input f zero sched = some (none, some e)) ∧
      (r.err = none →
        MapContext gomaxprocs ctx parallelism input f zero sched
          = some (some (input.map (fun a => (f ctx a).1)), none))) ∧
    ∃ sched res, MapContext gomaxprocs ctx parallelism input f zero sched = some res := by
  constructor
  · intro sched r hr
    constructor
    · intro e he
      simp only [MapContext, hr, he]
    · intro he
      have hmem := MapContext.out_of_nil gomaxprocs ctx parallelism input f zero hg sched r hr he
      simp only [MapContext, hr, he, hmem]
  · have hp : 1 ≤ (if parallelism ≤ 0 then gomaxprocs else parallelism) := by
      split <;> omega
    obtain ⟨ext, r, hr⟩ := DoContext.ctx_extends gomaxprocs ctx _ (input.length : Int)
      (MapContext.store f input) (List.replicate input.length zero) (by omega) hp hb
      (fun c i m h0 h1 => MapContext.ctx_store_isSome f input c i m h0 h1) [] _ rfl
    rw [← DoContext.ctx_effective] at hr
    refine ⟨[] ++ ext, ?_⟩
    simp only [MapContext, hr]
    cases r.err with
    | none => exact ⟨_, rfl⟩
    | some e => exact ⟨_, rfl⟩

theorem MapContext.store_clean {T U : Type} (f : Option Error → T → U × Option Error)
    (hfe : ∀ c a, (f c a).2 = none) (input : List T) (c : Option Error) (i : Int)
    (out : List U) (h0 : 0 ≤ i) (h1 : i < input.length) :
    ∃ m1, MapContext.store f input c i out = some (m1, none) := by
  have hlt : i.toNat < input.length := by omega
  refine ⟨out.set i.toNat (f c input[i.toNat]).1, ?_⟩
  simp only [MapContext.store, h0, if_true, List.getElem?_eq_getElem hlt, hfe]

theorem MapContext.store_no_error {T U : Type} (f : Option Error → T → U × Option Error)
    (hfe : ∀ c a, (f c a).2 = none) (input : List T) (c : Option Error) (i : Int)
    (out m1 : List U) (e : Error) : MapContext.store f input c i out ≠ some (m1, some e) := by
  intro h
  unfold MapContext.store at h
  split at h
  · split at h
    · simp only [Option.some.injEq, Prod.mk.injEq, hfe] at h
      cases h.2
    · cases h
  · cases h

/-- When `n ≥ 2^31` and `f` never returns an error, no action lets a goroutine of `DoContext`
leave its loop. -/
theorem DoContext.Trapped.trapped_step {σ : Type} {n : Int}
    {f : Option Error → Int → σ → Option (σ × Option Error)} (hn : 2147483648 ≤ n)
    (hfe : ∀ c i m m1 e, f c i m ≠ some (m1, some e)) {s s1 : CtxState σ} {j : Nat}
    (h : DoContext.Trapped s) (hs : DoContext.step n f s j = some s1) :
    DoContext.Trapped s1 := by
  obtain ⟨hctx, herr, hws⟩ := h
  have hidx : ∀ i, (s.workers[j]? = some (CtxWorker.hold i) ∨
      s.workers[j]? = some (CtxWorker.ready i)) → i < 2147483648 := by
    intro i hi
    rcases hi with hi | hi
    · rcases hws j _ hi with hc | ⟨i1, hi1, hc | hc⟩
      · cases hc
      · injection hc with hc
        omega
      · cases hc
    · rcases hws j _ hi with hc | ⟨i1, hi1, hc | hc⟩
      · cases hc
      · cases hc
      · injection hc with hc
        omega
  have hnofail : ∀ e, s.workers[j]? ≠ some (CtxWorker.failing e) := by
    intro e he
    rcases hws j _ he with hc | ⟨i1, _, hc | hc⟩ <;> cases hc
  rcases DoContext.step_cases hs with ⟨hw, rfl⟩ | ⟨i, hw, hi, rfl⟩ | ⟨i, e, hw, _, he, rfl⟩ |
    ⟨i, hw, _, he, rfl⟩ | ⟨i, m, hw, hfi, rfl⟩ | ⟨i, m, e, hw, hfi, rfl⟩ | ⟨i, hw, hfi, rfl⟩ |
    ⟨e, hw, he, rfl⟩ | ⟨e, e1, hw, he, rfl⟩
  · refine ⟨hctx, herr, ?_⟩
    refine forall_getElem?_set (fun w => w = CtxWorker.fetch ∨
      ∃ i, i < 2147483648 ∧ (w = CtxWorker.hold i ∨ w = CtxWorker.ready i)) s.workers j _ hws ?_
    exact Or.inr ⟨_, wrapInt32_lt _, Or.inl rfl⟩
  · have := hidx i (Or.inl hw)
    omega
  · rw [hctx] at he
    cases he
  · refine ⟨hctx, herr, ?_⟩
    refine forall_getElem?_set (fun w => w = CtxWorker.fetch ∨
      ∃ i, i < 2147483648 ∧ (w = CtxWorker.hold i ∨ w = CtxWorker.ready i)) s.workers j _ hws ?_
    exact Or.inr ⟨i, hidx i (Or.inl hw), Or.inr rfl⟩
  · refine ⟨hctx, herr, ?_⟩
    refine forall_getElem?_set (fun w => w = CtxWorker.fetch ∨
      ∃ i, i < 2147483648 ∧ (w = CtxWorker.hold i ∨ w = CtxWorker.ready i)) s.workers j _ hws ?_
    exact Or.inl rfl
  · exact absurd hfi (hfe _ _ _ _ _)
  · exact ⟨hctx, herr, hws⟩
  · exact absurd hw (hnofail e)
  · exact absurd hw (hnofail e)

theorem DoContext.Trapped.trapped_run {σ : Type} {n : Int}
    {f : Option Error → Int → σ → Option (σ × Option Error)} (hn : 2147483648 ≤ n)
    (hfe : ∀ c i m m1 e, f c i m ≠ some (m1, some e)) :
    ∀ (sched : List Nat) (s s1 : CtxState σ), DoContext.Trapped s →
      DoContext.run n f s sched = some s1 → DoContext.Trapped s1 := by
  intro sched
  induction sched with
  | nil =>
    intro s s1 h hr
    simp only [DoContext.run, Option.some.injEq] at hr
    subst hr
    exact h
  | cons j sched ih =>
    intro s s1 h hr
    simp only [DoContext.run] at hr
    cases hs : DoContext.step n f s j with
    | none => rw [hs] at hr; cases hr
    | some s2 =>
      rw [hs] at hr
      exact ih s2 s1 (h.trapped_step hn hfe hs) hr

theorem DoContext.init_trapped {σ : Type} (p : Int) (mem : σ) :
    DoContext.Trapped (DoContext.init none p mem) := by
  refine ⟨rfl, rfl, ?_⟩
  intro j w hw
  left
  exact List.eq_of_mem_replicate (List.getElem?_mem hw)

/-- Goroutine 0 of `DoContext` running alone for `k` rounds (fetch, test, call) draws the next
`k` counter values and passes each to `f`, as long as they stay below `n` and below `2^31` and
`f` returns nil. -/
theorem DoContext.ctx_solo {σ : Type} {n : Int}
    (f : Option Error → Int → σ → Option (σ × Option Error))
    (hf : ∀ i m, 0 ≤ i → i < n → ∃ m1, f none i m = some (m1, none)) :
    ∀ (k : Nat) (s : CtxState σ), s.crashed = false → s.ctx = none →
      s.workers[0]? = some CtxWorker.fetch →
      -1 ≤ s.x → s.x + k < 2147483648 → s.x + k < n →
      ∃ s1, DoContext.run n f s (List.replicate (3 * k) 0) = some s1 ∧ s1.x = s.x + k ∧
        s1.workers = s.workers ∧ s1.crashed = false ∧ s1.ctx = none := by
  intro k
  induction k with
  | zero =>
    intro s hal hctx _ _ _ _
    exact ⟨s, rfl, by simp, rfl, hal, hctx⟩
  | succ k ih =>
    intro s hal hctx hw hlo hhi hn
    simp only [Nat.cast_add, Nat.cast_one] at hhi hn
    have hwrap : wrapInt32 (s.x + 1) = s.x + 1 := wrapInt32_of_range _ (by omega) (by omega)
    obtain ⟨m, hfi⟩ := hf (s.x + 1) s.mem (by omega) (by omega)
    have hlt : ¬ (s.x + 1 ≥ n) := by omega
    have hstep1 : DoContext.step n f s 0
        = some { s with x := s.x + 1,
                        workers := s.workers.set 0 (CtxWorker.hold (s.x + 1)) } := by
      unfold DoContext.step
      rw [if_neg (by simp [hal]), hw]
      simp only [hwrap]
    have hstep2 : DoContext.step n f
        { s with x := s.x + 1, workers := s.workers.set 0 (CtxWorker.hold (s.x + 1)) } 0
        = some { s with x := s.x + 1,
                        workers := s.workers.set 0 (CtxWorker.ready (s.x + 1)) } := by
      unfold DoContext.step
      rw [if_neg (by simp [hal])]
      simp only [getElem?_set_same s.workers 0 _ _ hw, hlt, if_false, hctx, List.set_set]
    have hstep3 : DoContext.step n f
        { s with x := s.x + 1, workers := s.workers.set 0 (CtxWorker.ready (s.x + 1)) } 0
        = some { s with x := s.x + 1, mem := m, calls := s.calls ++ [(s.x + 1, none)] } := by
      unfold DoContext.step
      rw [if_neg (by simp [hal])]
      simp only [getElem?_set_same s.workers 0 _ _ hw, hctx, hfi,
        set_zero_restore s.workers _ _ hw]
    obtain ⟨s1, hrun, hx, hws, hal1, hctx1⟩ :=
      ih { s with x := s.x + 1, mem := m, calls := s.calls ++ [(s.x + 1, none)] } hal hctx hw
        (by show -1 ≤ s.x + 1; omega) (by show s.x + 1 + k < 2147483648; omega)
        (by show s.x + 1 + k < n; omega)
    refine ⟨s1, ?_, ?_, hws, hal1, hctx1⟩
    · have : 3 * (k + 1) = ((3 * k + 1) + 1) + 1 := by omega
      rw [this, List.replicate_succ, List.replicate_succ, List.replicate_succ]
      simp only [DoContext.run, hstep1, hstep2, hstep3]
      exact hrun
    · rw [hx]
      show s.x + 1 + (k : Int) = s.x + ((k : Int) + 1)
      omega

/-- After goroutine 0 has drawn the value `2^31 - 1`, its next three actions wrap the counter
to `-2^31`, pass the two tests and call `f` with that value; the call panics when `f` does. -/
theorem DoContext.ctx_wrap_call {σ : Type} {n : Int}
    (f : Option Error → Int → σ → Option (σ × Option Error)) (s : CtxState σ)
    (hal : s.crashed = false) (hctx : s.ctx = none)
    (hw : s.workers[0]? = some CtxWorker.fetch) (hx : s.x = 2147483647) (hn : 0 ≤ n)
    (hpanic : f none (-2147483648) s.mem = none) :
    ∃ s1, DoContext.run n f s [0, 0, 0] = some s1 ∧
      ((-2147483648 : Int), (none : Option Error)) ∈ s1.calls ∧ s1.crashed = true ∧
      s1.mem = s.mem := by
  have hwrap : wrapInt32 (s.x + 1) = -2147483648 := by
    rw [hx]
    decide
  have hlt : ¬ ((-2147483648 : Int) ≥ n) := by omega
  have hstep1 : DoContext.step n f s 0
      = some { s with x := -2147483648,
                      workers := s.workers.set 0 (CtxWorker.hold (-2147483648)) } := by
    unfold DoContext.step
    rw [if_neg (by simp [hal]), hw]
    simp only [hwrap]
  have hstep2 : DoContext.step n f
      { s with x := -2147483648,
               workers := s.workers.set 0 (CtxWorker.hold (-2147483648)) } 0
      = some { s with x := -2147483648,
                      workers := s.workers.set 0 (CtxWorker.ready (-2147483648)) } := by
    unfold DoContext.step
    rw [if_neg (by simp [hal])]
    simp only [getElem?_set_same s.workers 0 _ _ hw, hlt, if_false, hctx, List.set_set]
  have hstep3 : DoContext.step n f
      { s with x := -2147483648,
               workers := s.workers.set 0 (CtxWorker.ready (-2147483648)) } 0
      = some { s with x := -2147483648,
                      workers := s.workers.set 0 (CtxWorker.ready (-2147483648)),
                      calls := s.calls ++ [(-2147483648, none)], crashed := true } := by
    unfold DoContext.step
    rw [if_neg (by simp [hal])]
    simp only [getElem?_set_same s.workers 0 _ _ hw, hctx, hpanic]
  refine ⟨{ s with x := -2147483648,
                   workers := s.workers.set 0 (CtxWorker.ready (-2147483648)),
                   calls := s.calls ++ [(-2147483648, none)], crashed := true },
    ?_, ?_, rfl, rfl⟩
  · simp only [DoContext.run, hstep1, hstep2, hstep3]
  · simp

/-- C6 at a slice of `2^31` elements, `parallelism = 2` and an `f` that returns its argument
and a nil error, for which the claim promises the full output slice and a nil error.  The
`DoContext` under `MapContext` runs with `n = 2^31` on an `int32` counter: on every interleaving
no goroutine ever leaves its loop and the errgroup records no error, so `eg.Wait()` can return
only after a panic; and on the interleaving where goroutine 0 runs alone for `2^31` rounds the
counter wraps, the closure is called with index `-2147483648`, and the call panics on
`in[-2147483648]`. -/
theorem MapContext_breaks_at_2_31_elements :
    (∀ sched s,
      DoContext.run 2147483648
          (MapContext.store (fun (_ : Option Error) (u : Unit) => (u, (none : Option Error)))
            (List.replicate 2147483648 ()))
          (DoContext.init none 2 (List.replicate 2147483648 ())) sched = some s →
        s.err = none ∧ ∀ j : Nat, s.workers[j]? ≠ some CtxWorker.exited) ∧
    ∃ s,
      DoContext.run 2147483648
          (MapContext.store (fun (_ : Option Error) (u : Unit) => (u, (none : Option Error)))
            (List.replicate 2147483648 ()))
          (DoContext.init none 2 (List.replicate 2147483648 ()))
          (List.replicate (3 * 2147483648) 0 ++ [0, 0, 0]) = some s ∧
        ((-2147483648 : Int), (none : Option Error)) ∈ s.calls ∧ s.crashed = true ∧
        MapContext.store (fun (_ : Option Error) (u : Unit) => (u, (none : Option Error)))
          (List.replicate 2147483648 ()) none (-2147483648) s.mem = none := by
  constructor
  · intro sched s hrun
    obtain ⟨_, herr, hws⟩ := DoContext.Trapped.trapped_run (le_refl _)
      (fun c i m m1 e => MapContext.store_no_error _ (fun _ _ => rfl) _ c i m m1 e)
      sched _ s (DoContext.init_trapped 2 _) hrun
    refine ⟨herr, ?_⟩
    intro j hj
    rcases hws j _ hj with hc | ⟨i, _, hc | hc⟩ <;> cases hc
  · have hf : ∀ (i : Int) (m : List Unit), 0 ≤ i → i < 2147483648 →
        ∃ m1, MapContext.store (fun (_ : Option Error) (u : Unit) => (u, (none : Option Error)))
          (List.replicate 2147483648 ()) none i m = some (m1, none) := by
      intro i m h0 h1
      apply MapContext.store_clean _ (fun _ _ => rfl) _ none i m h0
      simp only [List.length_replicate, Nat.cast_ofNat]
      exact h1
    obtain ⟨s1, hrun, hx, hws, hal, hctx⟩ :=
      @DoContext.ctx_solo (List Unit) 2147483648 _ hf 2147483648
        (DoContext.init none 2 (List.replicate 2147483648 ())) rfl rfl (by decide) (by decide)
        (by decide) (by decide)
    have hw1 : s1.workers[0]? = some CtxWorker.fetch := by
      rw [hws]
      decide
    have hx1 : s1.x = 2147483647 := by
      rw [hx]
      decide
    obtain ⟨s2, hrun2, hmem, hcr, _⟩ :=
      @DoContext.ctx_wrap_call (List Unit) 2147483648 _ s1 hal hctx hw1 hx1 (by decide)
        (MapContext.ctx_store_neg _ _ _ _ _ (by decide))
    refine ⟨s2, ?_, hmem, hcr, MapContext.ctx_store_neg _ _ _ _ _ (by decide)⟩
    rw [DoContext.ctx_run_append, hrun]
    exact hrun2

/-- With a context cancelled from the start and `n ≥ 1`, every action keeps `Refused` and uses
up one of the actions the goroutines have left. -/
theorem DoContext.Refused.refused_step {σ : Type} {n : Int}
    {f : Option Error → Int → σ → Option (σ × Option Error)} {e0 : Error} (hn : 1 ≤ n)
    {s s1 : CtxState σ} {j : Nat} (h : DoContext.Refused e0 s)
    (hs : DoContext.step n f s j = some s1) :
    DoContext.Refused e0 s1 ∧
      (s1.workers.map DoContext.rest).sum + 1 ≤ (s.workers.map DoContext.rest).sum := by
  obtain ⟨hal, hctx, hcalls, herr, hws, hnote⟩ := h
  have other : ∀ (w1 : CtxWorker), (∀ i, w1 ≠ CtxWorker.ready i) →
      (∀ e, w1 = CtxWorker.failing e → e = e0) →
      ∀ (k : Nat) (w : CtxWorker), (s.workers.set j w1)[k]? = some w →
        (∀ i, w ≠ CtxWorker.ready i) ∧ ∀ e, w = CtxWorker.failing e → e = e0 := by
    intro w1 h1 h2 k w hk
    rcases getElem?_set_cases _ _ _ _ _ hk with ⟨_, hwq⟩ | ⟨_, hold⟩
    · subst hwq
      exact ⟨h1, h2⟩
    · exact hws k w hold
  have keep : ∀ (w0 w1 w : CtxWorker) (k : Nat), s.workers[j]? = some w0 → w ≠ w0 →
      s.workers[k]? = some w → (s.workers.set j w1)[k]? = some w := by
    intro w0 w1 w k hj hne hk
    have hkj : j ≠ k := by
      intro hEq
      subst hEq
      rw [hj] at hk
      injection hk with hk
      exact hne hk.symm
    rw [List.getElem?_set_ne hkj]
    exact hk
  rcases DoContext.step_cases hs with ⟨hw, rfl⟩ | ⟨i, hw, hi, rfl⟩ | ⟨i, e, hw, _, he, rfl⟩ |
    ⟨i, hw, _, he, rfl⟩ | ⟨i, m, hw, _, rfl⟩ | ⟨i, m, e, hw, _, rfl⟩ | ⟨i, hw, _, rfl⟩ |
    ⟨e, hw, he, rfl⟩ | ⟨e, e1, hw, he, rfl⟩
  · -- fetch
    have hrk := sum_map_set DoContext.rest (CtxWorker.hold (wrapInt32 (s.x + 1))) s.workers j _ hw
    simp only [DoContext.rest] at hrk
    refine ⟨⟨hal, hctx, hcalls, herr,
      other _ (by intro i h; cases h) (by intro e h; cases h), ?_⟩, by
        show (List.map DoContext.rest (s.workers.set j _)).sum + 1 ≤ _
        omega⟩
    rcases hnote with he | ⟨k, hk⟩ | ⟨k, hk⟩ | ⟨hx, hall⟩
    · exact Or.inl he
    · exact Or.inr (Or.inl ⟨k, keep _ _ _ k hw (by intro h; cases h) hk⟩)
    · exact Or.inr (Or.inr (Or.inl ⟨k, keep _ _ _ k hw (by intro h; cases h) hk⟩))
    · refine Or.inr (Or.inr (Or.inl ⟨j, ?_⟩))
      have h0 : wrapInt32 (s.x + 1) = 0 := by
        rw [hx]
        decide
      show (s.workers.set j (CtxWorker.hold (wrapInt32 (s.x + 1))))[j]? = _
      rw [h0]
      exact getElem?_set_same s.workers j _ _ hw
  · -- hold, index at or above n
    have hrk := sum_map_set DoContext.rest CtxWorker.exited s.workers j _ hw
    simp only [DoContext.rest] at hrk
    refine ⟨⟨hal, hctx, hcalls, herr,
      other _ (by intro i h; cases h) (by intro e h; cases h), ?_⟩, by
        show (List.map DoContext.rest (s.workers.set j _)).sum + 1 ≤ _
        omega⟩
    rcases hnote with he | ⟨k, hk⟩ | ⟨k, hk⟩ | ⟨hx, hall⟩
    · exact Or.inl he
    · exact Or.inr (Or.inl ⟨k, keep _ _ _ k hw (by intro h; cases h) hk⟩)
    · refine Or.inr (Or.inr (Or.inl ⟨k, keep _ _ _ k hw ?_ hk⟩))
      intro h
      injection h with h
      omega
    · have := hall j _ hw
      cases this
  · -- hold, context cancelled
    have hrk := sum_map_set DoContext.rest (CtxWorker.failing e) s.workers j _ hw
    simp only [DoContext.rest] at hrk
    have hee : e = e0 := by
      rw [hctx] at he
      injection he with he
      exact he.symm
    subst hee
    refine ⟨⟨hal, hctx, hcalls, herr,
      other _ (by intro i h; cases h) (by intro e1 h; injection h with h; exact h.symm), ?_⟩,
      by
        show (List.map DoContext.rest (s.workers.set j _)).sum + 1 ≤ _
        omega⟩
    exact Or.inr (Or.inl ⟨j, getElem?_set_same s.workers j _ _ hw⟩)
  · rw [hctx] at he
    cases he
  · exact absurd rfl ((hws j _ hw).1 i)
  · exact absurd rfl ((hws j _ hw).1 i)
  · exact absurd rfl ((hws j _ hw).1 i)
  · -- first error recorded
    have hrk := sum_map_set DoContext.rest CtxWorker.exited s.workers j _ hw
    simp only [DoContext.rest] at hrk
    have hee : e = e0 := (hws j _ hw).2 e rfl
    subst hee
    refine ⟨⟨hal, ?_, hcalls, Or.inr rfl,
      other _ (by intro i h; cases h) (by intro e1 h; cases h), Or.inl rfl⟩, by
        show (List.map DoContext.rest (s.workers.set j _)).sum + 1 ≤ _
        omega⟩
    show (match s.ctx with
      | none => some Error.Canceled
      | some c => some c) = some e
    rw [hctx]
  · -- later error dropped
    have hrk := sum_map_set DoContext.rest CtxWorker.exited s.workers j _ hw
    simp only [DoContext.rest] at hrk
    have he0 : s.err = some e0 := by
      rcases herr with h | h
      · rw [h] at he
        cases he
      · exact h
    exact ⟨⟨hal, hctx, hcalls, herr,
      other _ (by intro i h; cases h) (by intro e2 h; cases h), Or.inl he0⟩, by
        show (List.map DoContext.rest (s.workers.set j _)).sum + 1 ≤ _
        omega⟩

theorem DoContext.Refused.refused_run {σ : Type} {n : Int}
    {f : Option Error → Int → σ → Option (σ × Option Error)} {e0 : Error} (hn : 1 ≤ n) :
    ∀ (sched : List Nat) (s s1 : CtxState σ), DoContext.Refused e0 s →
      DoContext.run n f s sched = some s1 → DoContext.Refused e0 s1 := by
  intro sched
  induction sched with
  | nil =>
    intro s s1 h hr
    simp only [DoContext.run, Option.some.injEq] at hr
    subst hr
    exact h
  | cons j sched ih =>
    intro s s1 h hr
    simp only [DoContext.run] at hr
    cases hs : DoContext.step n f s j with
    | none => rw [hs] at hr; cases hr
    | some s2 =>
      rw [hs] at hr
      exact ih s2 s1 (h.refused_step hn hs).1 hr

/-- With a context cancelled from the start and `n ≥ 1`, the goroutines can always be run to
the point where `eg.Wait()` returns. -/
theorem DoContext.Refused.refused_completes {σ : Type} {n : Int}
    (f : Option Error → Int → σ → Option (σ × Option Error)) {e0 : Error} (hn : 1 ≤ n) :
    ∀ (k : Nat) (s : CtxState σ), DoContext.Refused e0 s →
      (s.workers.map DoContext.rest).sum ≤ k →
      ∃ ext s1, DoContext.run n f s ext = some s1 ∧ DoContext.returned s1 = true := by
  intro k
  induction k with
  | zero =>
    intro s h hk
    cases hr : DoContext.returned s with
    | true => exact ⟨[], s, rfl, hr⟩
    | false =>
      obtain ⟨j, s1, hs⟩ := DoContext.ctx_progress n f s h.1 hr
      have := (h.refused_step hn hs).2
      omega
  | succ k ih =>
    intro s h hk
    cases hr : DoContext.returned s with
    | true => exact ⟨[], s, rfl, hr⟩
    | false =>
      obtain ⟨j, s1, hs⟩ := DoContext.ctx_progress n f s h.1 hr
      obtain ⟨h1, hdec⟩ := h.refused_step hn hs
      obtain ⟨ext, s2, hrun, hret⟩ := ih s1 h1 (by omega)
      refine ⟨j :: ext, s2, ?_, hret⟩
      simp only [DoContext.run, hs]
      exact hrun

theorem DoContext.init_refused {σ : Type} (e0 : Error) (p : Int) (mem : σ) :
    DoContext.Refused e0 (DoContext.init (some e0) p mem) := by
  have hnone : ∀ (j : Nat) (w : CtxWorker),
      (List.replicate p.toNat CtxWorker.fetch)[j]? = some w → w = CtxWorker.fetch := by
    intro j w hj
    rw [List.getElem?_replicate] at hj
    split at hj
    · injection hj with hj
      exact hj.symm
    · cases hj
  refine ⟨rfl, rfl, rfl, Or.inl rfl, ?_, Or.inr (Or.inr (Or.inr ⟨rfl, hnone⟩))⟩
  intro j w hj
  rw [hnone j w hj]
  exact ⟨(by intro i h; cases h), (by intro e h; cases h)⟩

/-- The worker-pool branch of `DoContext` with a context that is already cancelled with error
`e0`, for `n ≥ 1` and more than one worker: on every interleaving on which `DoContext` returns,
`f` was called on no index and the result is `e0`; and there is such an interleaving. -/
theorem DoContext.refuses_when_cancelled {σ : Type} (gomaxprocs : Int) (e0 : Error)
    (parallelism n : Int) (f : Option Error → Int → σ → Option (σ × Option Error)) (mem : σ)
    (hn : 1 ≤ n) (hp : 2 ≤ (if parallelism ≤ 0 then gomaxprocs else parallelism)) :
    (∀ sched r, DoContext gomaxprocs (some e0) parallelism n f mem sched = some r →
      r.calls = [] ∧ r.err = some e0) ∧
    ∃ sched r, DoContext gomaxprocs (some e0) parallelism n f mem sched = some r := by
  constructor
  · intro sched r hr
    rcases DoContext.ctx_result_cases _ _ _ _ _ _ _ _ hr with ⟨h1, _⟩ | ⟨_, s, hrun, hret, hrs⟩
    · omega
    · subst hrs
      obtain ⟨_, _, hcalls, _, _, hnote⟩ :=
        DoContext.Refused.refused_run hn sched _ s (DoContext.init_refused e0 _ mem) hrun
      refine ⟨hcalls, ?_⟩
      have hlen : 0 < s.workers.length := by
        rw [DoContext.run_length sched _ s hrun]
        have := DoContext.init_length (some e0) _ mem
          (by omega : 0 ≤ (if parallelism ≤ 0 then gomaxprocs else parallelism))
        omega
      have hret1 := hret
      simp only [DoContext.returned, Bool.and_eq_true, Bool.not_eq_true', List.all_eq_true,
        beq_iff_eq] at hret1
      have hall : ∀ (j : Nat) (w : CtxWorker), s.workers[j]? = some w → w = CtxWorker.exited :=
        fun j w hj => hret1.2 w (List.mem_iff_getElem?.mpr ⟨j, hj⟩)
      rcases hnote with he | ⟨k, hk⟩ | ⟨k, hk⟩ | ⟨_, hf⟩
      · exact he
      · have := hall k _ hk
        cases this
      · have := hall k _ hk
        cases this
      · cases hw : s.workers[0]? with
        | none =>
          rw [List.getElem?_eq_none_iff] at hw
          omega
        | some w =>
          have h1 := hall 0 w hw
          have h2 := hf 0 w hw
          rw [h1] at h2
          cases h2
  · obtain ⟨ext, s1, hrun, hret⟩ := DoContext.Refused.refused_completes f hn _ _
      (DoContext.init_refused e0 (if parallelism ≤ 0 then gomaxprocs else parallelism) mem)
      (le_refl _)
    refine ⟨ext, ⟨s1.mem, s1.calls, s1.err⟩, ?_⟩
    rw [DoContext.ctx_effective]
    have hpos : ¬ (if parallelism ≤ 0 then gomaxprocs else parallelism) ≤ 0 := by omega
    have h1 : ¬ (if parallelism ≤ 0 then gomaxprocs else parallelism) = 1 := by omega
    generalize (if parallelism ≤ 0 then gomaxprocs else parallelism) = p at hrun hpos h1
    simp only [DoContext, hpos, if_false, h1, hrun, hret, if_true]

/-- C10 at `parallelism = 1`: handed a context that is already cancelled, `DoContext` with
`n = 3` calls `f` on the indices 0, 1 and 2 and, `f` returning nil, returns nil rather than the
cancellation error. -/
theorem DoContext_sequential_ignores_cancelled_context :
    DoContext 8 (some Error.Canceled) 1 3
        (fun (_ : Option Error) (_ : Int) (m : Unit) => some (m, none)) () []
      = some ⟨(), [(0, none), (1, none), (2, none)], none⟩ := by
  decide

theorem xheap.insert_perm {T : Type} (less : T → T → Bool) (x : T) :
    ∀ l : List T, (xheap.insert less x l).Perm (x :: l) := by
  intro l
  induction l with
  | nil => exact List.Perm.refl _
  | cons y ys ih =>
    simp only [xheap.insert]
    split
    · exact List.Perm.refl _
    · exact (List.Perm.cons y ih).trans (List.Perm.swap x y ys)

theorem xheap.insert_sorted {U : Type} (x : valueAndIndex U) :
    ∀ l : List (valueAndIndex U), l.Pairwise (fun a b => a.idx ≤ b.idx) →
      (xheap.insert idxLess x l).Pairwise (fun a b => a.idx ≤ b.idx) := by
  intro l
  induction l with
  | nil =>
    intro _
    simp [xheap.insert]
  | cons y ys ih =>
    intro h
    rw [List.pairwise_cons] at h
    simp only [xheap.insert]
    by_cases hxy : x.idx < y.idx
    · simp only [idxLess, hxy, decide_True, if_true]
      rw [List.pairwise_cons]
      refine ⟨?_, List.pairwise_cons.mpr h⟩
      intro z hz
      rcases List.mem_cons.mp hz with hz | hz
      · rw [hz]
        omega
      · have := h.1 z hz
        omega
    · simp only [idxLess, hxy, decide_False, Bool.false_eq_true, if_false]
      rw [List.pairwise_cons]
      refine ⟨?_, ih h.2⟩
      intro z hz
      rcases List.mem_cons.mp ((xheap.insert_perm idxLess x ys).mem_iff.mp hz) with hz | hz
      · rw [hz]
        omega
      · exact h.1 z hz

theorem resultItemsFrom_idx {T U : Type} (f : T → U) :
    ∀ (ys : List T) (k : Nat) (x : valueAndIndex U), x ∈ resultItemsFrom f k ys → k ≤ x.idx := by
  intro ys
  induction ys with
  | nil => intro k x hx; cases hx
  | cons y ys ih =>
    intro k x hx
    simp only [resultItemsFrom, List.mem_cons] at hx
    rcases hx with hx | hx
    · rw [hx]
    · have := ih (k + 1) x hx
      omega

/-- The heart of the reorder buffer: while the result of input `y` with index `i` is pending,
either it is the least element of the heap and the test of `Next` succeeds, or the test fails,
an item is still to arrive, and pushing that item keeps everything pending. -/
theorem Pending.cases {T U : Type} {f : T → U} {c : List (valueAndIndex U)}
    {h : xheap.Heap (valueAndIndex U)} {i : Nat} {y : T} {ys : List T}
    (hp : Pending f c h i (y :: ys)) :
    (releasable h i = true ∧ ∃ t tl, h.items = t :: tl ∧ t.value = f y ∧
      Pending f c { h with items := tl } (i + 1) ys) ∨
    (releasable h i = false ∧ ∃ item rest, c = item :: rest ∧
      Pending f rest (h.Push item) i (y :: ys)) := by
  obtain ⟨hperm, hless, hsorted⟩ := hp
  simp only [resultItemsFrom] at hperm
  have hrest : ∀ x ∈ resultItemsFrom f (i + 1) ys, i + 1 ≤ x.idx :=
    fun x hx => resultItemsFrom_idx f ys (i + 1) x hx
  have hge : ∀ x ∈ c ++ h.items, i ≤ x.idx := by
    intro x hx
    rcases List.mem_cons.mp (hperm.mem_iff.mp hx) with hx | hx
    · rw [hx]
    · have := hrest x hx
      omega
  have hpush : ∀ item rest, c = item :: rest → Pending f rest (h.Push item) i (y :: ys) := by
    intro item rest hc
    refine ⟨?_, hless, ?_⟩
    · simp only [resultItemsFrom, xheap.Heap.Push]
      refine List.Perm.trans ?_ hperm
      rw [hc]
      refine (List.Perm.append_left rest (xheap.insert_perm h.less item h.items)).trans ?_
      exact List.perm_middle
    · simp only [xheap.Heap.Push, hless]
      exact xheap.insert_sorted item h.items hsorted
  have htop : (⟨f y, i⟩ : valueAndIndex U) ∈ c ++ h.items :=
    hperm.mem_iff.mpr (List.mem_cons_self _ _)
  cases hit : h.items with
  | nil =>
    right
    have hrel : releasable h i = false := by
      simp [releasable, xheap.Heap.Len, hit]
    rw [hit, List.append_nil] at htop
    cases hc : c with
    | nil => rw [hc] at htop; cases htop
    | cons item rest => exact ⟨hrel, item, rest, rfl, hpush item rest hc⟩
  | cons t tl =>
    rw [hit] at hsorted hperm htop hge
    by_cases hti : t.idx = i
    · left
      have hrel : releasable h i = true := by
        simp [releasable, xheap.Heap.Len, xheap.Heap.Peek, hit, hti]
      have ht : t = ⟨f y, i⟩ := by
        have hmem : t ∈ c ++ t :: tl := List.mem_append.mpr (Or.inr (List.mem_cons_self _ _))
        rcases List.mem_cons.mp (hperm.mem_iff.mp hmem) with h1 | h1
        · exact h1
        · have := hrest t h1
          omega
      refine ⟨hrel, t, tl, rfl, by rw [ht], ?_, hless, (List.pairwise_cons.mp hsorted).2⟩
      have h2 : (t :: (c ++ tl)).Perm (t :: resultItemsFrom f (i + 1) ys) := by
        refine List.Perm.trans List.perm_middle.symm ?_
        rw [ht] at hperm ⊢
        exact hperm
      exact List.Perm.cons_inv h2
    · right
      have hrel : releasable h i = false := by
        simp [releasable, xheap.Heap.Len, xheap.Heap.Peek, hit, hti]
      have hnot : (⟨f y, i⟩ : valueAndIndex U) ∉ t :: tl := by
        intro hmem
        have hti2 : i ≤ t.idx := hge t (List.mem_append.mpr (Or.inr (List.mem_cons_self _ _)))
        rcases List.mem_cons.mp hmem with h1 | h1
        · rw [← h1] at hti
          exact hti rfl
        · have := (List.pairwise_cons.mp hsorted).1 _ h1
          simp only at this
          omega
      have hinc : (⟨f y, i⟩ : valueAndIndex U) ∈ c := by
        rcases List.mem_append.mp htop with h1 | h1
        · exact h1
        · exact absurd h1 hnot
      cases hc : c with
      | nil => rw [hc] at hinc; cases hinc
      | cons item rest => exact ⟨hrel, item, rest, rfl, hpush item rest hc⟩

/-- The loop of `mapIterator.Next` is the repetition of `mapIterator.pass`. -/
theorem mapIterator.Next_unfold {U : Type} (iter : mapIterator U) :
    mapIterator.Next iter
      = match mapIterator.pass iter with
        | mapIterator.Pass.value u next => (some u, next)
        | mapIterator.Pass.finished next => (none, next)
        | mapIterator.Pass.again next => mapIterator.Next next := by
  obtain ⟨c, h, i⟩ := iter
  cases c with
  | nil =>
    simp only [mapIterator.Next, mapIterator.Next.loop]
    cases hp : mapIterator.pass ⟨[], h, i⟩ with
    | value u next => rfl
    | finished next => rfl
    | again next =>
      simp only [mapIterator.pass] at hp
      split at hp
      · split at hp <;> cases hp
      · cases hp
  | cons item rest =>
    simp only [mapIterator.Next, mapIterator.Next.loop]
    cases hp : mapIterator.pass ⟨item :: rest, h, i⟩ with
    | value u next => rfl
    | finished next => rfl
    | again next =>
      simp only [mapIterator.pass] at hp
      split at hp
      · split at hp <;> cases hp
      · simp only [mapIterator.Pass.again.injEq] at hp
        subst hp
        rfl

/-- While the result of the next input is pending, `mapIterator.Next` returns it and leaves
the results of the later inputs pending. -/
theorem mapIterator.Next_pending {T U : Type} (f : T → U) (y : T) (ys : List T) :
    ∀ (c : List (valueAndIndex U)) (h : xheap.Heap (valueAndIndex U)) (i : Nat),
      Pending f c h i (y :: ys) →
      ∃ c1 h1, mapIterator.Next ⟨c, h, i⟩ = (some (f y), ⟨c1, h1, i + 1⟩) ∧
        Pending f c1 h1 (i + 1) ys := by
  intro c
  induction c with
  | nil =>
    intro h i hp
    rcases hp.cases with ⟨hrel, t, tl, hit, htv, hp1⟩ | ⟨_, item, rest, hc, _⟩
    · refine ⟨[], { h with items := tl }, ?_, hp1⟩
      rw [mapIterator.Next_unfold]
      simp only [mapIterator.pass, hrel, if_true, xheap.Heap.Pop, hit, htv]
    · cases hc
  | cons item rest ih =>
    intro h i hp
    rcases hp.cases with ⟨hrel, t, tl, hit, htv, hp1⟩ | ⟨hrel, item1, rest1, hc, hp1⟩
    · refine ⟨item :: rest, { h with items := tl }, ?_, hp1⟩
      rw [mapIterator.Next_unfold]
      simp only [mapIterator.pass, hrel, if_true, xheap.Heap.Pop, hit, htv]
    · injection hc with h1 h2
      subst h1
      subst h2
      obtain ⟨c1, h1, hn, hp2⟩ := ih (h.Push item) i hp1
      refine ⟨c1, h1, ?_, hp2⟩
      rw [mapIterator.Next_unfold]
      simp only [mapIterator.pass, hrel, Bool.false_eq_true, if_false]
      exact hn

theorem Pending.nil {T U : Type} {f : T → U} {c : List (valueAndIndex U)}
    {h : xheap.Heap (valueAndIndex U)} {i : Nat} (hp : Pending f c h i []) :
    c = [] ∧ h.items = [] := by
  have := hp.1
  simp only [resultItemsFrom, List.perm_nil] at this
  exact List.append_eq_nil.mp this

/-- Successive calls of `mapIterator.Next` return the pending results in input order and then
report the end. -/
theorem mapIterator.drain_pending {T U : Type} (f : T → U) :
    ∀ (ys : List T) (c : List (valueAndIndex U)) (h : xheap.Heap (valueAndIndex U)) (i : Nat),
      Pending f c h i ys →
      ∃ final, mapIterator.drain (ys.length + 1) ⟨c, h, i⟩
          = (ys.map (fun y => some (f y)) ++ [none], final) ∧
        final.c = [] ∧ final.h.Len = 0 := by
  intro ys
  induction ys with
  | nil =>
    intro c h i hp
    obtain ⟨hc, hh⟩ := hp.nil
    subst hc
    refine ⟨⟨[], h, i⟩, ?_, rfl, by simp [xheap.Heap.Len, hh]⟩
    have hrel : releasable h i = false := by
      simp [releasable, xheap.Heap.Len, hh]
    simp only [List.length_nil, Nat.zero_add, mapIterator.drain, List.map_nil, List.nil_append]
    rw [mapIterator.Next_unfold]
    simp only [mapIterator.pass, hrel, Bool.false_eq_true, if_false]
  | cons y ys ih =>
    intro c h i hp
    obtain ⟨c1, h1, hn, hp1⟩ := mapIterator.Next_pending f y ys c h i hp
    obtain ⟨final, hd, hfc, hfh⟩ := ih c1 h1 (i + 1) hp1
    refine ⟨final, ?_, hfc, hfh⟩
    have hstep : mapIterator.drain (ys.length + 1 + 1) ⟨c, h, i⟩
        = ((mapIterator.Next ⟨c, h, i⟩).1
            :: (mapIterator.drain (ys.length + 1) (mapIterator.Next ⟨c, h, i⟩).2).1,
          (mapIterator.drain (ys.length + 1) (mapIterator.Next ⟨c, h, i⟩).2).2) := rfl
    rw [List.length_cons, hstep, hn]
    simp only [hd, List.map_cons, List.cons_append]

/-- The loop of `mapStream.Next` is the repetition of `mapStream.pass`. -/
theorem mapStream.stream_Next_unfold {U : Type} (s : mapStream U) (ctx : Option Error)
    (picks : List Bool) :
    mapStream.Next s ctx picks
      = match mapStream.pass s ctx (picks.headD false) with
        | mapStream.Pass.result r next => (r, next)
        | mapStream.Pass.again next => mapStream.Next next ctx picks.tail := by
  obtain ⟨eg, c, h, i⟩ := s
  cases c with
  | nil =>
    simp only [mapStream.Next, mapStream.Next.loop]
    cases hp : mapStream.pass ⟨eg, [], h, i⟩ ctx (picks.headD false) with
    | result r next => rfl
    | again next =>
      simp only [mapStream.pass] at hp
      split at hp
      · split at hp <;> cases hp
      · split at hp
        · cases hp
        · split at hp <;> cases hp
  | cons item rest =>
    simp only [mapStream.Next, mapStream.Next.loop]
    cases hp : mapStream.pass ⟨eg, item :: rest, h, i⟩ ctx (picks.headD false) with
    | result r next => rfl
    | again next =>
      simp only [mapStream.pass] at hp
      split at hp
      · split at hp <;> cases hp
      · split at hp
        · cases hp
        · simp only [mapStream.Pass.again.injEq] at hp
          subst hp
          rfl

/-- While the result of the next input is pending, `mapStream.Next` with a context that is not
cancelled returns it and leaves the results of the later inputs pending. -/
theorem mapStream.stream_Next_pending {T U : Type} (f : T → U) (eg : Option Error) (y : T)
    (ys : List T) :
    ∀ (c : List (valueAndIndex U)) (h : xheap.Heap (valueAndIndex U)) (i : Nat),
      Pending f c h i (y :: ys) →
      ∃ c1 h1, mapStream.Next ⟨eg, c, h, i⟩ none []
          = (NextResult.value (f y), ⟨eg, c1, h1, i + 1⟩) ∧
        Pending f c1 h1 (i + 1) ys := by
  intro c
  induction c with
  | nil =>
    intro h i hp
    rcases hp.cases with ⟨hrel, t, tl, hit, htv, hp1⟩ | ⟨_, item, rest, hc, _⟩
    · refine ⟨[], { h with items := tl }, ?_, hp1⟩
      rw [mapStream.stream_Next_unfold]
      simp only [mapStream.pass, hrel, if_true, xheap.Heap.Pop, hit, htv]
    · cases hc
  | cons item rest ih =>
    intro h i hp
    rcases hp.cases with ⟨hrel, t, tl, hit, htv, hp1⟩ | ⟨hrel, item1, rest1, hc, hp1⟩
    · refine ⟨item :: rest, { h with items := tl }, ?_, hp1⟩
      rw [mapStream.stream_Next_unfold]
      simp only [mapStream.pass, hrel, if_true, xheap.Heap.Pop, hit, htv]
    · injection hc with h1 h2
      subst h1
      subst h2
      obtain ⟨c1, h1, hn, hp2⟩ := ih (h.Push item) i hp1
      refine ⟨c1, h1, ?_, hp2⟩
      rw [mapStream.stream_Next_unfold]
      simp only [mapStream.pass, hrel, Bool.false_eq_true, if_false, List.headD_nil,
        List.tail_nil]
      exact hn

/-- Successive calls of `mapStream.Next`, with a context that is not cancelled and a nil group
error, return the pending results in input order and then `stream.End`. -/
theorem mapStream.stream_drain_pending {T U : Type} (f : T → U) :
    ∀ (ys : List T) (c : List (valueAndIndex U)) (h : xheap.Heap (valueAndIndex U)) (i : Nat),
      Pending f c h i ys →
      ∃ final, mapStream.drain (ys.length + 1) ⟨none, c, h, i⟩
          = (ys.map (fun y => NextResult.value (f y)) ++ [NextResult.End], final) ∧
        final.c = [] ∧ final.h.Len = 0 := by
  intro ys
  induction ys with
  | nil =>
    intro c h i hp
    obtain ⟨hc, hh⟩ := hp.nil
    subst hc
    refine ⟨⟨none, [], h, i⟩, ?_, rfl, by simp [xheap.Heap.Len, hh]⟩
    have hrel : releasable h i = false := by
      simp [releasable, xheap.Heap.Len, hh]
    simp only [List.length_nil, Nat.zero_add, mapStream.drain, List.map_nil, List.nil_append]
    rw [mapStream.stream_Next_unfold]
    simp only [mapStream.pass, hrel, Bool.false_eq_true, if_false, List.headD_nil]
  | cons y ys ih =>
    intro c h i hp
    obtain ⟨c1, h1, hn, hp1⟩ := mapStream.stream_Next_pending f none y ys c h i hp
    obtain ⟨final, hd, hfc, hfh⟩ := ih c1 h1 (i + 1) hp1
    refine ⟨final, ?_, hfc, hfh⟩
    have hstep : mapStream.drain (ys.length + 1 + 1) ⟨none, c, h, i⟩
        = ((mapStream.Next ⟨none, c, h, i⟩ none []).1
            :: (mapStream.drain (ys.length + 1) (mapStream.Next ⟨none, c, h, i⟩ none []).2).1,
          (mapStream.drain (ys.length + 1) (mapStream.Next ⟨none, c, h, i⟩ none []).2).2) := rfl
    rw [List.length_cons, hstep, hn]
    simp only [hd, List.map_cons, List.cons_append]

/-- C3. For every finite input `x_0, ..., x_{n-1}` and every order `arrivals` in which the `n`
result pairs `(k, f(x_k))` arrive on the result channel before it is closed, the first `n`
calls of `mapIterator.Next` return `f(x_0), ..., f(x_{n-1})` in this order and call `n + 1`
reports the end of the sequence, with the channel drained and the reorder buffer empty; the
same holds of `mapStream.Next` with a context that is never cancelled and a nil group error,
call `n + 1` returning `stream.End`. -/
theorem Next_releases_in_input_order {T U : Type} (f : T → U) (xs : List T)
    (arrivals : List (valueAndIndex U)) (harr : arrivals.Perm (resultItems f xs)) :
    (∃ final, mapIterator.drain (xs.length + 1) ⟨arrivals, xheap.New idxLess, 0⟩
        = (xs.map (fun x => some (f x)) ++ [none], final) ∧
      final.c = [] ∧ final.h.Len = 0) ∧
    (∃ final, mapStream.drain (xs.length + 1) ⟨none, arrivals, xheap.New idxLess, 0⟩
        = (xs.map (fun x => NextResult.value (f x)) ++ [NextResult.End], final) ∧
      final.c = [] ∧ final.h.Len = 0) := by
  have hp : Pending f arrivals (xheap.New idxLess) 0 xs := by
    refine ⟨?_, rfl, ?_⟩
    · simpa [xheap.New, resultItems] using harr
    · simp [xheap.New]
  exact ⟨mapIterator.drain_pending f xs arrivals _ 0 hp,
    mapStream.stream_drain_pending f xs arrivals _ 0 hp⟩

/-- Instance of C3: the results of `[1, 2, 3, 4]` under squaring arrive in the order of the
indices 2, 0, 3, 1. -/
theorem Next_releases_in_input_order_witness :
    ([⟨9, 2⟩, ⟨1, 0⟩, ⟨16, 3⟩, ⟨4, 1⟩] : List (valueAndIndex Nat)).Perm
      (resultItems (fun x => x * x) [1, 2, 3, 4]) ∧
    (mapIterator.drain 5 ⟨[⟨9, 2⟩, ⟨1, 0⟩, ⟨16, 3⟩, ⟨4, 1⟩], xheap.New idxLess, 0⟩).1
      = [some 1, some 4, some 9, some 16, none] ∧
    ((∃ final, mapIterator.drain (([1, 2, 3, 4] : List Nat).length + 1)
        ⟨[⟨9, 2⟩, ⟨1, 0⟩, ⟨16, 3⟩, ⟨4, 1⟩], xheap.New idxLess, 0⟩
        = (([1, 2, 3, 4] : List Nat).map (fun x => some ((fun x => x * x) x)) ++ [none], final) ∧
      final.c = [] ∧ final.h.Len = 0) ∧
    (∃ final, mapStream.drain (([1, 2, 3, 4] : List Nat).length + 1)
        ⟨none, [⟨9, 2⟩, ⟨1, 0⟩, ⟨16, 3⟩, ⟨4, 1⟩], xheap.New idxLess, 0⟩
        = (([1, 2, 3, 4] : List Nat).map (fun x => NextResult.value ((fun x => x * x) x))
            ++ [NextResult.End], final) ∧
      final.c = [] ∧ final.h.Len = 0)) :=
  ⟨by decide, by decide,
    Next_releases_in_input_order (fun x : Nat => x * x) [1, 2, 3, 4]
      [⟨9, 2⟩, ⟨1, 0⟩, ⟨16, 3⟩, ⟨4, 1⟩] (by decide)⟩

/-- When the test of `Next` succeeds, the least element of the heap has the index of the
cursor and `Pop` removes exactly that element. -/
theorem releasable_pop {U : Type} {h : xheap.Heap (valueAndIndex U)} {i : Nat}
    (hrel : releasable h i = true) :
    ∃ t tl, h.items = t :: tl ∧ t.idx = i ∧ h.Peek = some t ∧
      h.Pop = some (t, { h with items := tl }) := by
  cases hit : h.items with
  | nil => simp [releasable, xheap.Heap.Len, hit] at hrel
  | cons t tl =>
    simp only [releasable, xheap.Heap.Len, xheap.Heap.Peek, hit, List.head?_cons,
      Bool.and_eq_true, decide_eq_true_eq] at hrel
    exact ⟨t, tl, rfl, hrel.2, by simp [xheap.Heap.Peek, hit], by simp [xheap.Heap.Pop, hit]⟩

/-- A release keeps the invariant of the reorder buffer. -/
theorem Buffered.release {U : Type} {c : List (valueAndIndex U)}
    {h : xheap.Heap (valueAndIndex U)} {i : Nat} (hb : Buffered c h i)
    (t : valueAndIndex U) (tl : List (valueAndIndex U)) (hit : h.items = t :: tl)
    (hti : t.idx = i) : Buffered c { h with items := tl } (i + 1) := by
  obtain ⟨hh, hc, hnd⟩ := hb
  rw [hit] at hh hnd
  have hnd1 : (t.idx :: (c ++ tl).map (fun x => x.idx)).Nodup := by
    have hperm : (c ++ t :: tl).Perm (t :: (c ++ tl)) := List.perm_middle
    exact (hperm.map (fun x => x.idx)).nodup_iff.mp hnd
  rw [List.nodup_cons] at hnd1
  refine ⟨?_, ?_, hnd1.2⟩
  · intro x hx
    have h1 := hh x (List.mem_cons_of_mem _ hx)
    have h2 : x.idx ≠ t.idx := by
      intro hEq
      apply hnd1.1
      rw [← hEq]
      exact List.mem_map.mpr ⟨x, List.mem_append.mpr (Or.inr hx), rfl⟩
    omega
  · intro x hx
    have h1 := hc x hx
    have h2 : x.idx ≠ t.idx := by
      intro hEq
      apply hnd1.1
      rw [← hEq]
      exact List.mem_map.mpr ⟨x, List.mem_append.mpr (Or.inl hx), rfl⟩
    omega

/-- Receiving an item and pushing it keeps the invariant of the reorder buffer. -/
theorem Buffered.receive {U : Type} {item : valueAndIndex U} {rest : List (valueAndIndex U)}
    {h : xheap.Heap (valueAndIndex U)} {i : Nat} (hb : Buffered (item :: rest) h i) :
    Buffered rest (h.Push item) i := by
  obtain ⟨hh, hc, hnd⟩ := hb
  have hperm : (rest ++ xheap.insert h.less item h.items).Perm (item :: rest ++ h.items) :=
    (List.Perm.append_left rest (xheap.insert_perm h.less item h.items)).trans List.perm_middle
  refine ⟨?_, ?_, ?_⟩
  · intro x hx
    rcases List.mem_cons.mp ((xheap.insert_perm h.less item h.items).mem_iff.mp hx) with h1 | h1
    · rw [h1]
      exact hc item (List.mem_cons_self _ _)
    · exact hh x h1
  · intro x hx
    exact hc x (List.mem_cons_of_mem _ hx)
  · exact (hperm.map (fun x => x.idx)).nodup_iff.mpr hnd

theorem mapIterator.pass_buffered {U : Type} (iter : mapIterator U)
    (hb : Buffered iter.c iter.h iter.i) :
    Buffered (mapIterator.pass iter).next.c (mapIterator.pass iter).next.h
      (mapIterator.pass iter).next.i := by
  unfold mapIterator.pass
  cases hrel : releasable iter.h iter.i with
  | true =>
    obtain ⟨t, tl, hit, hti, _, hpop⟩ := releasable_pop hrel
    simp only [if_true, hpop, mapIterator.Pass.next]
    exact hb.release t tl hit hti
  | false =>
    simp only [Bool.false_eq_true, if_false]
    cases hc : iter.c with
    | nil =>
      simp only [mapIterator.Pass.next]
      exact hb
    | cons item rest =>
      simp only [mapIterator.Pass.next]
      rw [hc] at hb
      exact hb.receive

theorem mapIterator.after_buffered {U : Type} :
    ∀ (k : Nat) (iter : mapIterator U), Buffered iter.c iter.h iter.i →
      Buffered (mapIterator.after k iter).c (mapIterator.after k iter).h
        (mapIterator.after k iter).i := by
  intro k
  induction k with
  | zero => intro iter hb; exact hb
  | succ k ih =>
    intro iter hb
    exact ih _ (mapIterator.pass_buffered iter hb)

/-- What one pass of `mapIterator.Next` does to the cursor and the heap. -/
theorem mapIterator.pass_effect {U : Type} (iter : mapIterator U) :
    match mapIterator.pass iter with
    | mapIterator.Pass.value u next =>
      ∃ top, iter.h.Peek = some top ∧ top.idx = iter.i ∧ top.value = u ∧
        next.i = iter.i + 1 ∧ next.h.Len + 1 = iter.h.Len ∧ next.c = iter.c
    | mapIterator.Pass.again next =>
      releasable iter.h iter.i = false ∧ next.i = iter.i ∧ next.h.Len = iter.h.Len + 1 ∧
        ∃ item, iter.c = item :: next.c
    | mapIterator.Pass.finished next =>
      releasable iter.h iter.i = false ∧ iter.c = [] ∧ next = iter := by
  unfold mapIterator.pass
  by_cases hrel : releasable iter.h iter.i = true
  · obtain ⟨t, tl, hit, hti, hpeek, hpop⟩ := releasable_pop hrel
    rw [if_pos hrel, hpop]
    exact ⟨t, hpeek, hti, rfl, rfl, by simp [xheap.Heap.Len, hit], rfl⟩
  · have hfalse : releasable iter.h iter.i = false := by simpa using hrel
    rw [if_neg hrel]
    cases hc : iter.c with
    | nil => exact ⟨hfalse, rfl, rfl⟩
    | cons item rest =>
      refine ⟨hfalse, rfl, ?_, item, rfl⟩
      have := (xheap.insert_perm iter.h.less item iter.h.items).length_eq
      simpa [xheap.Heap.Len, xheap.Heap.Push] using this

theorem mapStream.stream_pass_buffered {U : Type} (s : mapStream U) (ctx : Option Error)
    (pick : Bool) (hb : Buffered s.c s.h s.i) :
    Buffered (mapStream.pass s ctx pick).next.c (mapStream.pass s ctx pick).next.h
      (mapStream.pass s ctx pick).next.i := by
  unfold mapStream.pass
  cases hrel : releasable s.h s.i with
  | true =>
    obtain ⟨t, tl, hit, hti, _, hpop⟩ := releasable_pop hrel
    simp only [if_true, hpop, mapStream.Pass.next]
    exact hb.release t tl hit hti
  | false =>
    simp only [Bool.false_eq_true, if_false]
    split
    · exact hb
    · cases hc : s.c with
      | nil =>
        simp only
        split <;> exact hb
      | cons item rest =>
        simp only [mapStream.Pass.next]
        rw [hc] at hb
        exact hb.receive

theorem mapStream.stream_after_buffered {U : Type} :
    ∀ (events : List (Option Error × Bool)) (s : mapStream U), Buffered s.c s.h s.i →
      Buffered (mapStream.after events s).c (mapStream.after events s).h
        (mapStream.after events s).i := by
  intro events
  induction events with
  | nil => intro s hb; exact hb
  | cons ev events ih =>
    intro s hb
    exact ih _ (mapStream.stream_pass_buffered s ev.1 ev.2 hb)

/-- What one pass of `mapStream.Next` does to the cursor and the heap. -/
theorem mapStream.stream_pass_effect {U : Type} (s : mapStream U) (ctx : Option Error)
    (pick : Bool) :
    match mapStream.pass s ctx pick with
    | mapStream.Pass.result (NextResult.value u) next =>
      ∃ top, s.h.Peek = some top ∧ top.idx = s.i ∧ top.value = u ∧
        next.i = s.i + 1 ∧ next.h.Len + 1 = s.h.Len ∧ next.c = s.c
    | mapStream.Pass.result _ next => releasable s.h s.i = false ∧ next = s
    | mapStream.Pass.again next =>
      releasable s.h s.i = false ∧ next.i = s.i ∧ next.h.Len = s.h.Len + 1 ∧
        ∃ item, s.c = item :: next.c := by
  unfold mapStream.pass
  by_cases hrel : releasable s.h s.i = true
  · obtain ⟨t, tl, hit, hti, hpeek, hpop⟩ := releasable_pop hrel
    rw [if_pos hrel, hpop]
    exact ⟨t, hpeek, hti, rfl, rfl, by simp [xheap.Heap.Len, hit], rfl⟩
  · have hfalse : releasable s.h s.i = false := by simpa using hrel
    have hlen : ∀ item, (s.h.Push item).Len = s.h.Len + 1 := by
      intro item
      have := (xheap.insert_perm s.h.less item s.h.items).length_eq
      simpa [xheap.Heap.Len, xheap.Heap.Push] using this
    rw [if_neg hrel]
    cases ctx with
    | none =>
      dsimp only
      cases hc : s.c with
      | nil =>
        cases s.eg with
        | none => exact ⟨hfalse, rfl⟩
        | some e => exact ⟨hfalse, rfl⟩
      | cons item rest => exact ⟨hfalse, rfl, hlen item, item, rfl⟩
    | some e =>
      cases pick with
      | true => exact ⟨hfalse, rfl⟩
      | false =>
        dsimp only
        cases hc : s.c with
        | nil =>
          cases s.eg with
          | none => exact ⟨hfalse, rfl⟩
          | some e => exact ⟨hfalse, rfl⟩
        | cons item rest => exact ⟨hfalse, rfl, hlen item, item, rfl⟩

theorem buffered_init {U : Type} (arrivals : List (valueAndIndex U))
    (hd : (arrivals.map (fun x => x.idx)).Nodup) :
    Buffered arrivals (xheap.New idxLess) 0 :=
  ⟨fun x hx => (by cases hx), fun x _ => Nat.zero_le _, (by simpa [xheap.New] using hd)⟩

/-- C9. Provided the indices of the arriving result items are pairwise distinct, after any
number of passes through the loop body of `mapIterator.Next` every element of the heap has an
index at or above the cursor `i`; a pass releases an item only when it is the least element of
the heap and its index equals `i`, the release removes exactly one element from the heap and
increases `i` by exactly one; and a pass that receives an item (none being releasable) leaves
`i` unchanged and grows the heap by exactly one.  The same holds of `mapStream.Next`, whatever
the group error, the contexts of the calls and the choices of the `select`. -/
theorem reorder_buffer_invariant {U : Type} (arrivals : List (valueAndIndex U))
    (hd : (arrivals.map (fun x => x.idx)).Nodup) :
    (∀ k : Nat,
      (∀ x ∈ (mapIterator.after k ⟨arrivals, xheap.New idxLess, 0⟩).h.items,
        (mapIterator.after k ⟨arrivals, xheap.New idxLess, 0⟩).i ≤ x.idx) ∧
      match mapIterator.pass (mapIterator.after k ⟨arrivals, xheap.New idxLess, 0⟩) with
      | mapIterator.Pass.value u next =>
        ∃ top, (mapIterator.after k ⟨arrivals, xheap.New idxLess, 0⟩).h.Peek = some top ∧
          top.idx = (mapIterator.after k ⟨arrivals, xheap.New idxLess, 0⟩).i ∧
          top.value = u ∧
          next.i = (mapIterator.after k ⟨arrivals, xheap.New idxLess, 0⟩).i + 1 ∧
          next.h.Len + 1 = (mapIterator.after k ⟨arrivals, xheap.New idxLess, 0⟩).h.Len ∧
          next.c = (mapIterator.after k ⟨arrivals, xheap.New idxLess, 0⟩).c
      | mapIterator.Pass.again next =>
        releasable (mapIterator.after k ⟨arrivals, xheap.New idxLess, 0⟩).h
            (mapIterator.after k ⟨arrivals, xheap.New idxLess, 0⟩).i = false ∧
          next.i = (mapIterator.after k ⟨arrivals, xheap.New idxLess, 0⟩).i ∧
          next.h.Len = (mapIterator.after k ⟨arrivals, xheap.New idxLess, 0⟩).h.Len + 1 ∧
          ∃ item, (mapIterator.after k ⟨arrivals, xheap.New idxLess, 0⟩).c = item :: next.c
      | mapIterator.Pass.finished next =>
        releasable (mapIterator.after k ⟨arrivals, xheap.New idxLess, 0⟩).h
            (mapIterator.after k ⟨arrivals, xheap.New idxLess, 0⟩).i = false ∧
          (mapIterator.after k ⟨arrivals, xheap.New idxLess, 0⟩).c = [] ∧
          next = mapIterator.after k ⟨arrivals, xheap.New idxLess, 0⟩) ∧
    (∀ (eg : Option Error) (events : List (Option Error × Bool)),
      (∀ x ∈ (mapStream.after events ⟨eg, arrivals, xheap.New idxLess, 0⟩).h.items,
        (mapStream.after events ⟨eg, arrivals, xheap.New idxLess, 0⟩).i ≤ x.idx) ∧
      ∀ (ctx : Option Error) (pick : Bool),
        match mapStream.pass (mapStream.after events ⟨eg, arrivals, xheap.New idxLess, 0⟩)
            ctx pick with
        | mapStream.Pass.result (NextResult.value u) next =>
          ∃ top,
            (mapStream.after events ⟨eg, arrivals, xheap.New idxLess, 0⟩).h.Peek = some top ∧
            top.idx = (mapStream.after events ⟨eg, arrivals, xheap.New idxLess, 0⟩).i ∧
            top.value = u ∧
            next.i = (mapStream.after events ⟨eg, arrivals, xheap.New idxLess, 0⟩).i + 1 ∧
            next.h.Len + 1
              = (mapStream.after events ⟨eg, arrivals, xheap.New idxLess, 0⟩).h.Len ∧
            next.c = (mapStream.after events ⟨eg, arrivals, xheap.New idxLess, 0⟩).c
        | mapStream.Pass.result _ next =>
          releasable (mapStream.after events ⟨eg, arrivals, xheap.New idxLess, 0⟩).h
              (mapStream.after events ⟨eg, arrivals, xheap.New idxLess, 0⟩).i = false ∧
            next = mapStream.after events ⟨eg, arrivals, xheap.New idxLess, 0⟩
        | mapStream.Pass.again next =>
          releasable (mapStream.after events ⟨eg, arrivals, xheap.New idxLess, 0⟩).h
              (mapStream.after events ⟨eg, arrivals, xheap.New idxLess, 0⟩).i = false ∧
            next.i = (mapStream.after events ⟨eg, arrivals, xheap.New idxLess, 0⟩).i ∧
            next.h.Len
              = (mapStream.after events ⟨eg, arrivals, xheap.New idxLess, 0⟩).h.Len + 1 ∧
            ∃ item,
              (mapStream.after events ⟨eg, arrivals, xheap.New idxLess, 0⟩).c
                = item :: next.c) := by
  constructor
  · intro k
    exact ⟨(mapIterator.after_buffered k ⟨arrivals, xheap.New idxLess, 0⟩
        (buffered_init arrivals hd)).1,
      mapIterator.pass_effect _⟩
  · intro eg events
    exact ⟨(mapStream.stream_after_buffered events ⟨eg, arrivals, xheap.New idxLess, 0⟩
        (buffered_init arrivals hd)).1,
      fun ctx pick => mapStream.stream_pass_effect _ ctx pick⟩

/-- Instance of C9: items with the indices 2, 0, 1 arrive in this order; after three passes the
heap holds the indices 0 and 2 and the cursor is still 0. -/
theorem reorder_buffer_invariant_witness :
    (([⟨30, 2⟩, ⟨10, 0⟩, ⟨20, 1⟩] : List (valueAndIndex Nat)).map (fun x => x.idx)).Nodup ∧
    (mapIterator.after 2 ⟨[⟨30, 2⟩, ⟨10, 0⟩, ⟨20, 1⟩], xheap.New idxLess, 0⟩).h.items
      = [⟨10, 0⟩, ⟨30, 2⟩] ∧
    (∀ x ∈ (mapIterator.after 2
        ⟨([⟨30, 2⟩, ⟨10, 0⟩, ⟨20, 1⟩] : List (valueAndIndex Nat)), xheap.New idxLess, 0⟩).h.items,
      (mapIterator.after 2
        ⟨([⟨30, 2⟩, ⟨10, 0⟩, ⟨20, 1⟩] : List (valueAndIndex Nat)), xheap.New idxLess, 0⟩).i
        ≤ x.idx) :=
  ⟨by decide, by decide,
    ((reorder_buffer_invariant ([⟨30, 2⟩, ⟨10, 0⟩, ⟨20, 1⟩] : List (valueAndIndex Nat))
      (by decide)).1 2).1⟩

theorem Pipe.record_fields {T U : Type} (s : Pipe T U) (r : Option Error) :
    (s.record r).producer = s.producer ∧ (s.record r).pi = s.pi ∧
    (s.record r).inClosed = s.inClosed ∧ (s.record r).workers = s.workers ∧
    (s.record r).queue = s.queue ∧ (s.record r).cClosed = s.cClosed ∧
    (s.record r).nDone = s.nDone ∧ (s.record r).h = s.h ∧ (s.record r).i = s.i ∧
    (s.record r).out = s.out ∧ (s.record r).result = s.result := by
  unfold Pipe.record
  split <;> exact ⟨rfl, rfl, rfl, rfl, rfl, rfl, rfl, rfl, rfl, rfl, rfl⟩

/-- What the errgroup's bookkeeping does to the recorded error and the context. -/
theorem Pipe.record_err {T U : Type} (s : Pipe T U) (r : Option Error) :
    (s.err = none ∧ ∃ e, r = some e ∧ (s.record r).err = some e ∧
      (s.record r).ctx = (match s.ctx with
        | none => some Error.Canceled
        | some c => some c)) ∨
    ((s.err ≠ none ∨ r = none) ∧ (s.record r).err = s.err ∧ (s.record r).ctx = s.ctx) := by
  unfold Pipe.record
  cases r with
  | none => exact Or.inr ⟨Or.inr rfl, rfl, rfl⟩
  | some e =>
    cases he : s.err with
    | none => exact Or.inl ⟨rfl, e, rfl, rfl, rfl⟩
    | some e1 => exact Or.inr ⟨Or.inl (by simp), by simp [he], rfl⟩

/-- The shapes an action of a `MapStream` pipeline can take. -/
theorem MapStream.step_shapes {T U : Type} [DecidableEq T] [DecidableEq U] {input : List T}
    {f : T → U × Option Error} {p b : Nat} {s s1 : Pipe T U} {a : Action}
    (hs : MapStream.step input f p b s a = some s1) :
    (∃ x, s.producer = Producer.pull ∧ input[s.pi]? = some x ∧
      s1 = { s with producer := Producer.send x }) ∨
    (s.producer = Producer.pull ∧ input[s.pi]? = none ∧
      s1 = { s with producer := Producer.returning none }) ∨
    (∃ j x, s.producer = Producer.send x ∧ s.workers[j]? = some StreamWorker.recv ∧
      s1 = { s with producer := Producer.pull, pi := s.pi + 1,
                    workers := s.workers.set j (StreamWorker.got x s.pi) }) ∨
    (∃ x e, s.producer = Producer.send x ∧ s.ctx = some e ∧
      s1 = { s with producer := Producer.returning (some e) }) ∨
    (∃ r, s.producer = Producer.returning r ∧
      s1 = { s with inClosed := true, producer := Producer.reporting r }) ∨
    (∃ e, s.producer = Producer.reporting (some e) ∧ s.err = none ∧
      s1 = { s with producer := Producer.exited, err := some e,
                    ctx := match s.ctx with
                      | none => some Error.Canceled
                      | some c => some c }) ∨
    (∃ r, s.producer = Producer.reporting r ∧ (r = none ∨ s.err ≠ none) ∧
      s1 = { s with producer := Producer.exited }) ∨
    (∃ j, s.workers[j]? = some StreamWorker.recv ∧ s.inClosed = true ∧
      s1 = { s with workers := s.workers.set j (StreamWorker.returning none) }) ∨
    (∃ j x idx u, s.workers[j]? = some (StreamWorker.got x idx) ∧ f x = (u, none) ∧
      s1 = { s with workers := s.workers.set j (StreamWorker.send u idx) }) ∨
    (∃ j x idx u e, s.workers[j]? = some (StreamWorker.got x idx) ∧ f x = (u, some e) ∧
      s1 = { s with workers := s.workers.set j (StreamWorker.returning (some e)) }) ∨
    (∃ j u idx, s.workers[j]? = some (StreamWorker.send u idx) ∧
      (s.queue.length < b ∨ (b = 0 ∧ s.queue = [] ∧ s.receiving = true)) ∧
      s1 = { s with queue := s.queue ++ [⟨u, idx⟩],
                    workers := s.workers.set j StreamWorker.recv }) ∨
    (∃ j u idx e, s.workers[j]? = some (StreamWorker.send u idx) ∧ s.ctx = some e ∧
      s1 = { s with workers := s.workers.set j (StreamWorker.returning (some e)) }) ∨
    (∃ j r, s.workers[j]? = some (StreamWorker.returning r) ∧
      s1 = { s with nDone := s.nDone + 1, cClosed := s.cClosed || decide (s.nDone + 1 = p),
                    workers := s.workers.set j (StreamWorker.reporting r) }) ∨
    (∃ j e, s.workers[j]? = some (StreamWorker.reporting (some e)) ∧ s.err = none ∧
      s1 = { s with workers := s.workers.set j StreamWorker.exited, err := some e,
                    ctx := match s.ctx with
                      | none => some Error.Canceled
                      | some c => some c }) ∨
    (∃ j r, s.workers[j]? = some (StreamWorker.reporting r) ∧ (r = none ∨ s.err ≠ none) ∧
      s1 = { s with workers := s.workers.set j StreamWorker.exited }) ∨
    (∃ t tl, s.result = none ∧ s.h.items = t :: tl ∧ t.idx = s.i ∧
      s1 = { s with out := s.out ++ [t.value], h := { s.h with items := tl }, i := s.i + 1 }) ∨
    (∃ item rest, s.result = none ∧ releasable s.h s.i = false ∧ s.queue = item :: rest ∧
      s1 = { s with queue := rest, h := s.h.Push item }) ∨
    (s.result = none ∧ releasable s.h s.i = false ∧ s.queue = [] ∧ s.cClosed = true ∧
      s.allExited = true ∧
      s1 = { s with result := some (match s.err with
        | some e => NextResult.failed e
        | none => NextResult.End) })  := by
  cases a with
  | pull =>
    simp only [MapStream.step] at hs
    split at hs
    · rename_i hp
      split at hs
      · rename_i x hx
        simp only [Option.some.injEq] at hs
        exact Or.inl ⟨x, hp, hx, hs.symm⟩
      · rename_i hx
        simp only [Option.some.injEq] at hs
        exact Or.inr (Or.inl ⟨hp, hx, hs.symm⟩)
    · cases hs
  | give j =>
    simp only [MapStream.step] at hs
    split at hs
    · rename_i x hp hw
      simp only [Option.some.injEq] at hs
      exact Or.inr (Or.inr (Or.inl ⟨j, x, hp, hw, hs.symm⟩))
    · cases hs
  | producerQuit =>
    simp only [MapStream.step] at hs
    split at hs
    · rename_i x e hp hc
      simp only [Option.some.injEq] at hs
      exact Or.inr (Or.inr (Or.inr (Or.inl ⟨x, e, hp, hc, hs.symm⟩)))
    · cases hs
  | producerDefer =>
    simp only [MapStream.step] at hs
    split at hs
    · rename_i r hp
      simp only [Option.some.injEq] at hs
      exact Or.inr (Or.inr (Or.inr (Or.inr (Or.inl ⟨r, hp, hs.symm⟩))))
    · cases hs
  | producerReport =>
    simp only [MapStream.step] at hs
    split at hs
    · rename_i r hp
      simp only [Option.some.injEq, Pipe.record] at hs
      cases r with
      | none =>
        exact Or.inr (Or.inr (Or.inr (Or.inr (Or.inr (Or.inr
          (Or.inl ⟨none, hp, Or.inl rfl, hs.symm⟩))))))
      | some e =>
        cases he : s.err with
        | none =>
          simp only [he] at hs
          exact Or.inr (Or.inr (Or.inr (Or.inr (Or.inr (Or.inl ⟨e, hp, rfl, hs.symm⟩)))))
        | some e1 =>
          simp only [he] at hs
          exact Or.inr (Or.inr (Or.inr (Or.inr (Or.inr (Or.inr
            (Or.inl ⟨some e, hp, Or.inr (by simp [he]), hs.symm⟩))))))
    · cases hs
  | recvClosed j =>
    simp only [MapStream.step] at hs
    split at hs
    · rename_i hw
      split at hs
      · rename_i hc
        simp only [Option.some.injEq] at hs
        exact Or.inr (Or.inr (Or.inr (Or.inr (Or.inr (Or.inr (Or.inr
          (Or.inl ⟨j, hw, hc, hs.symm⟩)))))))
      · cases hs
    · cases hs
  | call j =>
    simp only [MapStream.step] at hs
    split at hs
    · rename_i x idx hw
      split at hs
      · rename_i u hf
        simp only [Option.some.injEq] at hs
        exact Or.inr (Or.inr (Or.inr (Or.inr (Or.inr (Or.inr (Or.inr (Or.inr
          (Or.inl ⟨j, x, idx, u, hw, hf, hs.symm⟩))))))))
      · rename_i u e hf
        simp only [Option.some.injEq] at hs
        exact Or.inr (Or.inr (Or.inr (Or.inr (Or.inr (Or.inr (Or.inr (Or.inr (Or.inr
          (Or.inl ⟨j, x, idx, u, e, hw, hf, hs.symm⟩)))))))))
    · cases hs
  | put j =>
    simp only [MapStream.step] at hs
    split at hs
    · rename_i u idx hw
      split at hs
      · rename_i hg
        simp only [Option.some.injEq] at hs
        exact Or.inr (Or.inr (Or.inr (Or.inr (Or.inr (Or.inr (Or.inr (Or.inr (Or.inr (Or.inr
          (Or.inl ⟨j, u, idx, hw, hg, hs.symm⟩))))))))))
      · cases hs
    · cases hs
  | quit j =>
    simp only [MapStream.step] at hs
    split at hs
    · rename_i u idx e hw hc
      simp only [Option.some.injEq] at hs
      exact Or.inr (Or.inr (Or.inr (Or.inr (Or.inr (Or.inr (Or.inr (Or.inr (Or.inr (Or.inr
        (Or.inr (Or.inl ⟨j, u, idx, e, hw, hc, hs.symm⟩)))))))))))
    · cases hs
  | workerDefer j =>
    simp only [MapStream.step] at hs
    split at hs
    · rename_i r hw
      simp only [Option.some.injEq] at hs
      exact Or.inr (Or.inr (Or.inr (Or.inr (Or.inr (Or.inr (Or.inr (Or.inr (Or.inr (Or.inr
        (Or.inr (Or.inr (Or.inl ⟨j, r, hw, hs.symm⟩))))))))))))
    · cases hs
  | workerReport j =>
    simp only [MapStream.step] at hs
    split at hs
    · rename_i r hw
      simp only [Option.some.injEq, Pipe.record] at hs
      cases r with
      | none =>
        exact Or.inr (Or.inr (Or.inr (Or.inr (Or.inr (Or.inr (Or.inr (Or.inr (Or.inr (Or.inr
          (Or.inr (Or.inr (Or.inr (Or.inr (Or.inl ⟨j, none, hw, Or.inl rfl, hs.symm⟩))))))))))))))
      | some e =>
        cases he : s.err with
        | none =>
          simp only [he] at hs
          exact Or.inr (Or.inr (Or.inr (Or.inr (Or.inr (Or.inr (Or.inr (Or.inr (Or.inr (Or.inr
            (Or.inr (Or.inr (Or.inr (Or.inl ⟨j, e, hw, rfl, hs.symm⟩)))))))))))))
        | some e1 =>
          simp only [he] at hs
          exact Or.inr (Or.inr (Or.inr (Or.inr (Or.inr (Or.inr (Or.inr (Or.inr (Or.inr (Or.inr
            (Or.inr (Or.inr (Or.inr (Or.inr
              (Or.inl ⟨j, some e, hw, Or.inr (by simp [he]), hs.symm⟩))))))))))))))
    · cases hs
  | next =>
    simp only [MapStream.step] at hs
    split at hs
    · cases hs
    · rename_i hres
      have hres1 : s.result = none := by
        cases hr : s.result with
        | none => rfl
        | some r => rw [hr] at hres; exact absurd rfl hres
      split at hs
      · rename_i hguard
        by_cases hrel : releasable s.h s.i = true
        · obtain ⟨t, tl, hit, hti, _, hpop⟩ := releasable_pop hrel
          simp only [mapStream.pass, hrel, if_true, hpop, Option.some.injEq] at hs
          exact Or.inr (Or.inr (Or.inr (Or.inr (Or.inr (Or.inr (Or.inr (Or.inr (Or.inr (Or.inr
            (Or.inr (Or.inr (Or.inr (Or.inr (Or.inr
              (Or.inl ⟨t, tl, hres1, hit, hti, hs.symm⟩)))))))))))))))
        · have hfalse : releasable s.h s.i = false := by simpa using hrel
          simp only [mapStream.pass, hrel, if_false] at hs
          cases hq : s.queue with
          | nil =>
            rw [hq] at hs
            have hclosed : s.cClosed = true ∧ s.allExited = true := by
              rcases hguard with h1 | h1 | h1
              · exact absurd h1 hrel
              · exact absurd hq h1
              · exact h1
            refine Or.inr (Or.inr (Or.inr (Or.inr (Or.inr (Or.inr (Or.inr (Or.inr (Or.inr
              (Or.inr (Or.inr (Or.inr (Or.inr (Or.inr (Or.inr (Or.inr (Or.inr
                ⟨hres1, hfalse, rfl, hclosed.1, hclosed.2, ?_⟩))))))))))))))))
            cases he : s.err with
            | none =>
              rw [he] at hs
              simp only [Bool.false_eq_true, if_false, Option.some.injEq] at hs
              exact hs.symm
            | some e =>
              rw [he] at hs
              simp only [Bool.false_eq_true, if_false, Option.some.injEq] at hs
              exact hs.symm
          | cons item rest =>
            rw [hq] at hs
            simp only [Bool.false_eq_true, if_false, Option.some.injEq] at hs
            refine Or.inr (Or.inr (Or.inr (Or.inr (Or.inr (Or.inr (Or.inr (Or.inr (Or.inr
              (Or.inr (Or.inr (Or.inr (Or.inr (Or.inr (Or.inr (Or.inr (Or.inl
                ⟨item, rest, hres1, hfalse, rfl, ?_⟩))))))))))))))))
            exact hs.symm
      · cases hs

theorem StreamWorker.Genuine.mono {T U : Type} {input : List T} {f : T → U × Option Error}
    {pi : Nat} {w : StreamWorker T U} (h : StreamWorker.Genuine input f pi w) :
    StreamWorker.Genuine input f (pi + 1) w := by
  cases w with
  | got x idx => exact ⟨Nat.lt_succ_of_lt h.1, h.2⟩
  | send u idx => exact h
  | recv => trivial
  | returning r => trivial
  | reporting r => trivial
  | exited => trivial

/-- Every action of a `MapStream` pipeline keeps its integrity. -/
theorem Pipe.Sane.sane_step {T U : Type} [DecidableEq T] [DecidableEq U] {input : List T}
    {f : T → U × Option Error} {p b k : Nat} {xk : T} {e : Error}
    (hk : input[k]? = some xk) (hfail : (f xk).2 = some e) {s s1 : Pipe T U} {a : Action}
    (h : Pipe.Sane input f k s) (hs : MapStream.step input f p b s a = some s1) :
    Pipe.Sane input f k s1 := by
  rcases MapStream.step_shapes hs with
    ⟨x, hp, hx, rfl⟩ | ⟨hp, hx, rfl⟩ | ⟨j, x, hp, hw, rfl⟩ | ⟨x, e1, hp, hc, rfl⟩ |
    ⟨r, hp, rfl⟩ | ⟨e1, hp, herr, rfl⟩ | ⟨r, hp, hr, rfl⟩ | ⟨j, hw, hic, rfl⟩ |
    ⟨j, x, idx, u, hw, hf, rfl⟩ | ⟨j, x, idx, u, e1, hw, hf, rfl⟩ | ⟨j, u, idx, hw, hg, rfl⟩ |
    ⟨j, u, idx, e1, hw, hc, rfl⟩ | ⟨j, r, hw, rfl⟩ | ⟨j, e1, hw, herr, rfl⟩ |
    ⟨j, r, hw, hr, rfl⟩ | ⟨t, tl, hres, hit, hti, rfl⟩ | ⟨item, rest, hres, hrel, hq, rfl⟩ |
    ⟨hres, hrel, hq, hcc, hall, rfl⟩
  · -- pull, an item
    refine ⟨h.workers, h.stored, ?_, h.out, h.cursor⟩
    intro y hy
    injection hy with hy
    rw [← hy]
    exact hx
  · exact ⟨h.workers, h.stored, (fun y hy => by cases hy), h.out, h.cursor⟩
  · -- give
    refine ⟨?_, h.stored, (fun y hy => by cases hy), h.out, h.cursor⟩
    exact forall_getElem?_set (StreamWorker.Genuine input f (s.pi + 1)) s.workers j _
      (fun k w hk => (h.workers k w hk).mono) ⟨Nat.lt_succ_self _, h.held x hp⟩
  · exact ⟨h.workers, h.stored, (fun y hy => by cases hy), h.out, h.cursor⟩
  · exact ⟨h.workers, h.stored, (fun y hy => by cases hy), h.out, h.cursor⟩
  · exact ⟨h.workers, h.stored, (fun y hy => by cases hy), h.out, h.cursor⟩
  · exact ⟨h.workers, h.stored, (fun y hy => by cases hy), h.out, h.cursor⟩
  · exact ⟨forall_getElem?_set _ s.workers j _ h.workers trivial, h.stored, h.held, h.out,
      h.cursor⟩
  · -- call, nil error
    refine ⟨forall_getElem?_set _ s.workers j _ h.workers ?_, h.stored, h.held, h.out, h.cursor⟩
    exact ⟨x, (h.workers j _ hw).2, hf⟩
  · exact ⟨forall_getElem?_set _ s.workers j _ h.workers trivial, h.stored, h.held, h.out,
      h.cursor⟩
  · -- put
    refine ⟨forall_getElem?_set _ s.workers j _ h.workers trivial, ?_, h.held, h.out, h.cursor⟩
    intro item hitem
    simp only [List.append_assoc, List.mem_append, List.mem_singleton, List.mem_cons,
      List.singleton_append] at hitem
    rcases hitem with h1 | h1 | h1
    · exact h.stored item (List.mem_append.mpr (Or.inl h1))
    · rw [h1]
      exact h.workers j _ hw
    · exact h.stored item (List.mem_append.mpr (Or.inr h1))
  · exact ⟨forall_getElem?_set _ s.workers j _ h.workers trivial, h.stored, h.held, h.out,
      h.cursor⟩
  · exact ⟨forall_getElem?_set _ s.workers j _ h.workers trivial, h.stored, h.held, h.out,
      h.cursor⟩
  · exact ⟨forall_getElem?_set _ s.workers j _ h.workers trivial, h.stored, h.held, h.out,
      h.cursor⟩
  · exact ⟨forall_getElem?_set _ s.workers j _ h.workers trivial, h.stored, h.held, h.out,
      h.cursor⟩
  · -- release
    have hmem : t ∈ s.queue ++ s.h.items := by
      rw [hit]
      exact List.mem_append.mpr (Or.inr (List.mem_cons_self _ _))
    obtain ⟨x, hx, hfx⟩ := h.stored t hmem
    rw [hti] at hx
    have hne : s.i ≠ k := by
      intro hEq
      rw [hEq, hk] at hx
      injection hx with hx
      rw [hx, hfx] at hfail
      cases hfail
    have hcur := h.cursor
    refine ⟨h.workers, ?_, h.held, ?_, by show s.i + 1 ≤ k; omega⟩
    · intro item hitem
      apply h.stored item
      rw [hit]
      rcases List.mem_append.mp hitem with h1 | h1
      · exact List.mem_append.mpr (Or.inl h1)
      · exact List.mem_append.mpr (Or.inr (List.mem_cons_of_mem _ h1))
    · show s.out ++ [t.value] = (input.take (s.i + 1)).map (fun x => (f x).1)
      have hlt : s.i < input.length := by
        rcases List.getElem?_eq_some.mp hx with ⟨hlt, _⟩
        exact hlt
      have hget : input[s.i] = x := by
        rcases List.getElem?_eq_some.mp hx with ⟨_, hget⟩
        exact hget
      rw [List.take_succ, List.getElem?_eq_getElem hlt, h.out, hget]
      simp [hfx]
  · -- receive
    refine ⟨h.workers, ?_, h.held, h.out, h.cursor⟩
    intro it hit
    apply h.stored it
    rw [hq]
    simp only [xheap.Heap.Push, List.mem_append] at hit
    rcases hit with h1 | h1
    · exact List.mem_append.mpr (Or.inl (List.mem_cons_of_mem _ h1))
    · rcases List.mem_cons.mp ((xheap.insert_perm s.h.less item s.h.items).mem_iff.mp h1) with
        h2 | h2
      · rw [h2]
        exact List.mem_append.mpr (Or.inl (List.mem_cons_self _ _))
      · exact List.mem_append.mpr (Or.inr h2)
  · exact ⟨h.workers, h.stored, h.held, h.out, h.cursor⟩

theorem Pipe.Sane.sane_run {T U : Type} [DecidableEq T] [DecidableEq U] {input : List T}
    {f : T → U × Option Error} {p b k : Nat} {xk : T} {e : Error}
    (hk : input[k]? = some xk) (hfail : (f xk).2 = some e) :
    ∀ (sched : List Action) (s s1 : Pipe T U), Pipe.Sane input f k s →
      MapStream.run input f p b s sched = some s1 → Pipe.Sane input f k s1 := by
  intro sched
  induction sched with
  | nil =>
    intro s s1 h hr
    simp only [MapStream.run, Option.some.injEq] at hr
    subst hr
    exact h
  | cons a sched ih =>
    intro s s1 h hr
    simp only [MapStream.run] at hr
    cases hs : MapStream.step input f p b s a with
    | none => rw [hs] at hr; cases hr
    | some s2 =>
      rw [hs] at hr
      exact ih s2 s1 (h.sane_step hk hfail hs) hr

theorem failed_none_of_set {T U : Type} {ws : List (StreamWorker T U)} {j : Nat}
    {w0 w1 : StreamWorker T U} (hw : ws[j]? = some w0) (h0 : w0.failed = none)
    (hall : ∀ (k : Nat) (w : StreamWorker T U), (ws.set j w1)[k]? = some w → w.failed = none) :
    ∀ (k : Nat) (w : StreamWorker T U), ws[k]? = some w → w.failed = none := by
  intro k w hk
  by_cases hEq : j = k
  · subst hEq
    rw [hw] at hk
    injection hk with hk
    rw [← hk]
    exact h0
  · apply hall k w
    rw [List.getElem?_set_ne hEq]
    exact hk

theorem got_kept_of_set {T U : Type} {ws : List (StreamWorker T U)} {j : Nat}
    {w0 w1 : StreamWorker T U} {idx : Nat} (hw : ws[j]? = some w0)
    (hne : ∀ x, w0 ≠ StreamWorker.got x idx)
    (hex : ∃ (j0 : Nat) (x : T), ws[j0]? = some (StreamWorker.got x idx)) :
    ∃ (j0 : Nat) (x : T), (ws.set j w1)[j0]? = some (StreamWorker.got x idx) := by
  obtain ⟨j0, x, hj0⟩ := hex
  refine ⟨j0, x, ?_⟩
  have hEq : j ≠ j0 := by
    intro hEq
    subst hEq
    rw [hw] at hj0
    injection hj0 with hj0
    exact hne x hj0
  rw [List.getElem?_set_ne hEq]
  exact hj0

/-- Every action of a `MapStream` pipeline keeps the account of where its errors come from. -/
theorem Pipe.Blame.blame_step {T U : Type} [DecidableEq T] [DecidableEq U] {input : List T}
    {f : T → U × Option Error} {p b k : Nat}
    (hbefore : ∀ (j : Nat) (x : T), j < k → input[j]? = some x → (f x).2 = none)
    {s s1 : Pipe T U} {a : Action} (hsane : Pipe.Sane input f k s)
    (h : Pipe.Blame input f k s) (hs : MapStream.step input f p b s a = some s1) :
    Pipe.Blame input f k s1 := by
  have hctx := h.ctx
  rcases MapStream.step_shapes hs with
    ⟨x, hp, hx, rfl⟩ | ⟨hp, hx, rfl⟩ | ⟨j, x, hp, hw, rfl⟩ | ⟨x, e1, hp, hc, rfl⟩ |
    ⟨r, hp, rfl⟩ | ⟨e1, hp, herr, rfl⟩ | ⟨r, hp, hr, rfl⟩ | ⟨j, hw, hic, rfl⟩ |
    ⟨j, x, idx, u, hw, hf, rfl⟩ | ⟨j, x, idx, u, e1, hw, hf, rfl⟩ | ⟨j, u, idx, hw, hg, rfl⟩ |
    ⟨j, u, idx, e1, hw, hc, rfl⟩ | ⟨j, r, hw, rfl⟩ | ⟨j, e1, hw, herr, rfl⟩ |
    ⟨j, r, hw, hr, rfl⟩ | ⟨t, tl, hres, hit, hti, rfl⟩ | ⟨item, rest, hres, hrel, hq, rfl⟩ |
    ⟨hres, hrel, hq, hcc, hall, rfl⟩
  · -- pull, an item
    refine ⟨h.ctx, h.err, h.worker, ?_, ?_⟩
    · intro e1 he1
      rcases he1 with he1 | he1 <;> cases he1
    · intro hcl
      exact ⟨(h.clean hcl).1, fun _ hne => absurd rfl (hne x)⟩
  · -- pull, end of input
    refine ⟨h.ctx, h.err, h.worker, ?_, ?_⟩
    · intro e1 he1
      rcases he1 with he1 | he1 <;> cases he1
    · intro hcl
      refine ⟨(h.clean hcl).1, fun _ _ => ?_⟩
      exact List.getElem?_eq_none_iff.mp hx
  · -- give
    refine ⟨h.ctx, h.err, ?_, ?_, ?_⟩
    · refine forall_getElem?_set
        (fun w => ∀ e1, w.failed = some e1 → Caused input f k e1 ∨ s.err ≠ none) s.workers j _
        h.worker ?_
      intro e1 he1
      cases he1
    · intro e1 he1
      rcases he1 with he1 | he1 <;> cases he1
    · intro hcl
      have hcl0 : Pipe.Clean s := ⟨hcl.1, failed_none_of_set hw rfl hcl.2⟩
      refine ⟨?_, fun hne _ => absurd rfl hne⟩
      intro idx hidx
      have hidx1 : idx < s.pi + 1 := hidx
      by_cases hEq : idx = s.pi
      · right
        exact ⟨j, x, by rw [hEq]; exact getElem?_set_same s.workers j _ _ hw⟩
      · rcases (h.clean hcl0).1 idx (by omega) with h1 | h1
        · exact Or.inl h1
        · exact Or.inr (got_kept_of_set hw (by intro y hy; cases hy) h1)
  · -- the producer sees the context cancelled
    have herr : s.err ≠ none := by
      intro hnone
      rw [hctx.mpr hnone] at hc
      cases hc
    refine ⟨h.ctx, h.err, h.worker, fun _ _ => herr, ?_⟩
    intro hcl
    exact absurd hcl.1 herr
  · -- the producer's deferred calls
    refine ⟨h.ctx, h.err, h.worker, ?_, ?_⟩
    · intro e1 he1
      rcases he1 with he1 | he1
      · cases he1
      · injection he1 with he1
        exact h.producer e1 (Or.inl (by rw [hp, he1]))
    · intro hcl
      refine ⟨(h.clean hcl).1, fun _ _ => ?_⟩
      exact (h.clean hcl).2 (by rw [hp]; intro hc; cases hc) (by rw [hp]; intro y hc; cases hc)
  · -- the producer's error is recorded: it never comes first
    exact absurd herr (h.producer e1 (Or.inr hp))
  · -- the producer's result is dropped
    refine ⟨h.ctx, h.err, h.worker, ?_, ?_⟩
    · intro e1 he1
      rcases he1 with he1 | he1 <;> cases he1
    · intro hcl
      refine ⟨(h.clean hcl).1, fun _ _ => ?_⟩
      exact (h.clean hcl).2 (by rw [hp]; intro hc; cases hc) (by rw [hp]; intro y hc; cases hc)
  · -- a worker finds `in` closed
    refine ⟨h.ctx, h.err, ?_, h.producer, ?_⟩
    · refine forall_getElem?_set
        (fun w => ∀ e1, w.failed = some e1 → Caused input f k e1 ∨ s.err ≠ none) s.workers j _
        h.worker ?_
      intro e1 he1
      cases he1
    · intro hcl
      have hcl0 : Pipe.Clean s := ⟨hcl.1, failed_none_of_set hw rfl hcl.2⟩
      refine ⟨?_, (h.clean hcl0).2⟩
      intro idx hidx
      rcases (h.clean hcl0).1 idx hidx with h1 | h1
      · exact Or.inl h1
      · exact Or.inr (got_kept_of_set hw (by intro y hy; cases hy) h1)
  · -- call, nil error
    refine ⟨h.ctx, h.err, ?_, h.producer, ?_⟩
    · refine forall_getElem?_set
        (fun w => ∀ e1, w.failed = some e1 → Caused input f k e1 ∨ s.err ≠ none) s.workers j _
        h.worker ?_
      intro e1 he1
      cases he1
    · intro hcl
      have hcl0 : Pipe.Clean s := ⟨hcl.1, failed_none_of_set hw rfl hcl.2⟩
      refine ⟨?_, (h.clean hcl0).2⟩
      intro idx1 hidx
      rcases (h.clean hcl0).1 idx1 hidx with h1 | h1
      · exact Or.inl h1
      · by_cases hEq : idx1 = idx
        · left
          refine ⟨x, ?_, by rw [hf]⟩
          rw [hEq]
          exact (hsane.workers j _ hw).2
        · refine Or.inr (got_kept_of_set hw ?_ h1)
          intro y hy
          injection hy with _ hy
          exact hEq hy.symm
  · -- call, error
    refine ⟨h.ctx, h.err, ?_, h.producer, ?_⟩
    · refine forall_getElem?_set
        (fun w => ∀ e2, w.failed = some e2 → Caused input f k e2 ∨ s.err ≠ none) s.workers j _
        h.worker ?_
      intro e2 he2
      simp only [StreamWorker.failed, Option.some.injEq] at he2
      subst he2
      left
      have hin := (hsane.workers j _ hw).2
      refine ⟨idx, x, ?_, hin, by rw [hf]⟩
      by_contra hlt
      have := hbefore idx x (by omega) hin
      rw [hf] at this
      cases this
    · intro hcl
      have := hcl.2 j _ (getElem?_set_same s.workers j _ _ hw)
      cases this
  · -- put
    refine ⟨h.ctx, h.err, ?_, h.producer, ?_⟩
    · refine forall_getElem?_set
        (fun w => ∀ e1, w.failed = some e1 → Caused input f k e1 ∨ s.err ≠ none) s.workers j _
        h.worker ?_
      intro e1 he1
      cases he1
    · intro hcl
      have hcl0 : Pipe.Clean s := ⟨hcl.1, failed_none_of_set hw rfl hcl.2⟩
      refine ⟨?_, (h.clean hcl0).2⟩
      intro idx1 hidx
      rcases (h.clean hcl0).1 idx1 hidx with h1 | h1
      · exact Or.inl h1
      · exact Or.inr (got_kept_of_set hw (by intro y hy; cases hy) h1)
  · -- a worker sees the context cancelled
    have herr : s.err ≠ none := by
      intro hnone
      rw [hctx.mpr hnone] at hc
      cases hc
    refine ⟨h.ctx, h.err, ?_, h.producer, ?_⟩
    · exact forall_getElem?_set
        (fun w => ∀ e2, w.failed = some e2 → Caused input f k e2 ∨ s.err ≠ none) s.workers j _
        h.worker (fun _ _ => Or.inr herr)
    · intro hcl
      exact absurd hcl.1 herr
  · -- a worker's deferred function
    refine ⟨h.ctx, h.err, ?_, h.producer, ?_⟩
    · refine forall_getElem?_set
        (fun w => ∀ e2, w.failed = some e2 → Caused input f k e2 ∨ s.err ≠ none) s.workers j _
        h.worker ?_
      intro e2 he2
      apply h.worker j _ hw e2
      cases r with
      | none => cases he2
      | some e3 => exact he2
    · intro hcl
      have hr : (StreamWorker.returning r : StreamWorker T U).failed = none := by
        have := hcl.2 j _ (getElem?_set_same s.workers j _ _ hw)
        cases r with
        | none => rfl
        | some e3 => cases this
      have hcl0 : Pipe.Clean s := ⟨hcl.1, failed_none_of_set hw hr hcl.2⟩
      refine ⟨?_, (h.clean hcl0).2⟩
      intro idx1 hidx
      rcases (h.clean hcl0).1 idx1 hidx with h1 | h1
      · exact Or.inl h1
      · exact Or.inr (got_kept_of_set hw (by intro y hy; cases hy) h1)
  · -- a worker's error is recorded
    have hcaused : Caused input f k e1 := by
      rcases h.worker j _ hw e1 rfl with h1 | h1
      · exact h1
      · exact absurd herr h1
    have hcn : s.ctx = none := hctx.mpr herr
    refine ⟨?_, ?_, ?_, fun _ _ => by simp, ?_⟩
    · simp [hcn]
    · intro e2 he2
      injection he2 with he2
      rw [← he2]
      exact hcaused
    · exact forall_getElem?_set
        (fun w => ∀ e2, w.failed = some e2 → Caused input f k e2 ∨ (some e1 : Option Error) ≠ none)
        s.workers j _ (fun _ _ _ _ _ => Or.inr (by simp)) (fun _ _ => Or.inr (by simp))
    · intro hcl
      have := hcl.1
      cases this
  · -- a worker's result is dropped
    refine ⟨h.ctx, h.err, ?_, h.producer, ?_⟩
    · refine forall_getElem?_set
        (fun w => ∀ e1, w.failed = some e1 → Caused input f k e1 ∨ s.err ≠ none) s.workers j _
        h.worker ?_
      intro e1 he1
      cases he1
    · intro hcl
      have hr0 : (StreamWorker.reporting r : StreamWorker T U).failed = none := by
        rcases hr with hr | hr
        · rw [hr]
          rfl
        · exact absurd hcl.1 hr
      have hcl0 : Pipe.Clean s := ⟨hcl.1, failed_none_of_set hw hr0 hcl.2⟩
      refine ⟨?_, (h.clean hcl0).2⟩
      intro idx1 hidx
      rcases (h.clean hcl0).1 idx1 hidx with h1 | h1
      · exact Or.inl h1
      · exact Or.inr (got_kept_of_set hw (by intro y hy; cases hy) h1)
  · exact ⟨h.ctx, h.err, h.worker, h.producer, h.clean⟩
  · exact ⟨h.ctx, h.err, h.worker, h.producer, h.clean⟩
  · exact ⟨h.ctx, h.err, h.worker, h.producer, h.clean⟩


theorem Pipe.Blame.blame_run {T U : Type} [DecidableEq T] [DecidableEq U] {input : List T}
    {f : T → U × Option Error} {p b k : Nat} {xk : T} {e : Error}
    (hk : input[k]? = some xk) (hfail : (f xk).2 = some e)
    (hbefore : ∀ (j : Nat) (x : T), j < k → input[j]? = some x → (f x).2 = none) :
    ∀ (sched : List Action) (s s1 : Pipe T U), Pipe.Sane input f k s → Pipe.Blame input f k s →
      MapStream.run input f p b s sched = some s1 → Pipe.Blame input f k s1 := by
  intro sched
  induction sched with
  | nil =>
    intro s s1 _ h hrun
    simp only [MapStream.run, Option.some.injEq] at hrun
    rw [← hrun]
    exact h
  | cons a sched ih =>
    intro s s1 hsane h hrun
    simp only [MapStream.run] at hrun
    split at hrun
    · rename_i s2 hs
      exact ih s2 s1 (hsane.sane_step hk hfail hs) (h.blame_step hbefore hsane hs) hrun
    · cases hrun

end parallel
